import Mathlib

/-!
Verification of the Parquet columnar encode/decode core described by the
repository's specification, together with an embedding of the fixture tables
constructed by the repository's data-generation script
(src/simple-datagen.py).  The script itself only declares schemas and data
and invokes a third-party writer; the encode/decode engine (record
shredding, value encodings, footer handling, statistics) exists only as the
specification's design, so those parts are modelled from the spec and the
fixture data is transcribed from the script.
-/

set_option maxRecDepth 10000

/-- A primitive (leaf) value: the physical payloads the engine moves around.
Floating-point columns are represented by their raw bit patterns, since the
encoder layer only transports bytes and never performs float arithmetic. -/
inductive LeafVal where
  | intV (i : Int)
  | strV (s : String)
  | boolV (b : Bool)
  | bytesV (bs : List Nat)
deriving DecidableEq, Repr

mutual
/-- Modelled from the spec: SchemaNode (§3).  A leaf holds physical values;
struct/list/map nodes are structural.  A list is the implicit wrapper group
containing one repeated child; a map is a repeated group of (key, value)
pairs.  The `nullable` flag marks the node optional. -/
inductive Schema where
  | leaf (nullable : Bool)
  | strct (nullable : Bool) (fields : Fields)
  | listN (nullable : Bool) (elem : Schema)
  | mapN (nullable : Bool) (key : Schema) (val : Schema)
deriving DecidableEq, Repr

/-- Ordered field list of a struct schema node. -/
inductive Fields where
  | nil
  | cons (name : String) (s : Schema) (rest : Fields)
deriving DecidableEq, Repr
end

mutual
/-- Modelled from the spec: a nested logical value tree (§3, §4.2) with an
explicit null marker at every level. -/
inductive Value where
  | nullV
  | leafV (x : LeafVal)
  | strctV (fields : Values)
  | listV (elems : Values)
  | mapV (entries : Entries)
deriving DecidableEq, Repr

/-- A sequence of nested values (struct fields or list elements). -/
inductive Values where
  | nil
  | cons (v : Value) (vs : Values)
deriving DecidableEq, Repr

/-- A sequence of map entries (key/value pairs of nested values). -/
inductive Entries where
  | nil
  | cons (k v : Value) (rest : Entries)
deriving DecidableEq, Repr
end

mutual
/-- Number of leaf columns under a schema node. -/
def nLeaves : Schema → Nat
  | .leaf _ => 1
  | .strct _ fs => nLeavesF fs
  | .listN _ e => nLeaves e
  | .mapN _ k w => nLeaves k + nLeaves w

/-- Number of leaf columns under a field list. -/
def nLeavesF : Fields → Nat
  | .nil => 0
  | .cons _ s rest => nLeaves s + nLeavesF rest
end

/-- Definition-depth increment contributed by an optional node (§4.2). -/
def dInc (n : Bool) (d : Nat) : Nat := if n then d + 1 else d

theorem dInc_true (d : Nat) : dInc true d = d + 1 := rfl

theorem dInc_false (d : Nat) : dInc false d = d := rfl

mutual
/-- Does a value tree conform to a schema?  Null is allowed only at nullable
nodes; composite shapes must match the schema node kind. -/
def conforms : Schema → Value → Bool
  | .leaf n, .nullV => n
  | .leaf _, .leafV _ => true
  | .strct n _, .nullV => n
  | .strct _ fs, .strctV vs => conformsF fs vs
  | .listN n _, .nullV => n
  | .listN _ e, .listV vs => conformsL e vs
  | .mapN n _ _, .nullV => n
  | .mapN _ k w, .mapV es => conformsE k w es
  | _, _ => false

/-- Struct fields conform pointwise and the arities agree. -/
def conformsF : Fields → Values → Bool
  | .nil, .nil => true
  | .cons _ s fs, .cons v vs => conforms s v && conformsF fs vs
  | _, _ => false

/-- Every list element conforms to the element schema. -/
def conformsL : Schema → Values → Bool
  | _, .nil => true
  | e, .cons v vs => conforms e v && conformsL e vs

/-- Every map entry's key and value conform to their schemas. -/
def conformsE : Schema → Schema → Entries → Bool
  | _, _, .nil => true
  | k, w, .cons kv vv es => conforms k kv && conforms w vv && conformsE k w es
end

/-- The nullable flag at the root of a schema node. -/
def nullableOf : Schema → Bool
  | .leaf n => n
  | .strct n _ => n
  | .listN n _ => n
  | .mapN n _ _ => n

mutual
/-- Schema well-formedness: structs have at least one field (so every node
owns at least one leaf column) and map keys are never nullable (§3). -/
def goodSchema : Schema → Bool
  | .leaf _ => true
  | .strct _ .nil => false
  | .strct _ fs => goodFields fs
  | .listN _ e => goodSchema e
  | .mapN _ k w => !nullableOf k && goodSchema k && goodSchema w

/-- Well-formedness of a field list. -/
def goodFields : Fields → Bool
  | .nil => true
  | .cons _ s fs => goodSchema s && goodFields fs
end

/-- One shredded occurrence for a leaf column: optional value, repetition
level, definition level (§3, ShreddedColumn). -/
structure Triple where
  val : Option LeafVal
  rep : Nat
  dl : Nat
deriving DecidableEq, Repr

/-- The triple stream of one leaf column. -/
abbrev Column := List Triple

/-- Concatenate two column sets columnwise (same leaf order). -/
def columnsAppend (a b : List Column) : List Column := List.zipWith (· ++ ·) a b

/-- One absent-marker triple for every leaf column of a subtree: emitted when
an optional ancestor is null, truncating the definition depth there (§4.2). -/
def nullCols (s : Schema) (r d : Nat) : List Column :=
  List.replicate (nLeaves s) [⟨none, r, d⟩]

mutual
/-- Modelled from the spec: the write direction of the repetition/definition
level engine (§4.2, record shredding).  `r` is the repetition level for the
first occurrence emitted by this subtree, `d` the definition depth accrued
from present ancestors, `rd` the number of repeated ancestors entered.
Emits one triple stream per leaf column of `s`. -/
def shredV (s : Schema) (v : Value) (r d rd : Nat) : List Column :=
  match s, v with
  | .leaf n, .leafV x => [[⟨some x, r, dInc n d⟩]]
  | .strct n fs, .strctV vs => shredF fs vs r (dInc n d) rd
  | .listN n e, .listV .nil => List.replicate (nLeaves e) [⟨none, r, dInc n d⟩]
  | .listN n e, .listV (.cons v0 vs) =>
      columnsAppend (shredV e v0 r (dInc n d + 1) (rd + 1))
        (shredL e vs (dInc n d + 1) (rd + 1))
  | .mapN n k w, .mapV .nil =>
      List.replicate (nLeaves k + nLeaves w) [⟨none, r, dInc n d⟩]
  | .mapN n k w, .mapV (.cons k0 w0 es) =>
      columnsAppend
        (shredV k k0 r (dInc n d + 1) (rd + 1) ++ shredV w w0 r (dInc n d + 1) (rd + 1))
        (shredE k w es (dInc n d + 1) (rd + 1))
  | s, _ => nullCols s r d

/-- Shred the fields of a present struct, columns side by side. -/
def shredF (fs : Fields) (vs : Values) (r d rd : Nat) : List Column :=
  match fs, vs with
  | .cons _ s fs, .cons v vs => shredV s v r d rd ++ shredF fs vs r d rd
  | _, _ => []

/-- Shred the second and later elements of a repeated group: each opens with
repetition level `rd`, the full repeated-ancestor depth (§4.2). -/
def shredL (e : Schema) (vs : Values) (d rd : Nat) : List Column :=
  match vs with
  | .nil => List.replicate (nLeaves e) []
  | .cons v vs => columnsAppend (shredV e v rd d rd) (shredL e vs d rd)

/-- Shred the second and later entries of a map's repeated key/value group. -/
def shredE (k w : Schema) (es : Entries) (d rd : Nat) : List Column :=
  match es with
  | .nil => List.replicate (nLeaves k + nLeaves w) []
  | .cons kv vv es =>
      columnsAppend (shredV k kv rd d rd ++ shredV w vv rd d rd) (shredE k w es d rd)
end

/-- Shred one record: level counters start at zero (§4.2). -/
def shred (s : Schema) (v : Value) : List Column := shredV s v 0 0 0

/-- Shred a sequence of records, concatenating the per-column streams in
record order; every record opens with repetition level 0. -/
def shredRecords (s : Schema) (vs : List Value) : List Column :=
  vs.foldr (fun v acc => columnsAppend (shred s v) acc)
    (List.replicate (nLeaves s) [])

mutual
/-- Modelled from the spec: per-leaf column descriptors (§3).  Given the
repetition and definition depth already contributed by ancestors, returns
(maxRepetitionLevel, maxDefinitionLevel) for each leaf under the node. -/
def descs : Schema → Nat → Nat → List (Nat × Nat)
  | .leaf n, rm, dm => [(rm, dInc n dm)]
  | .strct n fs, rm, dm => descsF fs rm (dInc n dm)
  | .listN n e, rm, dm => descs e (rm + 1) (dInc n dm + 1)
  | .mapN n k w, rm, dm =>
      descs k (rm + 1) (dInc n dm + 1) ++ descs w (rm + 1) (dInc n dm + 1)

/-- Descriptors of the leaves under a field list. -/
def descsF : Fields → Nat → Nat → List (Nat × Nat)
  | .nil, _, _ => []
  | .cons _ s fs, rm, dm => descs s rm dm ++ descsF fs rm dm
end

/-- Column descriptors of a whole schema, counters starting at zero. -/
def leafDescs (s : Schema) : List (Nat × Nat) := descs s 0 0

/-- Definition level of the first triple of the first column, used by the
assembler to decide how many ancestor levels are present (§4.2). -/
def peekDL (cols : List Column) : Option Nat :=
  match cols with
  | (t :: _) :: _ => some t.dl
  | _ => none

/-- Repetition level of the first triple of the first column, used by the
assembler to decide whether a repeated group continues (§4.2). -/
def peekRep (cols : List Column) : Option Nat :=
  match cols with
  | (t :: _) :: _ => some t.rep
  | _ => none

/-- Consume one triple from every column (an absent-marker or empty-group
marker occupies one triple in each leaf column of the subtree). -/
def dropOne : List Column → Option (List Column)
  | [] => some []
  | [] :: _ => none
  | (_ :: c) :: rest => (dropOne rest).map (c :: ·)

mutual
/-- Modelled from the spec: the read direction of the level engine (§4.2,
record assembly).  Walks the schema tree; each triple's definition level
decides how many ancestor levels are present, repetition level decides when
a repeated group continues.  `fuel` bounds recursion depth; the public
`assemble` supplies a sufficient amount.  Returns the reconstructed value
and the unconsumed suffix of every column. -/
def assembleV (fuel : Nat) (s : Schema) (rd d : Nat) (cols : List Column) :
    Option (Value × List Column) :=
  match fuel with
  | 0 => none
  | fuel + 1 =>
    match s with
    | .leaf n =>
      match cols with
      | [⟨ov, _, dl⟩ :: rest] =>
        if n then
          if dl = d + 1 then
            match ov with
            | some x => some (.leafV x, [rest])
            | none => none
          else if dl = d then
            match ov with
            | none => some (.nullV, [rest])
            | some _ => none
          else none
        else
          if dl = d then
            match ov with
            | some x => some (.leafV x, [rest])
            | none => none
          else none
      | _ => none
    | .strct n fs =>
      match peekDL cols with
      | none => none
      | some dl =>
        if n && decide (dl ≤ d) then do
          let rest ← dropOne cols
          some (.nullV, rest)
        else do
          let (vs, rest) ← assembleF fuel fs rd (dInc n d) cols
          some (.strctV vs, rest)
    | .listN n e =>
      match peekDL cols with
      | none => none
      | some dl =>
        if n && decide (dl = d) then do
          let rest ← dropOne cols
          some (.nullV, rest)
        else if dl = dInc n d then do
          let rest ← dropOne cols
          some (.listV .nil, rest)
        else do
          let (v0, c1) ← assembleV fuel e (rd + 1) (dInc n d + 1) cols
          let (vs, c2) ← assembleL fuel e (rd + 1) (dInc n d + 1) c1
          some (.listV (.cons v0 vs), c2)
    | .mapN n k w =>
      match peekDL cols with
      | none => none
      | some dl =>
        if n && decide (dl = d) then do
          let rest ← dropOne cols
          some (.nullV, rest)
        else if dl = dInc n d then do
          let rest ← dropOne cols
          some (.mapV .nil, rest)
        else do
          let (k0, kc) ← assembleV fuel k (rd + 1) (dInc n d + 1) (cols.take (nLeaves k))
          let (w0, wc) ← assembleV fuel w (rd + 1) (dInc n d + 1) (cols.drop (nLeaves k))
          let (es, c2) ← assembleE fuel k w (rd + 1) (dInc n d + 1) (kc ++ wc)
          some (.mapV (.cons k0 w0 es), c2)

/-- Assemble the fields of a present struct, slicing the column set by each
field's leaf count. -/
def assembleF (fuel : Nat) (fs : Fields) (rd d : Nat) (cols : List Column) :
    Option (Values × List Column) :=
  match fuel with
  | 0 => none
  | fuel + 1 =>
    match fs with
    | .nil => some (.nil, cols)
    | .cons _ s fs => do
        let (v, c1) ← assembleV fuel s rd d (cols.take (nLeaves s))
        let (vs, c2) ← assembleF fuel fs rd d (cols.drop (nLeaves s))
        some (.cons v vs, c1 ++ c2)

/-- Assemble further list elements while the next triple's repetition level
equals the group's repeated depth `rd`. -/
def assembleL (fuel : Nat) (e : Schema) (rd d : Nat) (cols : List Column) :
    Option (Values × List Column) :=
  match fuel with
  | 0 => none
  | fuel + 1 =>
    match peekRep cols with
    | some r =>
      if r = rd then do
        let (v, c1) ← assembleV fuel e rd d cols
        let (vs, c2) ← assembleL fuel e rd d c1
        some (.cons v vs, c2)
      else some (.nil, cols)
    | none => some (.nil, cols)

/-- Assemble further map entries while the next triple's repetition level
equals the group's repeated depth `rd`. -/
def assembleE (fuel : Nat) (k w : Schema) (rd d : Nat) (cols : List Column) :
    Option (Entries × List Column) :=
  match fuel with
  | 0 => none
  | fuel + 1 =>
    match peekRep cols with
    | some r =>
      if r = rd then do
        let (kv, kc) ← assembleV fuel k rd d (cols.take (nLeaves k))
        let (wv, wc) ← assembleV fuel w rd d (cols.drop (nLeaves k))
        let (es, c2) ← assembleE fuel k w rd d (kc ++ wc)
        some (.cons kv wv es, c2)
      else some (.nil, cols)
    | none => some (.nil, cols)
end

mutual
/-- Size of a schema tree, used to budget assembly fuel. -/
def schSize : Schema → Nat
  | .leaf _ => 1
  | .strct _ fs => 1 + schSizeF fs
  | .listN _ e => 1 + schSize e
  | .mapN _ k w => 1 + schSize k + schSize w

/-- Size of a field list. -/
def schSizeF : Fields → Nat
  | .nil => 1
  | .cons _ s fs => schSize s + schSizeF fs
end

/-- Total number of triples across a column set. -/
def sumLen (cols : List Column) : Nat := (cols.map List.length).sum

/-- Fuel budget sufficient to assemble any value shredded from a well-formed
schema (proved below). -/
def fuelBound (s : Schema) (cols : List Column) : Nat :=
  schSize s * (sumLen cols + 1)

/-- Assemble one record from its shredded columns; all column suffixes must
be exhausted. -/
def assemble (s : Schema) (cols : List Column) : Option Value :=
  match assembleV (fuelBound s cols) s 0 0 cols with
  | some (v, rest) => if rest.all List.isEmpty then some v else none
  | none => none

theorem colApp_length (A B : List Column) :
    (columnsAppend A B).length = min A.length B.length := List.length_zipWith ..

theorem colApp_assoc (A B C : List Column) :
    columnsAppend (columnsAppend A B) C = columnsAppend A (columnsAppend B C) := by
  induction A generalizing B C with
  | nil => simp [columnsAppend]
  | cons a A ih =>
    cases B with
    | nil => simp [columnsAppend]
    | cons b B =>
      cases C with
      | nil => simp [columnsAppend]
      | cons c C =>
        simp only [columnsAppend, List.zipWith, List.append_assoc] at *
        exact congrArg _ (ih B C)

theorem colApp_nil_right (A : List Column) (n : Nat) (h : A.length = n) :
    columnsAppend A (List.replicate n []) = A := by
  induction A generalizing n with
  | nil => simp [columnsAppend]
  | cons a A ih =>
    subst h
    simp only [List.length_cons, List.replicate, columnsAppend, List.zipWith,
      List.append_nil]
    exact congrArg _ (ih A.length rfl)

theorem colApp_replicate_nil (A : List Column) (n : Nat) (h : A.length = n) :
    columnsAppend (List.replicate n []) A = A := by
  induction A generalizing n with
  | nil => simp [columnsAppend]
  | cons a A ih =>
    subst h
    simp only [List.length_cons, List.replicate, columnsAppend, List.zipWith,
      List.nil_append]
    exact congrArg _ (ih A.length rfl)

theorem dropOne_marker (t : Triple) (A : List Column) (n : Nat) (h : A.length = n) :
    dropOne (columnsAppend (List.replicate n [t]) A) = some A := by
  induction A generalizing n with
  | nil => subst h; rfl
  | cons a A ih =>
    subst h
    simp only [List.length_cons, List.replicate, columnsAppend, List.zipWith,
      List.singleton_append, dropOne]
    have := ih A.length rfl
    simp only [columnsAppend] at this
    simp [this]

theorem colApp_split (A B R : List Column) :
    columnsAppend (A ++ B) R =
      columnsAppend A (R.take A.length) ++ columnsAppend B (R.drop A.length) := by
  induction A generalizing R with
  | nil => simp [columnsAppend]
  | cons a A ih =>
    cases R with
    | nil => simp [columnsAppend]
    | cons r R =>
      simp only [List.cons_append, columnsAppend, List.zipWith, List.length_cons,
        List.take_succ_cons, List.drop_succ_cons] at *
      exact congrArg _ (ih R)

theorem mem_colApp {c : Column} {A B : List Column} (h : c ∈ columnsAppend A B) :
    ∃ a b, a ∈ A ∧ b ∈ B ∧ c = a ++ b := by
  induction A generalizing B with
  | nil => simp [columnsAppend] at h
  | cons a A ih =>
    cases B with
    | nil => simp [columnsAppend] at h
    | cons b B =>
      simp only [columnsAppend, List.zipWith, List.mem_cons] at h
      rcases h with h | h
      · exact ⟨a, b, List.mem_cons_self .., List.mem_cons_self .., h⟩
      · obtain ⟨a', b', ha, hb, rfl⟩ := ih h
        exact ⟨a', b', List.mem_cons_of_mem _ ha, List.mem_cons_of_mem _ hb, rfl⟩

/-- Every column's first triple (when any) satisfies `P`. -/
def heads (cols : List Column) (P : Triple → Prop) : Prop :=
  ∀ c ∈ cols, ∀ t, c.head? = some t → P t

theorem heads_colApp {P : Triple → Prop} {A B : List Column}
    (hA : heads A P) (hB : heads B P) : heads (columnsAppend A B) P := by
  intro c hc t ht
  obtain ⟨a, b, ha, hb, rfl⟩ := mem_colApp hc
  rw [List.head?_append] at ht
  cases hhead : a.head? with
  | some u => rw [hhead] at ht; simp at ht; exact hA a ha t (by rw [hhead, ht])
  | none => rw [hhead] at ht; simp at ht; exact hB b hb t ht

theorem heads_take {P : Triple → Prop} {A : List Column} (n : Nat)
    (hA : heads A P) : heads (A.take n) P :=
  fun c hc => hA c (List.mem_of_mem_take hc)

theorem heads_drop {P : Triple → Prop} {A : List Column} (n : Nat)
    (hA : heads A P) : heads (A.drop n) P :=
  fun c hc => hA c (List.mem_of_mem_drop hc)

theorem heads_replicate_nil {P : Triple → Prop} (n : Nat) :
    heads (List.replicate n []) P := by
  intro c hc t ht
  rw [List.eq_of_mem_replicate hc] at ht
  simp at ht

theorem heads_replicate_single {P : Triple → Prop} (n : Nat) (t0 : Triple)
    (h : P t0) : heads (List.replicate n [t0]) P := by
  intro c hc t ht
  rw [List.eq_of_mem_replicate hc] at ht
  simp at ht
  rwa [← ht]

mutual
theorem nLeaves_pos (s : Schema) (hg : goodSchema s = true) : 1 ≤ nLeaves s := by
  cases s with
  | leaf n => simp [nLeaves]
  | strct n fs =>
    cases fs with
    | nil => simp [goodSchema] at hg
    | cons nm s0 fs0 =>
      simp only [goodSchema] at hg
      simpa [nLeaves] using nLeavesF_pos nm s0 fs0 hg
  | listN n e =>
    simp only [goodSchema] at hg
    simpa [nLeaves] using nLeaves_pos e hg
  | mapN n k w =>
    simp only [goodSchema, Bool.and_eq_true] at hg
    have := nLeaves_pos k hg.1.2
    simp [nLeaves]; omega

theorem nLeavesF_pos (nm : String) (s : Schema) (fs : Fields)
    (hg : goodFields (.cons nm s fs) = true) : 1 ≤ nLeavesF (.cons nm s fs) := by
  simp only [goodFields, Bool.and_eq_true] at hg
  have := nLeaves_pos s hg.1
  simp [nLeavesF]; omega
end

mutual
theorem lenShredV (s : Schema) (v : Value) (r d rd : Nat) (hc : conforms s v = true) :
    (shredV s v r d rd).length = nLeaves s := by
  cases s with
  | leaf n =>
    cases v with
    | leafV x => simp [shredV, nLeaves]
    | nullV => simp [shredV, nullCols, nLeaves]
    | strctV vs => simp [shredV, nullCols]
    | listV vs => simp [shredV, nullCols]
    | mapV es => simp [shredV, nullCols]
  | strct n fs =>
    cases v with
    | strctV vs =>
      simp only [conforms] at hc
      simpa [shredV, nLeaves] using lenShredF fs vs r (dInc n d) rd hc
    | nullV => simp [shredV, nullCols]
    | leafV x => simp [shredV, nullCols]
    | listV vs => simp [shredV, nullCols]
    | mapV es => simp [shredV, nullCols]
  | listN n e =>
    cases v with
    | listV vs =>
      cases vs with
      | nil => simp [shredV, nLeaves]
      | cons v0 vs =>
        simp only [conforms, conformsL, Bool.and_eq_true] at hc
        have h1 := lenShredV e v0 r (dInc n d + 1) (rd + 1) hc.1
        have h2 := lenShredL e vs (dInc n d + 1) (rd + 1) hc.2
        simp [shredV, colApp_length, h1, h2, nLeaves]
    | nullV => simp [shredV, nullCols]
    | leafV x => simp [shredV, nullCols]
    | strctV vs => simp [shredV, nullCols]
    | mapV es => simp [shredV, nullCols]
  | mapN n k w =>
    cases v with
    | mapV es =>
      cases es with
      | nil => simp [shredV, nLeaves]
      | cons k0 w0 es =>
        simp only [conforms, conformsE, Bool.and_eq_true] at hc
        have h1 := lenShredV k k0 r (dInc n d + 1) (rd + 1) hc.1.1
        have h2 := lenShredV w w0 r (dInc n d + 1) (rd + 1) hc.1.2
        have h3 := lenShredE k w es (dInc n d + 1) (rd + 1) hc.2
        simp [shredV, colApp_length, h1, h2, h3, nLeaves]
    | nullV => simp [shredV, nullCols]
    | leafV x => simp [shredV, nullCols]
    | strctV vs => simp [shredV, nullCols]
    | listV vs => simp [shredV, nullCols]

theorem lenShredF (fs : Fields) (vs : Values) (r d rd : Nat)
    (hc : conformsF fs vs = true) :
    (shredF fs vs r d rd).length = nLeavesF fs := by
  cases fs with
  | nil =>
    cases vs with
    | nil => simp [shredF, nLeavesF]
    | cons v vs => simp [conformsF] at hc
  | cons nm s fs =>
    cases vs with
    | nil => simp [conformsF] at hc
    | cons v vs =>
      simp only [conformsF, Bool.and_eq_true] at hc
      have h1 := lenShredV s v r d rd hc.1
      have h2 := lenShredF fs vs r d rd hc.2
      simp [shredF, h1, h2, nLeavesF]

theorem lenShredL (e : Schema) (vs : Values) (d rd : Nat)
    (hc : conformsL e vs = true) :
    (shredL e vs d rd).length = nLeaves e := by
  cases vs with
  | nil => simp [shredL]
  | cons v vs =>
    simp only [conformsL, Bool.and_eq_true] at hc
    have h1 := lenShredV e v rd d rd hc.1
    have h2 := lenShredL e vs d rd hc.2
    simp [shredL, colApp_length, h1, h2]

theorem lenShredE (k w : Schema) (es : Entries) (d rd : Nat)
    (hc : conformsE k w es = true) :
    (shredE k w es d rd).length = nLeaves k + nLeaves w := by
  cases es with
  | nil => simp [shredE]
  | cons kv vv es =>
    simp only [conformsE, Bool.and_eq_true] at hc
    have h1 := lenShredV k kv rd d rd hc.1.1
    have h2 := lenShredV w vv rd d rd hc.1.2
    have h3 := lenShredE k w es d rd hc.2
    simp [shredE, colApp_length, h1, h2, h3]
end

mutual
theorem headShredV (s : Schema) (v : Value) (r d rd : Nat)
    (hg : goodSchema s = true) (hc : conforms s v = true) :
    ∀ c ∈ shredV s v r d rd, ∃ t ts, c = t :: ts ∧ t.rep = r ∧ d ≤ t.dl := by
  cases s with
  | leaf n =>
    cases v with
    | leafV x =>
      intro c hcm
      simp only [shredV, List.mem_singleton] at hcm
      exact ⟨_, _, hcm, rfl, by simp [dInc]; split <;> omega⟩
    | nullV =>
      intro c hcm
      simp only [shredV] at hcm
      rw [List.eq_of_mem_replicate hcm]
      exact ⟨_, _, rfl, rfl, le_refl _⟩
    | strctV vs => simp [conforms] at hc
    | listV vs => simp [conforms] at hc
    | mapV es => simp [conforms] at hc
  | strct n fs =>
    cases v with
    | strctV vs =>
      cases fs with
      | nil => simp [goodSchema] at hg
      | cons nm s0 fs0 =>
        simp only [goodSchema] at hg
        simp only [conforms] at hc
        intro c hcm
        simp only [shredV] at hcm
        obtain ⟨t, ts, rfl, hr, hd⟩ :=
          headShredF (.cons nm s0 fs0) vs r (dInc n d) rd hg hc c hcm
        exact ⟨t, ts, rfl, hr, le_trans (by simp [dInc]; split <;> omega) hd⟩
    | nullV =>
      intro c hcm
      simp only [shredV] at hcm
      rw [List.eq_of_mem_replicate hcm]
      exact ⟨_, _, rfl, rfl, le_refl _⟩
    | leafV x => simp [conforms] at hc
    | listV vs => simp [conforms] at hc
    | mapV es => simp [conforms] at hc
  | listN n e =>
    cases v with
    | listV vs =>
      cases vs with
      | nil =>
        intro c hcm
        simp only [shredV] at hcm
        rw [List.eq_of_mem_replicate hcm]
        exact ⟨_, _, rfl, rfl, by simp [dInc]; split <;> omega⟩
      | cons v0 vs =>
        simp only [goodSchema] at hg
        simp only [conforms, conformsL, Bool.and_eq_true] at hc
        intro c hcm
        simp only [shredV] at hcm
        obtain ⟨a, b, ha, hb, rfl⟩ := mem_colApp hcm
        obtain ⟨t, ts, rfl, hr, hd⟩ :=
          headShredV e v0 r (dInc n d + 1) (rd + 1) hg hc.1 a ha
        exact ⟨t, ts ++ b, rfl, hr, le_trans (by simp [dInc]; split <;> omega) hd⟩
    | nullV =>
      intro c hcm
      simp only [shredV] at hcm
      rw [List.eq_of_mem_replicate hcm]
      exact ⟨_, _, rfl, rfl, le_refl _⟩
    | leafV x => simp [conforms] at hc
    | strctV vs => simp [conforms] at hc
    | mapV es => simp [conforms] at hc
  | mapN n k w =>
    cases v with
    | mapV es =>
      cases es with
      | nil =>
        intro c hcm
        simp only [shredV] at hcm
        rw [List.eq_of_mem_replicate hcm]
        exact ⟨_, _, rfl, rfl, by simp [dInc]; split <;> omega⟩
      | cons k0 w0 es =>
        simp only [goodSchema, Bool.and_eq_true] at hg
        simp only [conforms, conformsE, Bool.and_eq_true] at hc
        intro c hcm
        simp only [shredV] at hcm
        obtain ⟨a, b, ha, hb, rfl⟩ := mem_colApp hcm
        rcases List.mem_append.mp ha with ha | ha
        · obtain ⟨t, ts, rfl, hr, hd⟩ :=
            headShredV k k0 r (dInc n d + 1) (rd + 1) hg.1.2 hc.1.1 a ha
          exact ⟨t, ts ++ b, rfl, hr, le_trans (by simp [dInc]; split <;> omega) hd⟩
        · obtain ⟨t, ts, rfl, hr, hd⟩ :=
            headShredV w w0 r (dInc n d + 1) (rd + 1) hg.2 hc.1.2 a ha
          exact ⟨t, ts ++ b, rfl, hr, le_trans (by simp [dInc]; split <;> omega) hd⟩
    | nullV =>
      intro c hcm
      simp only [shredV] at hcm
      rw [List.eq_of_mem_replicate hcm]
      exact ⟨_, _, rfl, rfl, le_refl _⟩
    | leafV x => simp [conforms] at hc
    | strctV vs => simp [conforms] at hc
    | listV vs => simp [conforms] at hc

theorem headShredF (fs : Fields) (vs : Values) (r d rd : Nat)
    (hg : goodFields fs = true) (hc : conformsF fs vs = true) :
    ∀ c ∈ shredF fs vs r d rd, ∃ t ts, c = t :: ts ∧ t.rep = r ∧ d ≤ t.dl := by
  cases fs with
  | nil =>
    cases vs with
    | nil => intro c hcm; simp [shredF] at hcm
    | cons v vs => simp [conformsF] at hc
  | cons nm s fs =>
    cases vs with
    | nil => simp [conformsF] at hc
    | cons v vs =>
      simp only [goodFields, Bool.and_eq_true] at hg
      simp only [conformsF, Bool.and_eq_true] at hc
      intro c hcm
      simp only [shredF] at hcm
      rcases List.mem_append.mp hcm with hm | hm
      · exact headShredV s v r d rd hg.1 hc.1 c hm
      · exact headShredF fs vs r d rd hg.2 hc.2 c hm

theorem headShredL (e : Schema) (vs : Values) (d rd : Nat)
    (hg : goodSchema e = true) (hc : conformsL e vs = true) :
    ∀ c ∈ shredL e vs d rd, ∀ t, c.head? = some t → t.rep = rd ∧ d ≤ t.dl := by
  cases vs with
  | nil =>
    intro c hcm t ht
    simp only [shredL] at hcm
    rw [List.eq_of_mem_replicate hcm] at ht
    simp at ht
  | cons v vs =>
    simp only [conformsL, Bool.and_eq_true] at hc
    intro c hcm t ht
    simp only [shredL] at hcm
    obtain ⟨a, b, ha, hb, rfl⟩ := mem_colApp hcm
    obtain ⟨t0, ts, rfl, hr, hd⟩ := headShredV e v rd d rd hg hc.1 a ha
    simp only [List.cons_append, List.head?_cons, Option.some_inj] at ht
    subst ht
    exact ⟨hr, hd⟩

theorem headShredE (k w : Schema) (es : Entries) (d rd : Nat)
    (hgk : goodSchema k = true) (hgw : goodSchema w = true)
    (hc : conformsE k w es = true) :
    ∀ c ∈ shredE k w es d rd, ∀ t, c.head? = some t → t.rep = rd ∧ d ≤ t.dl := by
  cases es with
  | nil =>
    intro c hcm t ht
    simp only [shredE] at hcm
    rw [List.eq_of_mem_replicate hcm] at ht
    simp at ht
  | cons kv vv es =>
    simp only [conformsE, Bool.and_eq_true] at hc
    intro c hcm t ht
    simp only [shredE] at hcm
    obtain ⟨a, b, ha, hb, rfl⟩ := mem_colApp hcm
    rcases List.mem_append.mp ha with ha | ha
    · obtain ⟨t0, ts, rfl, hr, hd⟩ := headShredV k kv rd d rd hgk hc.1.1 a ha
      simp only [List.cons_append, List.head?_cons, Option.some_inj] at ht
      subst ht
      exact ⟨hr, hd⟩
    · obtain ⟨t0, ts, rfl, hr, hd⟩ := headShredV w vv rd d rd hgw hc.1.2 a ha
      simp only [List.cons_append, List.head?_cons, Option.some_inj] at ht
      subst ht
      exact ⟨hr, hd⟩
end

mutual
/-- Assembly fuel needed for a value: depth of the assembler's call tree. -/
def needV : Value → Nat
  | .nullV => 1
  | .leafV _ => 1
  | .strctV vs => 1 + needF vs
  | .listV .nil => 1
  | .listV (.cons v vs) => 1 + max (needV v) (needL vs)
  | .mapV .nil => 1
  | .mapV (.cons k w es) => 1 + max (max (needV k) (needV w)) (needE es)

/-- Fuel needed to assemble a struct's field values. -/
def needF : Values → Nat
  | .nil => 1
  | .cons v vs => 1 + max (needV v) (needF vs)

/-- Fuel needed to assemble the later elements of a list. -/
def needL : Values → Nat
  | .nil => 1
  | .cons v vs => 1 + max (needV v) (needL vs)

/-- Fuel needed to assemble the later entries of a map. -/
def needE : Entries → Nat
  | .nil => 1
  | .cons k w es => 1 + max (max (needV k) (needV w)) (needE es)
end

theorem needF_pos (vs : Values) : 1 ≤ needF vs := by
  cases vs <;> simp [needF]

theorem needL_pos (vs : Values) : 1 ≤ needL vs := by
  cases vs <;> simp [needL]

theorem needE_pos (es : Entries) : 1 ≤ needE es := by
  cases es <;> simp [needE]

mutual
theorem schSize_pos (s : Schema) : 1 ≤ schSize s := by
  cases s with
  | leaf n => simp [schSize]
  | strct n fs => simp [schSize]
  | listN n e => simp [schSize]
  | mapN n k w => simp [schSize]; omega

theorem schSizeF_pos (fs : Fields) : 1 ≤ schSizeF fs := by
  cases fs with
  | nil => simp [schSizeF]
  | cons nm s fs =>
    have := schSize_pos s
    simp [schSizeF]; omega
end

theorem sumLen_append (A B : List Column) : sumLen (A ++ B) = sumLen A + sumLen B := by
  simp [sumLen]

theorem sumLen_colApp (A B : List Column) (h : A.length = B.length) :
    sumLen (columnsAppend A B) = sumLen A + sumLen B := by
  induction A generalizing B with
  | nil =>
    cases B with
    | nil => simp [sumLen, columnsAppend]
    | cons b B => simp at h
  | cons a A ih =>
    cases B with
    | nil => simp at h
    | cons b B =>
      simp only [List.length_cons, Nat.add_right_cancel_iff] at h
      have := ih B h
      simp only [columnsAppend, List.zipWith, sumLen, List.map_cons, List.sum_cons,
        List.length_append] at *
      omega

theorem sumLen_replicate (n : Nat) (c : Column) :
    sumLen (List.replicate n c) = n * c.length := by
  induction n with
  | zero => simp [sumLen]
  | succ m ih =>
    simp only [List.replicate, sumLen, List.map_cons, List.sum_cons] at *
    rw [ih]; ring

theorem sumLen_shredV_pos (s : Schema) (v : Value) (r d rd : Nat)
    (hg : goodSchema s = true) (hc : conforms s v = true) :
    1 ≤ sumLen (shredV s v r d rd) := by
  have hlen := lenShredV s v r d rd hc
  have hpos := nLeaves_pos s hg
  cases hA : shredV s v r d rd with
  | nil => rw [hA] at hlen; simp at hlen; omega
  | cons c rest =>
    have hmem : c ∈ shredV s v r d rd := by rw [hA]; exact List.mem_cons_self ..
    obtain ⟨t, ts, rfl, -, -⟩ := headShredV s v r d rd hg hc c hmem
    simp [hA, sumLen]; omega

theorem nb_null (s : Schema) (r d : Nat) (hg : goodSchema s = true) :
    needV .nullV + 1 ≤ schSize s * (sumLen (nullCols s r d) + 1) := by
  have h1 := nLeaves_pos s hg
  have h2 := schSize_pos s
  simp only [needV, nullCols]
  rw [sumLen_replicate]
  simp only [List.length_singleton, Nat.mul_one]
  have h3 : 1 * 2 ≤ schSize s * (nLeaves s + 1) := Nat.mul_le_mul h2 (by omega)
  linarith

mutual
theorem nbV (s : Schema) (v : Value) (r d rd : Nat)
    (hg : goodSchema s = true) (hc : conforms s v = true) :
    needV v + 1 ≤ schSize s * (sumLen (shredV s v r d rd) + 1) := by
  cases s with
  | leaf n =>
    cases v with
    | leafV x => simp [needV, schSize, shredV, sumLen]
    | nullV => simpa only [shredV] using nb_null (.leaf n) r d hg
    | strctV vs => simp [conforms] at hc
    | listV vs => simp [conforms] at hc
    | mapV es => simp [conforms] at hc
  | strct n fs =>
    cases v with
    | strctV vs =>
      cases fs with
      | nil => simp [goodSchema] at hg
      | cons nm s0 fs0 =>
        have hS := sumLen_shredV_pos (.strct n (.cons nm s0 fs0)) (.strctV vs) r d rd hg hc
        simp only [goodSchema] at hg
        simp only [conforms] at hc
        have hF := nbF (.cons nm s0 fs0) vs r (dInc n d) rd hg hc
        simp only [shredV] at hS ⊢
        simp only [needV, schSize]
        have hexp : (1 + schSizeF (Fields.cons nm s0 fs0)) *
            (sumLen (shredF (Fields.cons nm s0 fs0) vs r (dInc n d) rd) + 1) =
            (sumLen (shredF (Fields.cons nm s0 fs0) vs r (dInc n d) rd) + 1) +
            schSizeF (Fields.cons nm s0 fs0) *
              (sumLen (shredF (Fields.cons nm s0 fs0) vs r (dInc n d) rd) + 1) := by
          ring
        rw [hexp]
        linarith
    | nullV => simpa only [shredV] using nb_null (.strct n fs) r d hg
    | leafV x => simp [conforms] at hc
    | listV vs => simp [conforms] at hc
    | mapV es => simp [conforms] at hc
  | listN n e =>
    cases v with
    | listV vs =>
      cases vs with
      | nil =>
        simp only [goodSchema] at hg
        have h1 := nLeaves_pos e hg
        have h2 := schSize_pos e
        simp only [shredV, needV, schSize]
        rw [sumLen_replicate]
        simp only [List.length_singleton, Nat.mul_one]
        have h3 : 1 * 2 ≤ (1 + schSize e) * (nLeaves e + 1) :=
          Nat.mul_le_mul (by omega) (by omega)
        linarith
      | cons v0 vs =>
        simp only [goodSchema] at hg
        simp only [conforms, conformsL, Bool.and_eq_true] at hc
        have h1 := nbV e v0 r (dInc n d + 1) (rd + 1) hg hc.1
        have h2 := nbL e vs (dInc n d + 1) (rd + 1) hg hc.2
        have hS0 := sumLen_shredV_pos e v0 r (dInc n d + 1) (rd + 1) hg hc.1
        have hsplit := sumLen_colApp (shredV e v0 r (dInc n d + 1) (rd + 1))
          (shredL e vs (dInc n d + 1) (rd + 1))
          (by rw [lenShredV e v0 _ _ _ hc.1, lenShredL e vs _ _ hc.2])
        simp only [shredV, needV, schSize]
        rw [hsplit]
        have hexp : (1 + schSize e) * (sumLen (shredV e v0 r (dInc n d + 1) (rd + 1)) +
            sumLen (shredL e vs (dInc n d + 1) (rd + 1)) + 1) =
            (sumLen (shredV e v0 r (dInc n d + 1) (rd + 1)) +
              sumLen (shredL e vs (dInc n d + 1) (rd + 1)) + 1) +
            schSize e * (sumLen (shredV e v0 r (dInc n d + 1) (rd + 1)) +
              sumLen (shredL e vs (dInc n d + 1) (rd + 1)) + 1) := by ring
        rw [hexp]
        rcases max_choice (needV v0) (needL vs) with h | h <;> rw [h]
        · have hmono : schSize e * (sumLen (shredV e v0 r (dInc n d + 1) (rd + 1)) + 1) ≤
              schSize e * (sumLen (shredV e v0 r (dInc n d + 1) (rd + 1)) +
                sumLen (shredL e vs (dInc n d + 1) (rd + 1)) + 1) :=
            Nat.mul_le_mul_left _ (by omega)
          linarith
        · have hmono : schSize e * (sumLen (shredL e vs (dInc n d + 1) (rd + 1)) + 1) ≤
              schSize e * (sumLen (shredV e v0 r (dInc n d + 1) (rd + 1)) +
                sumLen (shredL e vs (dInc n d + 1) (rd + 1)) + 1) :=
            Nat.mul_le_mul_left _ (by omega)
          linarith
    | nullV => simpa only [shredV] using nb_null (.listN n e) r d hg
    | leafV x => simp [conforms] at hc
    | strctV vs => simp [conforms] at hc
    | mapV es => simp [conforms] at hc
  | mapN n k w =>
    cases v with
    | mapV es =>
      cases es with
      | nil =>
        simp only [goodSchema, Bool.and_eq_true] at hg
        have h1 := nLeaves_pos k hg.1.2
        have h2 := schSize_pos k
        have h3 := schSize_pos w
        simp only [shredV, needV, schSize]
        rw [sumLen_replicate]
        simp only [List.length_singleton, Nat.mul_one]
        have h4 : 1 * 2 ≤ (1 + schSize k + schSize w) * (nLeaves k + nLeaves w + 1) :=
          Nat.mul_le_mul (by omega) (by omega)
        linarith
      | cons k0 w0 es =>
        simp only [goodSchema, Bool.and_eq_true] at hg
        simp only [conforms, conformsE, Bool.and_eq_true] at hc
        have hk := nbV k k0 r (dInc n d + 1) (rd + 1) hg.1.2 hc.1.1
        have hw := nbV w w0 r (dInc n d + 1) (rd + 1) hg.2 hc.1.2
        have he := nbE k w es (dInc n d + 1) (rd + 1) hg.1.2 hg.2 hc.2
        have hSk := sumLen_shredV_pos k k0 r (dInc n d + 1) (rd + 1) hg.1.2 hc.1.1
        have hSw := sumLen_shredV_pos w w0 r (dInc n d + 1) (rd + 1) hg.2 hc.1.2
        have hsplit := sumLen_colApp
          (shredV k k0 r (dInc n d + 1) (rd + 1) ++ shredV w w0 r (dInc n d + 1) (rd + 1))
          (shredE k w es (dInc n d + 1) (rd + 1))
          (by rw [List.length_append, lenShredV k k0 _ _ _ hc.1.1,
                lenShredV w w0 _ _ _ hc.1.2, lenShredE k w es _ _ hc.2])
        simp only [shredV, needV, schSize]
        rw [hsplit, sumLen_append]
        have hexp : (1 + schSize k + schSize w) *
            (sumLen (shredV k k0 r (dInc n d + 1) (rd + 1)) +
              sumLen (shredV w w0 r (dInc n d + 1) (rd + 1)) +
              sumLen (shredE k w es (dInc n d + 1) (rd + 1)) + 1) =
            (sumLen (shredV k k0 r (dInc n d + 1) (rd + 1)) +
              sumLen (shredV w w0 r (dInc n d + 1) (rd + 1)) +
              sumLen (shredE k w es (dInc n d + 1) (rd + 1)) + 1) +
            schSize k * (sumLen (shredV k k0 r (dInc n d + 1) (rd + 1)) +
              sumLen (shredV w w0 r (dInc n d + 1) (rd + 1)) +
              sumLen (shredE k w es (dInc n d + 1) (rd + 1)) + 1) +
            schSize w * (sumLen (shredV k k0 r (dInc n d + 1) (rd + 1)) +
              sumLen (shredV w w0 r (dInc n d + 1) (rd + 1)) +
              sumLen (shredE k w es (dInc n d + 1) (rd + 1)) + 1) := by ring
        rw [hexp]
        have hmk : schSize k * (sumLen (shredV k k0 r (dInc n d + 1) (rd + 1)) + 1) ≤
            schSize k * (sumLen (shredV k k0 r (dInc n d + 1) (rd + 1)) +
              sumLen (shredV w w0 r (dInc n d + 1) (rd + 1)) +
              sumLen (shredE k w es (dInc n d + 1) (rd + 1)) + 1) :=
          Nat.mul_le_mul_left _ (by omega)
        have hmw : schSize w * (sumLen (shredV w w0 r (dInc n d + 1) (rd + 1)) + 1) ≤
            schSize w * (sumLen (shredV k k0 r (dInc n d + 1) (rd + 1)) +
              sumLen (shredV w w0 r (dInc n d + 1) (rd + 1)) +
              sumLen (shredE k w es (dInc n d + 1) (rd + 1)) + 1) :=
          Nat.mul_le_mul_left _ (by omega)
        have hme : needE es ≤
            schSize k * (sumLen (shredV k k0 r (dInc n d + 1) (rd + 1)) +
              sumLen (shredV w w0 r (dInc n d + 1) (rd + 1)) +
              sumLen (shredE k w es (dInc n d + 1) (rd + 1)) + 1) +
            schSize w * (sumLen (shredV k k0 r (dInc n d + 1) (rd + 1)) +
              sumLen (shredV w w0 r (dInc n d + 1) (rd + 1)) +
              sumLen (shredE k w es (dInc n d + 1) (rd + 1)) + 1) := by
          have hstep : (schSize k + schSize w) *
              (sumLen (shredE k w es (dInc n d + 1) (rd + 1)) + 1) ≤
              (schSize k + schSize w) *
                (sumLen (shredV k k0 r (dInc n d + 1) (rd + 1)) +
                  sumLen (shredV w w0 r (dInc n d + 1) (rd + 1)) +
                  sumLen (shredE k w es (dInc n d + 1) (rd + 1)) + 1) :=
            Nat.mul_le_mul_left _ (by omega)
          have hdist : (schSize k + schSize w) *
              (sumLen (shredV k k0 r (dInc n d + 1) (rd + 1)) +
                sumLen (shredV w w0 r (dInc n d + 1) (rd + 1)) +
                sumLen (shredE k w es (dInc n d + 1) (rd + 1)) + 1) =
              schSize k * (sumLen (shredV k k0 r (dInc n d + 1) (rd + 1)) +
                sumLen (shredV w w0 r (dInc n d + 1) (rd + 1)) +
                sumLen (shredE k w es (dInc n d + 1) (rd + 1)) + 1) +
              schSize w * (sumLen (shredV k k0 r (dInc n d + 1) (rd + 1)) +
                sumLen (shredV w w0 r (dInc n d + 1) (rd + 1)) +
                sumLen (shredE k w es (dInc n d + 1) (rd + 1)) + 1) := by ring
          linarith
        rcases max_choice (max (needV k0) (needV w0)) (needE es) with h | h <;> rw [h]
        · rcases max_choice (needV k0) (needV w0) with h2 | h2 <;> rw [h2]
          · linarith
          · linarith
        · linarith
    | nullV => simpa only [shredV] using nb_null (.mapN n k w) r d hg
    | leafV x => simp [conforms] at hc
    | strctV vs => simp [conforms] at hc
    | listV vs => simp [conforms] at hc

theorem nbF (fs : Fields) (vs : Values) (r d rd : Nat)
    (hg : goodFields fs = true) (hc : conformsF fs vs = true) :
    needF vs ≤ schSizeF fs * (sumLen (shredF fs vs r d rd) + 1) := by
  cases fs with
  | nil =>
    cases vs with
    | nil => simp [needF, schSizeF, shredF, sumLen]
    | cons v vs => simp [conformsF] at hc
  | cons nm s fs =>
    cases vs with
    | nil => simp [conformsF] at hc
    | cons v vs =>
      simp only [goodFields, Bool.and_eq_true] at hg
      simp only [conformsF, Bool.and_eq_true] at hc
      have h1 := nbV s v r d rd hg.1 hc.1
      have h2 := nbF fs vs r d rd hg.2 hc.2
      have hcS := schSize_pos s
      have hcF := schSizeF_pos fs
      simp only [shredF, needF, schSizeF]
      rw [sumLen_append]
      have hexp : (schSize s + schSizeF fs) *
          (sumLen (shredV s v r d rd) + sumLen (shredF fs vs r d rd) + 1) =
          schSize s * (sumLen (shredV s v r d rd) + sumLen (shredF fs vs r d rd) + 1) +
          schSizeF fs * (sumLen (shredV s v r d rd) + sumLen (shredF fs vs r d rd) + 1) := by
        ring
      rw [hexp]
      have hm1 : schSize s * (sumLen (shredV s v r d rd) + 1) ≤
          schSize s * (sumLen (shredV s v r d rd) + sumLen (shredF fs vs r d rd) + 1) :=
        Nat.mul_le_mul_left _ (by omega)
      have hm2 : schSizeF fs * (sumLen (shredF fs vs r d rd) + 1) ≤
          schSizeF fs * (sumLen (shredV s v r d rd) + sumLen (shredF fs vs r d rd) + 1) :=
        Nat.mul_le_mul_left _ (by omega)
      have hm3 : 1 * 1 ≤ schSize s *
          (sumLen (shredV s v r d rd) + sumLen (shredF fs vs r d rd) + 1) :=
        Nat.mul_le_mul hcS (by omega)
      have hm4 : 1 * 1 ≤ schSizeF fs *
          (sumLen (shredV s v r d rd) + sumLen (shredF fs vs r d rd) + 1) :=
        Nat.mul_le_mul hcF (by omega)
      rcases max_choice (needV v) (needF vs) with h | h <;> rw [h]
      · linarith
      · linarith

theorem nbL (e : Schema) (vs : Values) (d rd : Nat)
    (hg : goodSchema e = true) (hc : conformsL e vs = true) :
    needL vs ≤ schSize e * (sumLen (shredL e vs d rd) + 1) := by
  cases vs with
  | nil =>
    have := schSize_pos e
    simp only [shredL, needL]
    rw [sumLen_replicate]
    simpa using this
  | cons v vs =>
    simp only [conformsL, Bool.and_eq_true] at hc
    have h1 := nbV e v rd d rd hg hc.1
    have h2 := nbL e vs d rd hg hc.2
    have hSv := sumLen_shredV_pos e v rd d rd hg hc.1
    have hcE := schSize_pos e
    have hsplit := sumLen_colApp (shredV e v rd d rd) (shredL e vs d rd)
      (by rw [lenShredV e v _ _ _ hc.1, lenShredL e vs _ _ hc.2])
    simp only [shredL, needL]
    rw [hsplit]
    rcases max_choice (needV v) (needL vs) with h | h <;> rw [h]
    · have hm : schSize e * (sumLen (shredV e v rd d rd) + 1) ≤
          schSize e * (sumLen (shredV e v rd d rd) + sumLen (shredL e vs d rd) + 1) :=
        Nat.mul_le_mul_left _ (by omega)
      linarith
    · have hexp : schSize e * (sumLen (shredV e v rd d rd) + sumLen (shredL e vs d rd) + 1) =
          schSize e * (sumLen (shredL e vs d rd) + 1) +
            schSize e * sumLen (shredV e v rd d rd) := by ring
      have hm : 1 * 1 ≤ schSize e * sumLen (shredV e v rd d rd) :=
        Nat.mul_le_mul hcE hSv
      rw [hexp]
      linarith

theorem nbE (k w : Schema) (es : Entries) (d rd : Nat)
    (hgk : goodSchema k = true) (hgw : goodSchema w = true)
    (hc : conformsE k w es = true) :
    needE es ≤ (schSize k + schSize w) * (sumLen (shredE k w es d rd) + 1) := by
  cases es with
  | nil =>
    have h1 := schSize_pos k
    simp only [shredE, needE]
    rw [sumLen_replicate]
    simp only [List.length_nil, Nat.mul_zero, Nat.zero_add, Nat.mul_one]
    omega
  | cons kv vv es =>
    simp only [conformsE, Bool.and_eq_true] at hc
    have hk := nbV k kv rd d rd hgk hc.1.1
    have hw := nbV w vv rd d rd hgw hc.1.2
    have he := nbE k w es d rd hgk hgw hc.2
    have hSk := sumLen_shredV_pos k kv rd d rd hgk hc.1.1
    have hSw := sumLen_shredV_pos w vv rd d rd hgw hc.1.2
    have hsplit := sumLen_colApp (shredV k kv rd d rd ++ shredV w vv rd d rd)
      (shredE k w es d rd)
      (by rw [List.length_append, lenShredV k kv _ _ _ hc.1.1,
            lenShredV w vv _ _ _ hc.1.2, lenShredE k w es _ _ hc.2])
    simp only [shredE, needE]
    rw [hsplit, sumLen_append]
    have hmk : schSize k * (sumLen (shredV k kv rd d rd) + 1) ≤
        (schSize k + schSize w) * (sumLen (shredV k kv rd d rd) +
          sumLen (shredV w vv rd d rd) + sumLen (shredE k w es d rd) + 1) :=
      Nat.mul_le_mul (by omega) (by omega)
    have hmw : schSize w * (sumLen (shredV w vv rd d rd) + 1) ≤
        (schSize k + schSize w) * (sumLen (shredV k kv rd d rd) +
          sumLen (shredV w vv rd d rd) + sumLen (shredE k w es d rd) + 1) :=
      Nat.mul_le_mul (by omega) (by omega)
    have hexp : (schSize k + schSize w) * (sumLen (shredV k kv rd d rd) +
        sumLen (shredV w vv rd d rd) + sumLen (shredE k w es d rd) + 1) =
        (schSize k + schSize w) * (sumLen (shredE k w es d rd) + 1) +
          (schSize k + schSize w) *
            (sumLen (shredV k kv rd d rd) + sumLen (shredV w vv rd d rd)) := by ring
    have hm1 : 1 * 1 ≤ (schSize k + schSize w) *
        (sumLen (shredV k kv rd d rd) + sumLen (shredV w vv rd d rd)) :=
      Nat.mul_le_mul (by have := schSize_pos k; omega) (by omega)
    rcases max_choice (max (needV kv) (needV vv)) (needE es) with h | h <;> rw [h]
    · rcases max_choice (needV kv) (needV vv) with h2 | h2 <;> rw [h2]
      · linarith
      · linarith
    · rw [hexp]
      linarith
end

theorem needV_pos (v : Value) : 1 ≤ needV v := by
  cases v with
  | nullV => simp [needV]
  | leafV x => simp [needV]
  | strctV vs => simp [needV]
  | listV vs => cases vs <;> simp [needV]
  | mapV es => cases es <;> simp [needV]

theorem exists_head_col (s : Schema) (v : Value) (r d rd : Nat)
    (hg : goodSchema s = true) (hc : conforms s v = true) :
    ∃ t ts crest, shredV s v r d rd = (t :: ts) :: crest ∧ t.rep = r ∧ d ≤ t.dl := by
  have hlen := lenShredV s v r d rd hc
  have hpos := nLeaves_pos s hg
  cases hA : shredV s v r d rd with
  | nil => rw [hA] at hlen; simp at hlen; omega
  | cons c crest =>
    have hmem : c ∈ shredV s v r d rd := by rw [hA]; exact List.mem_cons_self ..
    obtain ⟨t, ts, rfl, hr, hd⟩ := headShredV s v r d rd hg hc c hmem
    exact ⟨t, ts, crest, rfl, hr, hd⟩

theorem peekRep_spec (cols : List Column) (rr : Nat) (h : peekRep cols = some rr) :
    ∃ t c crest, cols = (t :: c) :: crest ∧ t.rep = rr := by
  cases cols with
  | nil => simp [peekRep] at h
  | cons c crest =>
    cases c with
    | nil => simp [peekRep] at h
    | cons t c =>
      simp only [peekRep, Option.some_inj] at h
      exact ⟨t, c, crest, rfl, h⟩

theorem heads_shredL (e : Schema) (vs : Values) (d rd : Nat)
    (hg : goodSchema e = true) (hc : conformsL e vs = true) :
    heads (shredL e vs d rd) (fun t => t.rep ≤ rd) :=
  fun c hcm t ht => le_of_eq (headShredL e vs d rd hg hc c hcm t ht).1

theorem heads_shredE (k w : Schema) (es : Entries) (d rd : Nat)
    (hgk : goodSchema k = true) (hgw : goodSchema w = true)
    (hc : conformsE k w es = true) :
    heads (shredE k w es d rd) (fun t => t.rep ≤ rd) :=
  fun c hcm t ht => le_of_eq (headShredE k w es d rd hgk hgw hc c hcm t ht).1

theorem heads_weaken {cols : List Column} {P Q : Triple → Prop}
    (h : heads cols P) (hpq : ∀ t, P t → Q t) : heads cols Q :=
  fun c hcm t ht => hpq t (h c hcm t ht)

theorem peekDL_marker (m : Triple) (rest : List Column) (r0 : Column)
    (rrest : List Column) (h : rest = r0 :: rrest) :
    peekDL (columnsAppend (List.replicate rest.length [m]) rest) = some m.dl := by
  subst h; rfl

theorem exists_head_colF (nm : String) (s0 : Schema) (fs0 : Fields) (vs : Values)
    (r d rd : Nat) (hg : goodFields (.cons nm s0 fs0) = true)
    (hc : conformsF (.cons nm s0 fs0) vs = true) :
    ∃ t ts crest, shredF (.cons nm s0 fs0) vs r d rd = (t :: ts) :: crest ∧
      t.rep = r ∧ d ≤ t.dl := by
  have hlen := lenShredF (.cons nm s0 fs0) vs r d rd hc
  have hpos := nLeavesF_pos nm s0 fs0 hg
  cases hA : shredF (.cons nm s0 fs0) vs r d rd with
  | nil => rw [hA] at hlen; simp at hlen; omega
  | cons c crest =>
    have hmem : c ∈ shredF (.cons nm s0 fs0) vs r d rd := by
      rw [hA]; exact List.mem_cons_self ..
    obtain ⟨t, ts, rfl, hr, hd⟩ := headShredF (.cons nm s0 fs0) vs r d rd hg hc c hmem
    exact ⟨t, ts, crest, rfl, hr, hd⟩


theorem peekDL_colApp_cons (t : Triple) (ts : Column) (crest : List Column)
    (u0 : Column) (urest : List Column) :
    peekDL (columnsAppend ((t :: ts) :: crest) (u0 :: urest)) = some t.dl := rfl

theorem peekDL_colApp_cons_app (t : Triple) (ts : Column) (crest : List Column)
    (u0 : Column) (urest : List Column) (X : List Column) :
    peekDL (columnsAppend ((t :: ts) :: crest) (u0 :: urest) ++ X) = some t.dl := rfl

theorem peekRep_colApp_cons (t : Triple) (ts : Column) (crest : List Column)
    (u0 : Column) (urest : List Column) :
    peekRep (columnsAppend ((t :: ts) :: crest) (u0 :: urest)) = some t.rep := rfl

theorem peekRep_colApp_cons_app (t : Triple) (ts : Column) (crest : List Column)
    (u0 : Column) (urest : List Column) (X : List Column) :
    peekRep (columnsAppend ((t :: ts) :: crest) (u0 :: urest) ++ X) = some t.rep := rfl

mutual
theorem rtV (s : Schema) (v : Value) (r d rd fuel : Nat) (rest : List Column)
    (hg : goodSchema s = true) (hc : conforms s v = true)
    (hlen : rest.length = nLeaves s)
    (hrest : heads rest (fun t => t.rep ≤ rd))
    (hfuel : needV v ≤ fuel) :
    assembleV fuel s rd d (columnsAppend (shredV s v r d rd) rest) = some (v, rest) := by
  have hf1 : 1 ≤ fuel := le_trans (needV_pos v) hfuel
  obtain ⟨f, rfl⟩ : ∃ f, fuel = f + 1 := ⟨fuel - 1, by omega⟩
  cases s with
  | leaf n =>
    cases v with
    | leafV x =>
      have hone : rest.length = 1 := by simpa [nLeaves] using hlen
      cases rest with
      | nil => simp at hone
      | cons c0 rest' =>
        cases rest' with
        | cons c1 rest'' => simp at hone
        | nil =>
          cases n with
          | true => simp [shredV, columnsAppend, assembleV, dInc]
          | false => simp [shredV, columnsAppend, assembleV, dInc]
    | nullV =>
      have hn : n = true := by simpa [conforms] using hc
      subst hn
      have hone : rest.length = 1 := by simpa [nLeaves] using hlen
      cases rest with
      | nil => simp at hone
      | cons c0 rest' =>
        cases rest' with
        | cons c1 rest'' => simp at hone
        | nil => simp [shredV, nullCols, nLeaves, columnsAppend, assembleV]
    | strctV vs => simp [conforms] at hc
    | listV vs => simp [conforms] at hc
    | mapV es => simp [conforms] at hc
  | strct n fs =>
    cases v with
    | nullV =>
      have hn : n = true := by simpa [conforms] using hc
      subst hn
      cases rest with
      | nil =>
        have := nLeaves_pos (.strct true fs) hg
        simp [← hlen] at this
      | cons r0 rrest =>
        have hrepl : nLeaves (Schema.strct true fs) = (r0 :: rrest).length := hlen.symm
        have hpk := peekDL_marker ⟨none, r, d⟩ (r0 :: rrest) r0 rrest rfl
        have hdrop := dropOne_marker ⟨none, r, d⟩ (r0 :: rrest) (r0 :: rrest).length rfl
        simp only [shredV, nullCols, hrepl]
        simp only [assembleV, hpk, hdrop, Bool.true_and, decide_eq_true_eq]
        simp
    | strctV vs =>
      cases fs with
      | nil => simp [goodSchema] at hg
      | cons nm s0 fs0 =>
        simp only [needV] at hfuel
        have hgf : goodFields (.cons nm s0 fs0) = true := by simpa [goodSchema] using hg
        have hcf : conformsF (.cons nm s0 fs0) vs = true := by simpa [conforms] using hc
        obtain ⟨t, ts, crest, hA, hr, hd⟩ :=
          exists_head_colF nm s0 fs0 vs r (dInc n d) rd hgf hcf
        have hlen' : rest.length = nLeavesF (.cons nm s0 fs0) := by
          simpa [nLeaves] using hlen
        cases rest with
        | nil =>
          have := nLeavesF_pos nm s0 fs0 hgf
          simp [← hlen'] at this
        | cons r0 rrest =>
          have hIH := rtF (.cons nm s0 fs0) vs r (dInc n d) rd f (r0 :: rrest)
            hgf hcf hlen' hrest (by omega)
          have hpk : peekDL (columnsAppend (shredF (.cons nm s0 fs0) vs r (dInc n d) rd)
              (r0 :: rrest)) = some t.dl := by
            rw [hA]; exact peekDL_colApp_cons ..
          have hcond : (n && decide (t.dl ≤ d)) = false := by
            cases n with
            | false => rfl
            | true =>
              rw [dInc_true] at hd
              simp only [Bool.true_and, decide_eq_false_iff_not]
              omega
          simp only [shredV, assembleV, hpk, hcond, Bool.false_eq_true, if_false, hIH,
            Option.bind_eq_bind, Option.some_bind]
    | leafV x => simp [conforms] at hc
    | listV vs => simp [conforms] at hc
    | mapV es => simp [conforms] at hc
  | listN n e =>
    cases v with
    | nullV =>
      have hn : n = true := by simpa [conforms] using hc
      subst hn
      cases rest with
      | nil =>
        have := nLeaves_pos (.listN true e) hg
        simp [← hlen] at this
      | cons r0 rrest =>
        have hrepl : nLeaves (Schema.listN true e) = (r0 :: rrest).length := hlen.symm
        have hpk := peekDL_marker ⟨none, r, d⟩ (r0 :: rrest) r0 rrest rfl
        have hdrop := dropOne_marker ⟨none, r, d⟩ (r0 :: rrest) (r0 :: rrest).length rfl
        simp only [shredV, nullCols, hrepl]
        simp only [assembleV, hpk, hdrop, Bool.true_and, decide_eq_true_eq]
        simp
    | listV vs =>
      cases vs with
      | nil =>
        cases rest with
        | nil =>
          have hge : goodSchema e = true := by simpa [goodSchema] using hg
          have h1 := nLeaves_pos e hge
          have h0 : nLeaves (Schema.listN n e) = nLeaves e := rfl
          simp only [List.length_nil] at hlen
          omega
        | cons r0 rrest =>
          have hrepl : nLeaves e = (r0 :: rrest).length := by
            simpa [nLeaves] using hlen.symm
          have hpk := peekDL_marker ⟨none, r, dInc n d⟩ (r0 :: rrest) r0 rrest rfl
          have hdrop := dropOne_marker ⟨none, r, dInc n d⟩ (r0 :: rrest)
            (r0 :: rrest).length rfl
          have hcond : (n && decide (dInc n d = d)) = false := by
            cases n with
            | false => rfl
            | true => simp [dInc]
          simp only [shredV, hrepl]
          simp only [assembleV, hpk, hcond, Bool.false_eq_true, if_false, if_pos rfl,
            hdrop, Option.bind_eq_bind, Option.some_bind]
          simp
      | cons v0 vs =>
        simp only [needV] at hfuel
        have hge : goodSchema e = true := by simpa [goodSchema] using hg
        have hc' : conforms e v0 = true ∧ conformsL e vs = true := by
          simpa [conforms, conformsL] using hc
        have hlen2 : rest.length = nLeaves e := by simpa [nLeaves] using hlen
        obtain ⟨t, ts, crest, hA, hr, hd⟩ :=
          exists_head_col e v0 r (dInc n d + 1) (rd + 1) hge hc'.1
        have hlenSL : (shredL e vs (dInc n d + 1) (rd + 1)).length = nLeaves e :=
          lenShredL e vs _ _ hc'.2
        have hlenT : (columnsAppend (shredL e vs (dInc n d + 1) (rd + 1)) rest).length
            = nLeaves e := by
          rw [colApp_length, hlenSL, hlen2, Nat.min_self]
        have hheadsT : heads (columnsAppend (shredL e vs (dInc n d + 1) (rd + 1)) rest)
            (fun t => t.rep ≤ rd + 1) :=
          heads_colApp (heads_shredL e vs _ _ hge hc'.2)
            (heads_weaken hrest (fun t ht => by omega))
        have hIH1 := rtV e v0 r (dInc n d + 1) (rd + 1) f
          (columnsAppend (shredL e vs (dInc n d + 1) (rd + 1)) rest) hge hc'.1 hlenT
          hheadsT (by have := Nat.le_max_left (needV v0) (needL vs); omega)
        have hIH2 := rtL e vs (dInc n d + 1) (rd + 1) f rest hge hc'.2 hlen2
          (heads_weaken hrest (fun t ht => by omega))
          (by have := Nat.le_max_right (needV v0) (needL vs); omega)
        have hassoc : columnsAppend (shredV (.listN n e) (.listV (.cons v0 vs)) r d rd) rest
            = columnsAppend (shredV e v0 r (dInc n d + 1) (rd + 1))
                (columnsAppend (shredL e vs (dInc n d + 1) (rd + 1)) rest) := by
          simp only [shredV]; exact colApp_assoc ..
        cases hT : columnsAppend (shredL e vs (dInc n d + 1) (rd + 1)) rest with
        | nil =>
          rw [hT] at hlenT
          have := nLeaves_pos e hge
          simp [← hlenT] at this
        | cons u0 urest =>
          have hpk : peekDL (columnsAppend (shredV e v0 r (dInc n d + 1) (rd + 1))
              (u0 :: urest)) = some t.dl := by
            rw [hA]; exact peekDL_colApp_cons ..
          have hcond1 : (n && decide (t.dl = d)) = false := by
            cases n with
            | false => rfl
            | true =>
              rw [dInc_true] at hd
              simp only [Bool.true_and, decide_eq_false_iff_not]
              omega
          have hcond2 : ¬ (t.dl = dInc n d) := by
            cases n with
            | false => rw [dInc_false] at hd ⊢; omega
            | true => rw [dInc_true] at hd ⊢; omega
          rw [hassoc, hT]
          rw [hT] at hIH1 hIH2
          simp only [assembleV, hpk, hcond1, Bool.false_eq_true, if_false,
            if_neg hcond2, hIH1, hIH2, Option.bind_eq_bind, Option.some_bind]
    | leafV x => simp [conforms] at hc
    | strctV vs => simp [conforms] at hc
    | mapV es => simp [conforms] at hc
  | mapN n k w =>
    cases v with
    | nullV =>
      have hn : n = true := by simpa [conforms] using hc
      subst hn
      cases rest with
      | nil =>
        have := nLeaves_pos (.mapN true k w) hg
        simp [← hlen] at this
      | cons r0 rrest =>
        have hrepl : nLeaves (Schema.mapN true k w) = (r0 :: rrest).length := hlen.symm
        have hpk := peekDL_marker ⟨none, r, d⟩ (r0 :: rrest) r0 rrest rfl
        have hdrop := dropOne_marker ⟨none, r, d⟩ (r0 :: rrest) (r0 :: rrest).length rfl
        simp only [shredV, nullCols, hrepl]
        simp only [assembleV, hpk, hdrop, Bool.true_and, decide_eq_true_eq]
        simp
    | mapV es =>
      cases es with
      | nil =>
        cases rest with
        | nil =>
          have := nLeaves_pos (.mapN n k w) hg
          simp [← hlen] at this
        | cons r0 rrest =>
          have hrepl : nLeaves k + nLeaves w = (r0 :: rrest).length := by
            simpa [nLeaves] using hlen.symm
          have hpk := peekDL_marker ⟨none, r, dInc n d⟩ (r0 :: rrest) r0 rrest rfl
          have hdrop := dropOne_marker ⟨none, r, dInc n d⟩ (r0 :: rrest)
            (r0 :: rrest).length rfl
          have hcond : (n && decide (dInc n d = d)) = false := by
            cases n with
            | false => rfl
            | true => simp [dInc]
          simp only [shredV, hrepl]
          simp only [assembleV, hpk, hcond, Bool.false_eq_true, if_false, if_pos rfl,
            hdrop, Option.bind_eq_bind, Option.some_bind]
          simp
      | cons k0 w0 es =>
        simp only [needV] at hfuel
        have hgs : (!nullableOf k) = true ∧ goodSchema k = true ∧ goodSchema w = true := by
          simpa [goodSchema, and_assoc] using hg
        have hc' : conforms k k0 = true ∧ conforms w w0 = true ∧
            conformsE k w es = true := by
          simpa [conforms, conformsE, and_assoc] using hc
        have hlen2 : rest.length = nLeaves k + nLeaves w := by simpa [nLeaves] using hlen
        obtain ⟨t, ts, crest, hA, hr, hd⟩ :=
          exists_head_col k k0 r (dInc n d + 1) (rd + 1) hgs.2.1 hc'.1
        have hposk := nLeaves_pos k hgs.2.1
        have hlenSk : (shredV k k0 r (dInc n d + 1) (rd + 1)).length = nLeaves k :=
          lenShredV k k0 _ _ _ hc'.1
        have hlenSE : (shredE k w es (dInc n d + 1) (rd + 1)).length
            = nLeaves k + nLeaves w := lenShredE k w es _ _ hc'.2.2
        have hlenT : (columnsAppend (shredE k w es (dInc n d + 1) (rd + 1)) rest).length
            = nLeaves k + nLeaves w := by
          rw [colApp_length, hlenSE, hlen2, Nat.min_self]
        have hheadsT : heads (columnsAppend (shredE k w es (dInc n d + 1) (rd + 1)) rest)
            (fun t => t.rep ≤ rd + 1) :=
          heads_colApp (heads_shredE k w es _ _ hgs.2.1 hgs.2.2 hc'.2.2)
            (heads_weaken hrest (fun t ht => by omega))
        have hIHk := rtV k k0 r (dInc n d + 1) (rd + 1) f
          ((columnsAppend (shredE k w es (dInc n d + 1) (rd + 1)) rest).take (nLeaves k))
          hgs.2.1 hc'.1
          (by rw [List.length_take, hlenT]; omega)
          (heads_take _ hheadsT)
          (by have h1 := Nat.le_max_left (needV k0) (needV w0)
              have h2 := Nat.le_max_left (max (needV k0) (needV w0)) (needE es)
              omega)
        have hIHw := rtV w w0 r (dInc n d + 1) (rd + 1) f
          ((columnsAppend (shredE k w es (dInc n d + 1) (rd + 1)) rest).drop (nLeaves k))
          hgs.2.2 hc'.2.1
          (by rw [List.length_drop, hlenT]; omega)
          (heads_drop _ hheadsT)
          (by have h1 := Nat.le_max_right (needV k0) (needV w0)
              have h2 := Nat.le_max_left (max (needV k0) (needV w0)) (needE es)
              omega)
        have hIHe := rtE k w es (dInc n d + 1) (rd + 1) f rest hgs.2.1 hgs.2.2 hc'.2.2
          hlen2
          (heads_weaken hrest (fun t ht => by omega))
          (by have h2 := Nat.le_max_right (max (needV k0) (needV w0)) (needE es)
              omega)
        have hsplit : columnsAppend (shredV (.mapN n k w) (.mapV (.cons k0 w0 es)) r d rd)
            rest =
            columnsAppend (shredV k k0 r (dInc n d + 1) (rd + 1))
              ((columnsAppend (shredE k w es (dInc n d + 1) (rd + 1)) rest).take
                (nLeaves k)) ++
            columnsAppend (shredV w w0 r (dInc n d + 1) (rd + 1))
              ((columnsAppend (shredE k w es (dInc n d + 1) (rd + 1)) rest).drop
                (nLeaves k)) := by
          simp only [shredV]
          rw [colApp_assoc, colApp_split, hlenSk]
        have hlenA : (columnsAppend (shredV k k0 r (dInc n d + 1) (rd + 1))
            ((columnsAppend (shredE k w es (dInc n d + 1) (rd + 1)) rest).take
              (nLeaves k))).length = nLeaves k := by
          rw [colApp_length, hlenSk, List.length_take, hlenT]; omega
        have htake : (columnsAppend (shredV k k0 r (dInc n d + 1) (rd + 1))
              ((columnsAppend (shredE k w es (dInc n d + 1) (rd + 1)) rest).take
                (nLeaves k)) ++
            columnsAppend (shredV w w0 r (dInc n d + 1) (rd + 1))
              ((columnsAppend (shredE k w es (dInc n d + 1) (rd + 1)) rest).drop
                (nLeaves k))).take (nLeaves k) =
            columnsAppend (shredV k k0 r (dInc n d + 1) (rd + 1))
              ((columnsAppend (shredE k w es (dInc n d + 1) (rd + 1)) rest).take
                (nLeaves k)) := by
          exact List.take_left' hlenA
        have hdrp : (columnsAppend (shredV k k0 r (dInc n d + 1) (rd + 1))
              ((columnsAppend (shredE k w es (dInc n d + 1) (rd + 1)) rest).take
                (nLeaves k)) ++
            columnsAppend (shredV w w0 r (dInc n d + 1) (rd + 1))
              ((columnsAppend (shredE k w es (dInc n d + 1) (rd + 1)) rest).drop
                (nLeaves k))).drop (nLeaves k) =
            columnsAppend (shredV w w0 r (dInc n d + 1) (rd + 1))
              ((columnsAppend (shredE k w es (dInc n d + 1) (rd + 1)) rest).drop
                (nLeaves k)) := by
          exact List.drop_left' hlenA
        cases hTK : (columnsAppend (shredE k w es (dInc n d + 1) (rd + 1)) rest).take
            (nLeaves k) with
        | nil =>
          have : ((columnsAppend (shredE k w es (dInc n d + 1) (rd + 1)) rest).take
              (nLeaves k)).length = nLeaves k := by
            rw [List.length_take, hlenT]; omega
          rw [hTK] at this
          simp [← this] at hposk
        | cons u0 urest =>
          have hpk : peekDL (columnsAppend (shredV k k0 r (dInc n d + 1) (rd + 1))
                (u0 :: urest) ++
              columnsAppend (shredV w w0 r (dInc n d + 1) (rd + 1))
                ((columnsAppend (shredE k w es (dInc n d + 1) (rd + 1)) rest).drop
                  (nLeaves k))) = some t.dl := by
            rw [hA]; exact peekDL_colApp_cons_app ..
          have hcond1 : (n && decide (t.dl = d)) = false := by
            cases n with
            | false => rfl
            | true =>
              rw [dInc_true] at hd
              simp only [Bool.true_and, decide_eq_false_iff_not]
              omega
          have hcond2 : ¬ (t.dl = dInc n d) := by
            cases n with
            | false => rw [dInc_false] at hd ⊢; omega
            | true => rw [dInc_true] at hd ⊢; omega
          rw [hsplit, hTK]
          rw [hTK] at htake hdrp hIHk
          simp only [assembleV, hpk, hcond1, Bool.false_eq_true, if_false,
            if_neg hcond2, htake, hdrp, hIHk, hIHw, Option.bind_eq_bind,
            Option.some_bind]
          rw [← hTK, List.take_append_drop]
          simp only [hIHe, Option.some_bind]
    | leafV x => simp [conforms] at hc
    | strctV vs => simp [conforms] at hc
    | listV vs => simp [conforms] at hc

theorem rtF (fs : Fields) (vs : Values) (r d rd fuel : Nat) (rest : List Column)
    (hg : goodFields fs = true) (hc : conformsF fs vs = true)
    (hlen : rest.length = nLeavesF fs)
    (hrest : heads rest (fun t => t.rep ≤ rd))
    (hfuel : needF vs ≤ fuel) :
    assembleF fuel fs rd d (columnsAppend (shredF fs vs r d rd) rest) = some (vs, rest) := by
  have hf1 : 1 ≤ fuel := le_trans (needF_pos vs) hfuel
  obtain ⟨f, rfl⟩ : ∃ f, fuel = f + 1 := ⟨fuel - 1, by omega⟩
  cases fs with
  | nil =>
    cases vs with
    | cons v vs => simp [conformsF] at hc
    | nil =>
      cases rest with
      | cons r0 rrest => simp [nLeavesF] at hlen
      | nil => simp [shredF, columnsAppend, assembleF]
  | cons nm s0 fs0 =>
    cases vs with
    | nil => simp [conformsF] at hc
    | cons v vs =>
      simp only [needF] at hfuel
      simp only [goodFields, Bool.and_eq_true] at hg
      simp only [conformsF, Bool.and_eq_true] at hc
      have hlen' : rest.length = nLeaves s0 + nLeavesF fs0 := by
        simpa [nLeavesF] using hlen
      have hlenSv : (shredV s0 v r d rd).length = nLeaves s0 := lenShredV s0 v r d rd hc.1
      have hsplit : columnsAppend (shredF (.cons nm s0 fs0) (.cons v vs) r d rd) rest =
          columnsAppend (shredV s0 v r d rd) (rest.take (nLeaves s0)) ++
          columnsAppend (shredF fs0 vs r d rd) (rest.drop (nLeaves s0)) := by
        simp only [shredF]
        rw [colApp_split, hlenSv]
      have hlenA : (columnsAppend (shredV s0 v r d rd)
          (rest.take (nLeaves s0))).length = nLeaves s0 := by
        rw [colApp_length, hlenSv, List.length_take, hlen']; omega
      have htake : (columnsAppend (shredV s0 v r d rd) (rest.take (nLeaves s0)) ++
          columnsAppend (shredF fs0 vs r d rd) (rest.drop (nLeaves s0))).take
            (nLeaves s0) =
          columnsAppend (shredV s0 v r d rd) (rest.take (nLeaves s0)) := by
        exact List.take_left' hlenA
      have hdrp : (columnsAppend (shredV s0 v r d rd) (rest.take (nLeaves s0)) ++
          columnsAppend (shredF fs0 vs r d rd) (rest.drop (nLeaves s0))).drop
            (nLeaves s0) =
          columnsAppend (shredF fs0 vs r d rd) (rest.drop (nLeaves s0)) := by
        exact List.drop_left' hlenA
      have hIH1 := rtV s0 v r d rd f (rest.take (nLeaves s0)) hg.1 hc.1
        (by rw [List.length_take, hlen']; omega)
        (heads_take _ hrest)
        (by have := Nat.le_max_left (needV v) (needF vs); omega)
      have hIH2 := rtF fs0 vs r d rd f (rest.drop (nLeaves s0)) hg.2 hc.2
        (by rw [List.length_drop, hlen']; omega)
        (heads_drop _ hrest)
        (by have := Nat.le_max_right (needV v) (needF vs); omega)
      rw [hsplit]
      simp only [assembleF, htake, hdrp, hIH1, hIH2, Option.bind_eq_bind,
        Option.some_bind]
      rw [List.take_append_drop]

theorem rtL (e : Schema) (vs : Values) (d rd fuel : Nat) (rest : List Column)
    (hg : goodSchema e = true) (hc : conformsL e vs = true)
    (hlen : rest.length = nLeaves e)
    (hrest : heads rest (fun t => t.rep < rd))
    (hfuel : needL vs ≤ fuel) :
    assembleL fuel e rd d (columnsAppend (shredL e vs d rd) rest) = some (vs, rest) := by
  have hf1 : 1 ≤ fuel := le_trans (needL_pos vs) hfuel
  obtain ⟨f, rfl⟩ : ∃ f, fuel = f + 1 := ⟨fuel - 1, by omega⟩
  cases vs with
  | nil =>
    have hid : columnsAppend (shredL e .nil d rd) rest = rest := by
      simp only [shredL]
      exact colApp_replicate_nil rest (nLeaves e) hlen
    rw [hid]
    cases hpr : peekRep rest with
    | none => simp [assembleL, hpr]
    | some rr =>
      obtain ⟨t, c, crest, rfl, ht⟩ := peekRep_spec rest rr hpr
      have hlt : rr < rd := by
        have := hrest (t :: c) (List.mem_cons_self ..) t rfl
        omega
      simp only [assembleL, hpr]
      rw [if_neg (by omega)]
  | cons v vs =>
    simp only [needL] at hfuel
    simp only [conformsL, Bool.and_eq_true] at hc
    obtain ⟨t, ts, crest, hA, hr, hd⟩ := exists_head_col e v rd d rd hg hc.1
    have hlenSL : (shredL e vs d rd).length = nLeaves e := lenShredL e vs _ _ hc.2
    have hlenT : (columnsAppend (shredL e vs d rd) rest).length = nLeaves e := by
      rw [colApp_length, hlenSL, hlen, Nat.min_self]
    have hheadsT : heads (columnsAppend (shredL e vs d rd) rest)
        (fun t => t.rep ≤ rd) :=
      heads_colApp (heads_shredL e vs _ _ hg hc.2)
        (heads_weaken hrest (fun t ht => by omega))
    have hIH1 := rtV e v rd d rd f (columnsAppend (shredL e vs d rd) rest) hg hc.1
      hlenT hheadsT (by have := Nat.le_max_left (needV v) (needL vs); omega)
    have hIH2 := rtL e vs d rd f rest hg hc.2 hlen hrest
      (by have := Nat.le_max_right (needV v) (needL vs); omega)
    have hassoc : columnsAppend (shredL e (.cons v vs) d rd) rest =
        columnsAppend (shredV e v rd d rd) (columnsAppend (shredL e vs d rd) rest) := by
      simp only [shredL]; exact colApp_assoc ..
    cases hT : columnsAppend (shredL e vs d rd) rest with
    | nil =>
      rw [hT] at hlenT
      have := nLeaves_pos e hg
      simp [← hlenT] at this
    | cons u0 urest =>
      have hpr : peekRep (columnsAppend (shredV e v rd d rd) (u0 :: urest))
          = some t.rep := by
        rw [hA]; exact peekRep_colApp_cons ..
      rw [hassoc, hT]
      rw [hT] at hIH1 hIH2
      simp only [assembleL, hpr, hr, if_pos rfl, hIH1, hIH2, Option.bind_eq_bind,
        Option.some_bind]
      simp

theorem rtE (k w : Schema) (es : Entries) (d rd fuel : Nat) (rest : List Column)
    (hgk : goodSchema k = true) (hgw : goodSchema w = true)
    (hc : conformsE k w es = true)
    (hlen : rest.length = nLeaves k + nLeaves w)
    (hrest : heads rest (fun t => t.rep < rd))
    (hfuel : needE es ≤ fuel) :
    assembleE fuel k w rd d (columnsAppend (shredE k w es d rd) rest) = some (es, rest) := by
  have hf1 : 1 ≤ fuel := le_trans (needE_pos es) hfuel
  obtain ⟨f, rfl⟩ : ∃ f, fuel = f + 1 := ⟨fuel - 1, by omega⟩
  cases es with
  | nil =>
    have hid : columnsAppend (shredE k w .nil d rd) rest = rest := by
      simp only [shredE]
      exact colApp_replicate_nil rest (nLeaves k + nLeaves w) hlen
    rw [hid]
    cases hpr : peekRep rest with
    | none => simp [assembleE, hpr]
    | some rr =>
      obtain ⟨t, c, crest, rfl, ht⟩ := peekRep_spec rest rr hpr
      have hlt : rr < rd := by
        have := hrest (t :: c) (List.mem_cons_self ..) t rfl
        omega
      simp only [assembleE, hpr]
      rw [if_neg (by omega)]
  | cons k0 w0 es =>
    simp only [needE] at hfuel
    simp only [conformsE, Bool.and_eq_true] at hc
    obtain ⟨t, ts, crest, hA, hr, hd⟩ := exists_head_col k k0 rd d rd hgk hc.1.1
    have hposk := nLeaves_pos k hgk
    have hlenSk : (shredV k k0 rd d rd).length = nLeaves k := lenShredV k k0 _ _ _ hc.1.1
    have hlenSE : (shredE k w es d rd).length = nLeaves k + nLeaves w :=
      lenShredE k w es _ _ hc.2
    have hlenT : (columnsAppend (shredE k w es d rd) rest).length
        = nLeaves k + nLeaves w := by
      rw [colApp_length, hlenSE, hlen, Nat.min_self]
    have hheadsT : heads (columnsAppend (shredE k w es d rd) rest)
        (fun t => t.rep ≤ rd) :=
      heads_colApp (heads_shredE k w es _ _ hgk hgw hc.2)
        (heads_weaken hrest (fun t ht => by omega))
    have hIHk := rtV k k0 rd d rd f
      ((columnsAppend (shredE k w es d rd) rest).take (nLeaves k)) hgk hc.1.1
      (by rw [List.length_take, hlenT]; omega)
      (heads_take _ hheadsT)
      (by have h1 := Nat.le_max_left (needV k0) (needV w0)
          have h2 := Nat.le_max_left (max (needV k0) (needV w0)) (needE es)
          omega)
    have hIHw := rtV w w0 rd d rd f
      ((columnsAppend (shredE k w es d rd) rest).drop (nLeaves k)) hgw hc.1.2
      (by rw [List.length_drop, hlenT]; omega)
      (heads_drop _ hheadsT)
      (by have h1 := Nat.le_max_right (needV k0) (needV w0)
          have h2 := Nat.le_max_left (max (needV k0) (needV w0)) (needE es)
          omega)
    have hIHe := rtE k w es d rd f rest hgk hgw hc.2 hlen hrest
      (by have h2 := Nat.le_max_right (max (needV k0) (needV w0)) (needE es)
          omega)
    have hsplit : columnsAppend (shredE k w (.cons k0 w0 es) d rd) rest =
        columnsAppend (shredV k k0 rd d rd)
          ((columnsAppend (shredE k w es d rd) rest).take (nLeaves k)) ++
        columnsAppend (shredV w w0 rd d rd)
          ((columnsAppend (shredE k w es d rd) rest).drop (nLeaves k)) := by
      simp only [shredE]
      rw [colApp_assoc, colApp_split, hlenSk]
    have hlenA : (columnsAppend (shredV k k0 rd d rd)
        ((columnsAppend (shredE k w es d rd) rest).take (nLeaves k))).length
        = nLeaves k := by
      rw [colApp_length, hlenSk, List.length_take, hlenT]; omega
    have htake : (columnsAppend (shredV k k0 rd d rd)
          ((columnsAppend (shredE k w es d rd) rest).take (nLeaves k)) ++
        columnsAppend (shredV w w0 rd d rd)
          ((columnsAppend (shredE k w es d rd) rest).drop (nLeaves k))).take
            (nLeaves k) =
        columnsAppend (shredV k k0 rd d rd)
          ((columnsAppend (shredE k w es d rd) rest).take (nLeaves k)) := by
      exact List.take_left' hlenA
    have hdrp : (columnsAppend (shredV k k0 rd d rd)
          ((columnsAppend (shredE k w es d rd) rest).take (nLeaves k)) ++
        columnsAppend (shredV w w0 rd d rd)
          ((columnsAppend (shredE k w es d rd) rest).drop (nLeaves k))).drop
            (nLeaves k) =
        columnsAppend (shredV w w0 rd d rd)
          ((columnsAppend (shredE k w es d rd) rest).drop (nLeaves k)) := by
      exact List.drop_left' hlenA
    cases hTK : (columnsAppend (shredE k w es d rd) rest).take (nLeaves k) with
    | nil =>
      have : ((columnsAppend (shredE k w es d rd) rest).take (nLeaves k)).length
          = nLeaves k := by
        rw [List.length_take, hlenT]; omega
      rw [hTK] at this
      simp [← this] at hposk
    | cons u0 urest =>
      have hpr : peekRep (columnsAppend (shredV k k0 rd d rd) (u0 :: urest) ++
          columnsAppend (shredV w w0 rd d rd)
            ((columnsAppend (shredE k w es d rd) rest).drop (nLeaves k)))
          = some t.rep := by
        rw [hA]; exact peekRep_colApp_cons_app ..
      rw [hsplit, hTK]
      rw [hTK] at htake hdrp hIHk
      simp only [assembleE, hpr, hr, if_pos rfl, htake, hdrp, hIHk, hIHw,
        Option.bind_eq_bind, Option.some_bind]
      simp only [if_true]
      rw [← hTK, List.take_append_drop]
      simp only [hIHe, Option.some_bind]
end

/-- Full single-record round trip: assembling the shredded columns of any
conforming value reproduces the value (§8, spec round-trip property). -/
theorem roundTrip (s : Schema) (v : Value)
    (hg : goodSchema s = true) (hc : conforms s v = true) :
    assemble s (shred s v) = some v := by
  have hlen := lenShredV s v 0 0 0 hc
  have hnb := nbV s v 0 0 0 hg hc
  have hrt := rtV s v 0 0 0 (fuelBound s (shredV s v 0 0 0))
    (List.replicate (nLeaves s) []) hg hc (by simp) (heads_replicate_nil _)
    (by
      have hfb : fuelBound s (shredV s v 0 0 0) =
          schSize s * (sumLen (shredV s v 0 0 0) + 1) := rfl
      omega)
  rw [colApp_nil_right _ _ hlen] at hrt
  show (match assembleV (fuelBound s (shredV s v 0 0 0)) s 0 0 (shredV s v 0 0 0) with
    | some (v, rest) => if rest.all List.isEmpty then some v else none
    | none => none) = some v
  rw [hrt]
  simp [List.all_eq_true]

/-- C1: for every nested logical value tree conforming to a well-formed
schema built from struct, list and map nesting with nulls permitted at every
level, assembling the shredded columns reproduces the original value:
assemble (shred v) = v. -/
theorem C1_assemble_shred_roundTrip (s : Schema) (v : Value)
    (hg : goodSchema s = true) (hc : conforms s v = true) :
    assemble s (shred s v) = some v :=
  roundTrip s v hg hc

/-- Witness schema for C1: a struct containing an optional list of optional
leaves, an optional struct, and an optional map. -/
def c1S : Schema :=
  .strct false (.cons "a" (.listN true (.leaf true))
    (.cons "b" (.strct true (.cons "x" (.leaf true) .nil))
      (.cons "m" (.mapN true (.leaf false) (.leaf true)) .nil)))

/-- Witness value for C1: a list containing one null element, a null struct,
and a map with one entry whose value is null. -/
def c1V : Value :=
  .strctV (.cons (.listV (.cons .nullV .nil))
    (.cons .nullV
      (.cons (.mapV (.cons (.leafV (.strV "k")) .nullV .nil)) .nil)))

/-- Witness for C1: the round trip holds at a concrete nested value with a
list-of-one-null, a null struct and a map entry with null value. -/
theorem C1_assemble_shred_roundTrip_witness :
    goodSchema c1S = true ∧ conforms c1S c1V = true ∧
      assemble c1S (shred c1S c1V) = some c1V :=
  ⟨by decide, by decide, C1_assemble_shred_roundTrip c1S c1V (by decide) (by decide)⟩

theorem mem_zip_replicate {α β : Type} {n : Nat} {c : α} {ds : List β} {p : α × β}
    (h : p ∈ List.zip (List.replicate n c) ds) : p.1 = c ∧ p.2 ∈ ds := by
  induction n generalizing ds with
  | zero => simp [List.replicate] at h
  | succ m ih =>
    cases ds with
    | nil => simp at h
    | cons d ds =>
      simp only [List.replicate, List.zip_cons_cons, List.mem_cons] at h
      rcases h with rfl | h
      · exact ⟨rfl, List.mem_cons_self ..⟩
      · obtain ⟨h1, h2⟩ := ih h
        exact ⟨h1, List.mem_cons_of_mem _ h2⟩

theorem mem_zip_colApp {A B : List Column} {ds : List (Nat × Nat)}
    {p : Column × (Nat × Nat)} (h : p ∈ List.zip (columnsAppend A B) ds) :
    ∃ a b, (a, p.2) ∈ List.zip A ds ∧ (b, p.2) ∈ List.zip B ds ∧ p.1 = a ++ b := by
  induction A generalizing B ds with
  | nil => simp [columnsAppend] at h
  | cons a A ih =>
    cases B with
    | nil => simp [columnsAppend] at h
    | cons b B =>
      cases ds with
      | nil => simp [List.zip] at h
      | cons d ds =>
        simp only [columnsAppend, List.zipWith, List.zip_cons_cons, List.mem_cons] at h
        rcases h with rfl | h
        · exact ⟨a, b, List.mem_cons_self .., List.mem_cons_self .., rfl⟩
        · obtain ⟨a', b', h1, h2, h3⟩ := ih h
          exact ⟨a', b', List.mem_cons_of_mem _ h1, List.mem_cons_of_mem _ h2, h3⟩

mutual
theorem descs_len (s : Schema) (rm dm : Nat) : (descs s rm dm).length = nLeaves s := by
  cases s with
  | leaf n => simp [descs, nLeaves]
  | strct n fs => simpa [descs, nLeaves] using descsF_len fs rm (dInc n dm)
  | listN n e => simpa [descs, nLeaves] using descs_len e (rm + 1) (dInc n dm + 1)
  | mapN n k w =>
    have h1 := descs_len k (rm + 1) (dInc n dm + 1)
    have h2 := descs_len w (rm + 1) (dInc n dm + 1)
    simp [descs, nLeaves, h1, h2]

theorem descsF_len (fs : Fields) (rm dm : Nat) : (descsF fs rm dm).length = nLeavesF fs := by
  cases fs with
  | nil => simp [descsF, nLeavesF]
  | cons nm s fs =>
    have h1 := descs_len s rm dm
    have h2 := descsF_len fs rm dm
    simp [descsF, nLeavesF, h1, h2]
end

mutual
theorem descs_lb (s : Schema) (rm dm : Nat) :
    ∀ p ∈ descs s rm dm, rm ≤ p.1 ∧ dm ≤ p.2 := by
  cases s with
  | leaf n =>
    intro p hp
    simp only [descs, List.mem_singleton] at hp
    subst hp
    refine ⟨le_refl _, ?_⟩
    cases n with
    | true => rw [dInc_true]; omega
    | false => rw [dInc_false]
  | strct n fs =>
    intro p hp
    simp only [descs] at hp
    have h := descsF_lb fs rm (dInc n dm) p hp
    refine ⟨h.1, le_trans ?_ h.2⟩
    cases n with
    | true => rw [dInc_true]; omega
    | false => rw [dInc_false]
  | listN n e =>
    intro p hp
    simp only [descs] at hp
    have h := descs_lb e (rm + 1) (dInc n dm + 1) p hp
    refine ⟨by omega, le_trans ?_ h.2⟩
    cases n with
    | true => rw [dInc_true]; omega
    | false => rw [dInc_false]; omega
  | mapN n k w =>
    intro p hp
    simp only [descs, List.mem_append] at hp
    have h : rm + 1 ≤ p.1 ∧ dInc n dm + 1 ≤ p.2 := by
      rcases hp with hp | hp
      · exact descs_lb k (rm + 1) (dInc n dm + 1) p hp
      · exact descs_lb w (rm + 1) (dInc n dm + 1) p hp
    refine ⟨by omega, le_trans ?_ h.2⟩
    cases n with
    | true => rw [dInc_true]; omega
    | false => rw [dInc_false]; omega

theorem descsF_lb (fs : Fields) (rm dm : Nat) :
    ∀ p ∈ descsF fs rm dm, rm ≤ p.1 ∧ dm ≤ p.2 := by
  cases fs with
  | nil => intro p hp; simp [descsF] at hp
  | cons nm s fs =>
    intro p hp
    simp only [descsF, List.mem_append] at hp
    rcases hp with hp | hp
    · exact descs_lb s rm dm p hp
    · exact descsF_lb fs rm dm p hp
end

/-- The per-triple level invariant of §3: repetition and definition levels
bounded by the descriptor, value present exactly at the maximum definition
level. -/
def TripleOK (t : Triple) (p : Nat × Nat) : Prop :=
  t.rep ≤ p.1 ∧ t.dl ≤ p.2 ∧ (t.val.isSome = true ↔ t.dl = p.2)

mutual
theorem invV (s : Schema) (v : Value) (r d rd : Nat)
    (hc : conforms s v = true) (hr : r ≤ rd) :
    ∀ p ∈ List.zip (shredV s v r d rd) (descs s rd d), ∀ t ∈ p.1, TripleOK t p.2 := by
  cases s with
  | leaf n =>
    cases v with
    | leafV x =>
      intro p hp t ht
      simp only [shredV, descs, List.zip_cons_cons, List.zip_nil_right,
        List.mem_singleton] at hp
      subst hp
      simp only [List.mem_singleton] at ht
      subst ht
      exact ⟨hr, le_refl _, by simp⟩
    | nullV =>
      have hn : n = true := by simpa [conforms] using hc
      subst hn
      intro p hp t ht
      simp only [shredV, nullCols, nLeaves, List.replicate, List.zip_cons_cons,
        List.zip_nil_right, List.mem_singleton, descs, dInc_true] at hp
      subst hp
      simp only [List.mem_singleton] at ht
      subst ht
      refine ⟨hr, by dsimp only; omega, ?_⟩
      dsimp only
      simp only [Option.isSome_none, Bool.false_eq_true, false_iff]
      omega
    | strctV vs => simp [conforms] at hc
    | listV vs => simp [conforms] at hc
    | mapV es => simp [conforms] at hc
  | strct n fs =>
    cases v with
    | strctV vs =>
      have hcf : conformsF fs vs = true := by simpa [conforms] using hc
      intro p hp
      simp only [shredV, descs] at hp
      exact invF fs vs r (dInc n d) rd hcf hr p hp
    | nullV =>
      have hn : n = true := by simpa [conforms] using hc
      subst hn
      intro p hp t ht
      simp only [shredV, nullCols, descs, dInc_true] at hp
      obtain ⟨h1, h2⟩ := mem_zip_replicate hp
      have hlb := descsF_lb fs rd (d + 1) p.2 h2
      rw [h1] at ht
      simp only [List.mem_singleton] at ht
      subst ht
      refine ⟨by dsimp only; omega, by dsimp only; omega, ?_⟩
      dsimp only
      simp only [Option.isSome_none, Bool.false_eq_true, false_iff]
      omega
    | leafV x => simp [conforms] at hc
    | listV vs => simp [conforms] at hc
    | mapV es => simp [conforms] at hc
  | listN n e =>
    cases v with
    | nullV =>
      have hn : n = true := by simpa [conforms] using hc
      subst hn
      intro p hp t ht
      simp only [shredV, nullCols, descs, dInc_true, nLeaves] at hp
      obtain ⟨h1, h2⟩ := mem_zip_replicate hp
      have hlb := descs_lb e (rd + 1) (d + 1 + 1) p.2 h2
      rw [h1] at ht
      simp only [List.mem_singleton] at ht
      subst ht
      refine ⟨by dsimp only; omega, by dsimp only; omega, ?_⟩
      dsimp only
      simp only [Option.isSome_none, Bool.false_eq_true, false_iff]
      omega
    | listV vs =>
      cases vs with
      | nil =>
        intro p hp t ht
        simp only [shredV, descs] at hp
        obtain ⟨h1, h2⟩ := mem_zip_replicate hp
        have hlb := descs_lb e (rd + 1) (dInc n d + 1) p.2 h2
        rw [h1] at ht
        simp only [List.mem_singleton] at ht
        subst ht
        refine ⟨by dsimp only; omega, by dsimp only; omega, ?_⟩
        dsimp only
        simp only [Option.isSome_none, Bool.false_eq_true, false_iff]
        omega
      | cons v0 vs =>
        have hc' : conforms e v0 = true ∧ conformsL e vs = true := by
          simpa [conforms, conformsL] using hc
        intro p hp t ht
        simp only [shredV, descs] at hp
        obtain ⟨a, b, ha, hb, hab⟩ := mem_zip_colApp hp
        rw [hab] at ht
        rcases List.mem_append.mp ht with ht | ht
        · exact invV e v0 r (dInc n d + 1) (rd + 1) hc'.1 (by omega) (a, p.2) ha t ht
        · exact invL e vs (dInc n d + 1) (rd + 1) hc'.2 (b, p.2) hb t ht
    | leafV x => simp [conforms] at hc
    | strctV vs => simp [conforms] at hc
    | mapV es => simp [conforms] at hc
  | mapN n k w =>
    cases v with
    | nullV =>
      have hn : n = true := by simpa [conforms] using hc
      subst hn
      intro p hp t ht
      simp only [shredV, nullCols, descs, dInc_true, nLeaves] at hp
      obtain ⟨h1, h2⟩ := mem_zip_replicate hp
      have hlb : rd + 1 ≤ p.2.1 ∧ d + 1 + 1 ≤ p.2.2 := by
        rcases List.mem_append.mp h2 with h2 | h2
        · exact descs_lb k (rd + 1) (d + 1 + 1) p.2 h2
        · exact descs_lb w (rd + 1) (d + 1 + 1) p.2 h2
      rw [h1] at ht
      simp only [List.mem_singleton] at ht
      subst ht
      refine ⟨by dsimp only; omega, by dsimp only; omega, ?_⟩
      dsimp only
      simp only [Option.isSome_none, Bool.false_eq_true, false_iff]
      omega
    | mapV es =>
      cases es with
      | nil =>
        intro p hp t ht
        simp only [shredV, descs] at hp
        obtain ⟨h1, h2⟩ := mem_zip_replicate hp
        have hlb : rd + 1 ≤ p.2.1 ∧ dInc n d + 1 ≤ p.2.2 := by
          rcases List.mem_append.mp h2 with h2 | h2
          · exact descs_lb k (rd + 1) (dInc n d + 1) p.2 h2
          · exact descs_lb w (rd + 1) (dInc n d + 1) p.2 h2
        rw [h1] at ht
        simp only [List.mem_singleton] at ht
        subst ht
        refine ⟨by dsimp only; omega, by dsimp only; omega, ?_⟩
        dsimp only
        simp only [Option.isSome_none, Bool.false_eq_true, false_iff]
        omega
      | cons k0 w0 es =>
        have hc' : conforms k k0 = true ∧ conforms w w0 = true ∧
            conformsE k w es = true := by
          simpa [conforms, conformsE, and_assoc] using hc
        intro p hp t ht
        simp only [shredV, descs] at hp
        obtain ⟨a, b, ha, hb, hab⟩ := mem_zip_colApp hp
        have hzl : (shredV k k0 r (dInc n d + 1) (rd + 1)).length =
            (descs k (rd + 1) (dInc n d + 1)).length := by
          rw [lenShredV k k0 _ _ _ hc'.1, descs_len]
        rw [List.zip_append hzl] at ha
        rw [hab] at ht
        rcases List.mem_append.mp ht with ht | ht
        · rcases List.mem_append.mp ha with ha | ha
          · exact invV k k0 r (dInc n d + 1) (rd + 1) hc'.1 (by omega) (a, p.2) ha t ht
          · exact invV w w0 r (dInc n d + 1) (rd + 1) hc'.2.1 (by omega) (a, p.2) ha t ht
        · exact invE k w es (dInc n d + 1) (rd + 1) hc'.2.2 (b, p.2) hb t ht
    | leafV x => simp [conforms] at hc
    | strctV vs => simp [conforms] at hc
    | listV vs => simp [conforms] at hc

theorem invF (fs : Fields) (vs : Values) (r d rd : Nat)
    (hc : conformsF fs vs = true) (hr : r ≤ rd) :
    ∀ p ∈ List.zip (shredF fs vs r d rd) (descsF fs rd d), ∀ t ∈ p.1, TripleOK t p.2 := by
  cases fs with
  | nil =>
    cases vs with
    | nil => intro p hp; simp [shredF] at hp
    | cons v vs => simp [conformsF] at hc
  | cons nm s fs =>
    cases vs with
    | nil => simp [conformsF] at hc
    | cons v vs =>
      simp only [conformsF, Bool.and_eq_true] at hc
      intro p hp
      simp only [shredF, descsF] at hp
      have hzl : (shredV s v r d rd).length = (descs s rd d).length := by
        rw [lenShredV s v _ _ _ hc.1, descs_len]
      rw [List.zip_append hzl] at hp
      rcases List.mem_append.mp hp with hp | hp
      · exact invV s v r d rd hc.1 hr p hp
      · exact invF fs vs r d rd hc.2 hr p hp

theorem invL (e : Schema) (vs : Values) (d rd : Nat)
    (hc : conformsL e vs = true) :
    ∀ p ∈ List.zip (shredL e vs d rd) (descs e rd d), ∀ t ∈ p.1, TripleOK t p.2 := by
  cases vs with
  | nil =>
    intro p hp t ht
    simp only [shredL] at hp
    obtain ⟨h1, h2⟩ := mem_zip_replicate hp
    rw [h1] at ht
    simp at ht
  | cons v vs =>
    simp only [conformsL, Bool.and_eq_true] at hc
    intro p hp t ht
    simp only [shredL] at hp
    obtain ⟨a, b, ha, hb, hab⟩ := mem_zip_colApp hp
    rw [hab] at ht
    rcases List.mem_append.mp ht with ht | ht
    · exact invV e v rd d rd hc.1 (le_refl _) (a, p.2) ha t ht
    · exact invL e vs d rd hc.2 (b, p.2) hb t ht

theorem invE (k w : Schema) (es : Entries) (d rd : Nat)
    (hc : conformsE k w es = true) :
    ∀ p ∈ List.zip (shredE k w es d rd) (descs k rd d ++ descs w rd d),
      ∀ t ∈ p.1, TripleOK t p.2 := by
  cases es with
  | nil =>
    intro p hp t ht
    simp only [shredE] at hp
    obtain ⟨h1, h2⟩ := mem_zip_replicate hp
    rw [h1] at ht
    simp at ht
  | cons kv vv es =>
    simp only [conformsE, Bool.and_eq_true] at hc
    intro p hp t ht
    simp only [shredE] at hp
    obtain ⟨a, b, ha, hb, hab⟩ := mem_zip_colApp hp
    have hzl : (shredV k kv rd d rd).length = (descs k rd d).length := by
      rw [lenShredV k kv _ _ _ hc.1.1, descs_len]
    rw [List.zip_append hzl] at ha
    rw [hab] at ht
    rcases List.mem_append.mp ht with ht | ht
    · rcases List.mem_append.mp ha with ha | ha
      · exact invV k kv rd d rd hc.1.1 (le_refl _) (a, p.2) ha t ht
      · exact invV w vv rd d rd hc.1.2 (le_refl _) (a, p.2) ha t ht
    · exact invE k w es d rd hc.2 (b, p.2) hb t ht
end

/-- C5: every triple produced by shredding a conforming value satisfies
repetitionLevel ≤ maxRepetitionLevel and definitionLevel ≤ maxDefinitionLevel
of its leaf's descriptor, and carries a value iff definitionLevel equals
maxDefinitionLevel. -/
theorem C5_shred_level_invariants (s : Schema) (v : Value)
    (hc : conforms s v = true) :
    ∀ p ∈ List.zip (shred s v) (leafDescs s), ∀ t ∈ p.1,
      t.rep ≤ p.2.1 ∧ t.dl ≤ p.2.2 ∧ (t.val.isSome = true ↔ t.dl = p.2.2) :=
  fun p hp t ht => invV s v 0 0 0 hc (le_refl _) p hp t ht

/-- Witness for C5: the invariant holds at the concrete nested value used
for the round-trip witness. -/
theorem C5_shred_level_invariants_witness :
    conforms c1S c1V = true ∧
      (∀ p ∈ List.zip (shred c1S c1V) (leafDescs c1S), ∀ t ∈ p.1,
        t.rep ≤ p.2.1 ∧ t.dl ≤ p.2.2 ∧ (t.val.isSome = true ↔ t.dl = p.2.2)) :=
  ⟨by decide, C5_shred_level_invariants c1S c1V (by decide)⟩

/-- The AddressBook schema of the Dremel paper, as declared by the script
(address_book_schema): owner is a required string, ownerPhoneNumbers a
repeated string, contacts a repeated group of a required name and an
optional phoneNumber. -/
def addressBookSchema : Schema :=
  .strct false (.cons "owner" (.leaf false)
    (.cons "ownerPhoneNumbers" (.listN false (.leaf false))
      (.cons "contacts" (.listN false
        (.strct false (.cons "name" (.leaf false)
          (.cons "phoneNumber" (.leaf true) .nil)))) .nil)))

/-- First record of the script's address_book_data: Julien Le Dem with two
phone numbers and two contacts, the second contact's phoneNumber null. -/
def abRecord1 : Value :=
  .strctV (.cons (.leafV (.strV "Julien Le Dem"))
    (.cons (.listV (.cons (.leafV (.strV "555 123 4567"))
        (.cons (.leafV (.strV "555 666 1337")) .nil)))
      (.cons (.listV
          (.cons (.strctV (.cons (.leafV (.strV "Dmitriy Ryaboy"))
            (.cons (.leafV (.strV "555 987 6543")) .nil)))
            (.cons (.strctV (.cons (.leafV (.strV "Chris Aniszczyk"))
              (.cons .nullV .nil))) .nil)))
        .nil)))

/-- Second record of the script's address_book_data: A. Nonymous with empty
phone numbers and empty contacts. -/
def abRecord2 : Value :=
  .strctV (.cons (.leafV (.strV "A. Nonymous"))
    (.cons (.listV .nil) (.cons (.listV .nil) .nil)))

/-- C4: shredding the two-record Dremel AddressBook example produces exactly
the repetition/definition level sequences documented in the Dremel paper:
owner [(0,0),(0,0)]; ownerPhoneNumbers [(0,1),(1,1),(0,0)];
contacts.name [(0,1),(1,1),(0,0)]; contacts.phoneNumber [(0,2),(1,1),(0,0)],
with values present exactly at the maximum definition level. -/
theorem C4_addressBook_dremel_levels :
    shredRecords addressBookSchema [abRecord1, abRecord2] =
      [[⟨some (.strV "Julien Le Dem"), 0, 0⟩, ⟨some (.strV "A. Nonymous"), 0, 0⟩],
       [⟨some (.strV "555 123 4567"), 0, 1⟩, ⟨some (.strV "555 666 1337"), 1, 1⟩,
        ⟨none, 0, 0⟩],
       [⟨some (.strV "Dmitriy Ryaboy"), 0, 1⟩, ⟨some (.strV "Chris Aniszczyk"), 1, 1⟩,
        ⟨none, 0, 0⟩],
       [⟨some (.strV "555 987 6543"), 0, 2⟩, ⟨none, 1, 1⟩, ⟨none, 0, 0⟩]] := by
  decide

/-! ### Value encoder/decoder layer (§4.1), modelled from the spec. -/

/-- Little-endian bit expansion of a natural number at a fixed bit width. -/
def natToBits (w n : Nat) : List Bool :=
  match w with
  | 0 => []
  | w + 1 => (n % 2 == 1) :: natToBits w (n / 2)

/-- Value of a little-endian bit string. -/
def bitsToNat : List Bool → Nat
  | [] => 0
  | b :: bs => (if b then 1 else 0) + 2 * bitsToNat bs

theorem natToBits_length (w n : Nat) : (natToBits w n).length = w := by
  induction w generalizing n with
  | zero => rfl
  | succ w ih => simp [natToBits, ih]

theorem bitsToNat_natToBits (w n : Nat) (h : n < 2 ^ w) :
    bitsToNat (natToBits w n) = n := by
  induction w generalizing n with
  | zero => simp [pow_zero] at h; simp [natToBits, bitsToNat, h]
  | succ w ih =>
    have hdiv : n / 2 < 2 ^ w := by
      rw [pow_succ] at h
      omega
    simp only [natToBits, bitsToNat, ih (n / 2) hdiv]
    have hm := Nat.mod_two_eq_zero_or_one n
    rcases hm with hm | hm <;> simp [hm] <;> omega

theorem bitsToNat_lt (bs : List Bool) : bitsToNat bs < 2 ^ bs.length := by
  induction bs with
  | nil => simp [bitsToNat]
  | cons b bs ih =>
    simp only [bitsToNat, List.length_cons, pow_succ]
    cases b <;> simp <;> omega

theorem natToBits_bitsToNat (bs : List Bool) :
    natToBits bs.length (bitsToNat bs) = bs := by
  induction bs with
  | nil => rfl
  | cons b bs ih =>
    simp only [List.length_cons, natToBits, bitsToNat, List.cons.injEq]
    refine ⟨?_, ?_⟩
    · cases b <;> simp <;> omega
    · have : ((if b then 1 else 0) + 2 * bitsToNat bs) / 2 = bitsToNat bs := by
        cases b <;> simp <;> omega
      rw [this, ih]

theorem bitsToNat_append_false (l : List Bool) (k : Nat) :
    bitsToNat (l ++ List.replicate k false) = bitsToNat l := by
  induction l with
  | nil =>
    induction k with
    | zero => rfl
    | succ m ih => simpa [List.replicate, bitsToNat] using ih
  | cons b l ih => simp [bitsToNat, ih]

/-- Group a bit string into bytes, padding the final byte with zero bits. -/
def bitsToBytes (bs : List Bool) : List Nat :=
  if h : bs = [] then []
  else
    bitsToNat (bs.take 8 ++ List.replicate (8 - (bs.take 8).length) false) ::
      bitsToBytes (bs.drop 8)
termination_by bs.length
decreasing_by
  simp only [List.length_drop]
  have : 0 < bs.length := List.length_pos.mpr h
  omega

/-- Bit string of a byte sequence, 8 bits per byte, little-endian. -/
def bytesToBits (bytes : List Nat) : List Bool :=
  bytes.flatMap (natToBits 8)

theorem bitsToBytes_length_aux (n : Nat) : ∀ bs : List Bool, bs.length ≤ n →
    (bitsToBytes bs).length = (bs.length + 7) / 8 := by
  induction n with
  | zero =>
    intro bs h
    have : bs = [] := List.eq_nil_of_length_eq_zero (by omega)
    subst this
    simp [bitsToBytes]
  | succ n ih =>
    intro bs h
    by_cases hb : bs = []
    · subst hb; simp [bitsToBytes]
    · rw [bitsToBytes, dif_neg hb]
      have hpos : 0 < bs.length := List.length_pos.mpr hb
      have hrec := ih (bs.drop 8) (by simp only [List.length_drop]; omega)
      rw [List.length_cons, hrec]
      simp only [List.length_drop]
      omega

theorem bitsToBytes_length (bs : List Bool) :
    (bitsToBytes bs).length = (bs.length + 7) / 8 :=
  bitsToBytes_length_aux bs.length bs (le_refl _)

theorem natToBits8_pad (l : List Bool) (h : l.length = 8) :
    natToBits 8 (bitsToNat l) = l := by
  rw [← h]
  exact natToBits_bitsToNat l

theorem bytesToBits_bitsToBytes_aux (n : Nat) : ∀ bs : List Bool, bs.length ≤ n →
    ∃ k, bytesToBits (bitsToBytes bs) = bs ++ List.replicate k false := by
  induction n with
  | zero =>
    intro bs h
    have : bs = [] := List.eq_nil_of_length_eq_zero (by omega)
    subst this
    exact ⟨0, by simp [bitsToBytes, bytesToBits]⟩
  | succ n ih =>
    intro bs h
    by_cases hb : bs = []
    · subst hb
      exact ⟨0, by simp [bitsToBytes, bytesToBits]⟩
    · have hpos : 0 < bs.length := List.length_pos.mpr hb
      obtain ⟨k, hk⟩ := ih (bs.drop 8) (by simp only [List.length_drop]; omega)
      have hlen8 : (bs.take 8 ++ List.replicate (8 - (bs.take 8).length) false).length
          = 8 := by
        simp only [List.length_append, List.length_replicate, List.length_take]
        omega
      simp only [bytesToBits] at hk
      rw [bitsToBytes, dif_neg hb]
      simp only [bytesToBits, List.flatMap_cons]
      rw [natToBits8_pad _ hlen8, hk]
      by_cases h8 : bs.length ≤ 8
      · refine ⟨8 - bs.length + k, ?_⟩
        rw [List.take_of_length_le h8, List.drop_eq_nil_of_le h8]
        simp only [List.nil_append, List.append_assoc, ← List.replicate_add]
      · refine ⟨k, ?_⟩
        have htl : (bs.take 8).length = 8 := by
          simp only [List.length_take]; omega
        rw [htl]
        simp only [Nat.sub_self, List.replicate_zero, List.append_nil,
          ← List.append_assoc, List.take_append_drop]

theorem bytesToBits_bitsToBytes (bs : List Bool) :
    ∃ k, bytesToBits (bitsToBytes bs) = bs ++ List.replicate k false :=
  bytesToBits_bitsToBytes_aux bs.length bs (le_refl _)

/-- Fixed-bit-width packing of a value stream into bytes (§4.1, dictionary
index stream and delta miniblocks). -/
def packBits (w : Nat) (xs : List Nat) : List Nat :=
  bitsToBytes (xs.flatMap (natToBits w))

/-- Read `count` fixed-width values from a bit string. -/
def takeChunks (w : Nat) : Nat → List Bool → List Nat
  | 0, _ => []
  | c + 1, bits => bitsToNat (bits.take w) :: takeChunks w c (bits.drop w)

/-- Decode `count` fixed-bit-width values from packed bytes. -/
def unpackBits (w count : Nat) (bytes : List Nat) : List Nat :=
  takeChunks w count (bytesToBits bytes)

theorem takeChunks_flat (w : Nat) (xs : List Nat) (junk : List Bool)
    (hx : ∀ x ∈ xs, x < 2 ^ w) :
    takeChunks w xs.length (xs.flatMap (natToBits w) ++ junk) = xs := by
  induction xs generalizing junk with
  | nil => rfl
  | cons x xs ih =>
    simp only [List.flatMap_cons, List.length_cons, takeChunks, List.append_assoc,
      List.cons.injEq]
    refine ⟨?_, ?_⟩
    · rw [List.take_left' (natToBits_length w x), bitsToNat_natToBits w x
        (hx x (List.mem_cons_self ..))]
    · rw [List.drop_left' (natToBits_length w x)]
      exact ih junk (fun y hy => hx y (List.mem_cons_of_mem _ hy))

theorem unpack_pack (w : Nat) (xs : List Nat) (hx : ∀ x ∈ xs, x < 2 ^ w) :
    unpackBits w xs.length (packBits w xs) = xs := by
  obtain ⟨k, hk⟩ := bytesToBits_bitsToBytes (xs.flatMap (natToBits w))
  unfold unpackBits packBits
  rw [hk]
  exact takeChunks_flat w xs _ hx

theorem flatMap_natToBits_length (w : Nat) (xs : List Nat) :
    (xs.flatMap (natToBits w)).length = w * xs.length := by
  induction xs with
  | nil => simp
  | cons x xs ih =>
    simp only [List.flatMap_cons, List.length_append, natToBits_length, ih,
      List.length_cons]
    ring

theorem packBits_length (w : Nat) (xs : List Nat) :
    (packBits w xs).length = (w * xs.length + 7) / 8 := by
  rw [packBits, bitsToBytes_length, flatMap_natToBits_length]

/-- Little-endian byte expansion of a natural number over `k` bytes (§4.1,
PLAIN fixed-width and length prefixes). -/
def natToBytesLE : Nat → Nat → List Nat
  | 0, _ => []
  | k + 1, n => (n % 256) :: natToBytesLE k (n / 256)

/-- Value of a little-endian byte string. -/
def bytesToNatLE : List Nat → Nat
  | [] => 0
  | b :: bs => b + 256 * bytesToNatLE bs

theorem natToBytesLE_length (k n : Nat) : (natToBytesLE k n).length = k := by
  induction k generalizing n with
  | zero => rfl
  | succ k ih => simp [natToBytesLE, ih]

theorem bytesToNatLE_natToBytesLE (k n : Nat) (h : n < 256 ^ k) :
    bytesToNatLE (natToBytesLE k n) = n := by
  induction k generalizing n with
  | zero => simp [pow_zero] at h; simp [natToBytesLE, bytesToNatLE, h]
  | succ k ih =>
    have hdiv : n / 256 < 256 ^ k := by
      rw [pow_succ] at h
      omega
    simp only [natToBytesLE, bytesToNatLE, ih (n / 256) hdiv]
    omega

/-- Two's-complement unsigned image of a signed value at width `w`. -/
def toU (w : Nat) (i : Int) : Nat := (i % ((2 ^ w : Nat) : Int)).toNat

/-- Signed value of a two's-complement unsigned image at width `w`. -/
def fromU (w : Nat) (u : Nat) : Int :=
  if (u : Int) < ((2 ^ (w - 1) : Nat) : Int) then (u : Int)
  else (u : Int) - ((2 ^ w : Nat) : Int)

theorem toU_lt (w : Nat) (i : Int) : toU w i < 2 ^ w := by
  have hpos : (0 : Int) < ((2 ^ w : Nat) : Int) := by positivity
  have h1 := Int.emod_nonneg i (ne_of_gt hpos)
  have h2 := Int.emod_lt_of_pos i hpos
  unfold toU
  omega

theorem fromU_toU (w : Nat) (i : Int) (hw : 1 ≤ w)
    (hlo : -((2 ^ (w - 1) : Nat) : Int) ≤ i)
    (hhi : i < ((2 ^ (w - 1) : Nat) : Int)) :
    fromU w (toU w i) = i := by
  have hsplit : (2 ^ w : Nat) = 2 ^ (w - 1) * 2 := by
    rw [← pow_succ]
    congr 1
    omega
  have hpos : (0 : Int) < ((2 ^ w : Nat) : Int) := by positivity
  rcases le_or_lt 0 i with hi | hi
  · have hmod : i % ((2 ^ w : Nat) : Int) = i := by
      apply Int.emod_eq_of_lt hi
      push_cast [hsplit]
      push_cast at hhi
      nlinarith
    unfold fromU toU
    rw [hmod]
    rw [Int.toNat_of_nonneg hi]
    rw [if_pos (by push_cast; push_cast at hhi; omega)]
  · have hmod : i % ((2 ^ w : Nat) : Int) = i + ((2 ^ w : Nat) : Int) := by
      have haux := @Int.add_mul_emod_self_left i (((2 ^ w : Nat) : Int)) 1
      rw [Int.mul_one] at haux
      rw [← haux]
      apply Int.emod_eq_of_lt
      · push_cast [hsplit] at hlo ⊢
        nlinarith
      · omega
    unfold fromU toU
    rw [hmod]
    rw [Int.toNat_of_nonneg (by push_cast [hsplit] at hlo ⊢; nlinarith)]
    rw [if_neg (by push_cast [hsplit] at hlo ⊢; nlinarith)]
    omega

/-- PLAIN encoding of fixed-width unsigned words: `k` little-endian bytes per
value at its natural width (§4.1). -/
def encodePlainFixed (k : Nat) (xs : List Nat) : List Nat :=
  xs.flatMap (natToBytesLE k)

/-- PLAIN decoding of `count` fixed-width unsigned words of `k` bytes each. -/
def decodePlainFixed (k : Nat) : Nat → List Nat → List Nat
  | 0, _ => []
  | c + 1, bytes => bytesToNatLE (bytes.take k) :: decodePlainFixed k c (bytes.drop k)

theorem decodePlainFixed_encode (k : Nat) (xs : List Nat) (junk : List Nat)
    (hx : ∀ x ∈ xs, x < 256 ^ k) :
    decodePlainFixed k xs.length (encodePlainFixed k xs ++ junk) = xs := by
  induction xs generalizing junk with
  | nil => rfl
  | cons x xs ih =>
    simp only [encodePlainFixed, List.flatMap_cons, List.length_cons, decodePlainFixed,
      List.append_assoc, List.cons.injEq]
    refine ⟨?_, ?_⟩
    · rw [List.take_left' (natToBytesLE_length k x),
        bytesToNatLE_natToBytesLE k x (hx x (List.mem_cons_self ..))]
    · rw [List.drop_left' (natToBytesLE_length k x)]
      exact ih junk (fun y hy => hx y (List.mem_cons_of_mem _ hy))

/-- PLAIN encoding of signed integers backed by a `k`-byte physical word
(int32 for k = 4, int64 for k = 8): two's complement, little-endian. -/
def encodePlainInt (k : Nat) (xs : List Int) : List Nat :=
  encodePlainFixed k (xs.map (toU (8 * k)))

/-- PLAIN decoding of `count` signed `k`-byte integers. -/
def decodePlainInt (k count : Nat) (bytes : List Nat) : List Int :=
  (decodePlainFixed k count bytes).map (fromU (8 * k))

theorem decodePlainInt_encode (k : Nat) (xs : List Int) (hk : 1 ≤ k)
    (hx : ∀ x ∈ xs, -((2 ^ (8 * k - 1) : Nat) : Int) ≤ x ∧
      x < ((2 ^ (8 * k - 1) : Nat) : Int)) :
    decodePlainInt k xs.length (encodePlainInt k xs) = xs := by
  unfold decodePlainInt encodePlainInt
  have hlen : xs.length = (xs.map (toU (8 * k))).length := by simp
  rw [hlen, ← List.append_nil (encodePlainFixed k (xs.map (toU (8 * k)))),
    decodePlainFixed_encode k _ [] (by
      intro y hy
      simp only [List.mem_map] at hy
      obtain ⟨x, hx', rfl⟩ := hy
      have := toU_lt (8 * k) x
      have hpow : (256 : Nat) ^ k = 2 ^ (8 * k) := by
        rw [show (256 : Nat) = 2 ^ 8 from rfl, ← pow_mul]
      omega)]
  rw [List.map_map]
  have : ∀ x ∈ xs, (fromU (8 * k) ∘ toU (8 * k)) x = x := by
    intro x hx'
    exact fromU_toU (8 * k) x (by omega) (hx x hx').1 (hx x hx').2
  exact List.map_congr_left this |>.trans (List.map_id _)

/-- PLAIN encoding of byte arrays: 4-byte little-endian length prefix then
raw bytes (§4.1). -/
def encodePlainBA (xs : List (List Nat)) : List Nat :=
  xs.flatMap (fun b => natToBytesLE 4 b.length ++ b)

/-- PLAIN decoding of `count` length-prefixed byte arrays. -/
def decodePlainBA : Nat → List Nat → List (List Nat)
  | 0, _ => []
  | c + 1, bytes =>
    (bytes.drop 4).take (bytesToNatLE (bytes.take 4)) ::
      decodePlainBA c ((bytes.drop 4).drop (bytesToNatLE (bytes.take 4)))

theorem decodePlainBA_encode (xs : List (List Nat)) (junk : List Nat)
    (hx : ∀ b ∈ xs, b.length < 2 ^ 32) :
    decodePlainBA xs.length (encodePlainBA xs ++ junk) = xs := by
  induction xs generalizing junk with
  | nil => rfl
  | cons b xs ih =>
    simp only [encodePlainBA, List.flatMap_cons, List.length_cons, decodePlainBA,
      List.append_assoc, List.cons.injEq]
    have hlen : bytesToNatLE ((natToBytesLE 4 b.length ++ (b ++
        (xs.flatMap (fun (b : List Nat) => natToBytesLE 4 b.length ++ b) ++ junk))).take 4) =
        b.length := by
      rw [List.take_left' (natToBytesLE_length 4 b.length)]
      exact bytesToNatLE_natToBytesLE 4 b.length
        (by have := hx b (List.mem_cons_self ..); simpa using this)
    have hdrop : (natToBytesLE 4 b.length ++ (b ++
        (xs.flatMap (fun (b : List Nat) => natToBytesLE 4 b.length ++ b) ++ junk))).drop 4 =
        b ++ (xs.flatMap (fun (b : List Nat) => natToBytesLE 4 b.length ++ b) ++ junk) :=
      List.drop_left' (natToBytesLE_length 4 b.length)
    rw [hlen, hdrop]
    refine ⟨List.take_left' rfl, ?_⟩
    rw [List.drop_left' rfl]
    exact ih junk (fun y hy => hx y (List.mem_cons_of_mem _ hy))

/-- PLAIN encoding of booleans: 8 per byte, LSB first (§4.1). -/
def encodePlainBool (xs : List Bool) : List Nat := bitsToBytes xs

/-- PLAIN decoding of `count` packed booleans. -/
def decodePlainBool (count : Nat) (bytes : List Nat) : List Bool :=
  (bytesToBits bytes).take count

theorem decodePlainBool_encode (xs : List Bool) :
    decodePlainBool xs.length (encodePlainBool xs) = xs := by
  unfold decodePlainBool encodePlainBool
  obtain ⟨k, hk⟩ := bytesToBits_bitsToBytes xs
  rw [hk, List.take_left' rfl]

/-- Deduplicated dictionary in first-occurrence order (§4.1, dictionary
encoding). -/
def dictOf {α : Type} [DecidableEq α] (vals : List α) : List α :=
  vals.foldl (fun d v => if v ∈ d then d else d ++ [v]) []

/-- Index-stream bit width: ceil(log2(dictionary size)), minimum 1 (§4.1). -/
def dictBitWidth (n : Nat) : Nat := max 1 (Nat.clog 2 n)

/-- Dictionary encoding: the dictionary page (deduplicated values in
first-occurrence order) and the fixed-bit-width-packed index stream. -/
def encodeDictionary {α : Type} [DecidableEq α] (vals : List α) : List α × List Nat :=
  (dictOf vals,
    packBits (dictBitWidth (dictOf vals).length)
      (vals.map (fun v => (dictOf vals).indexOf v)))

/-- Dictionary decoding: unpack `count` indices at the dictionary's bit width
and look each up in the dictionary page. -/
def decodeDictionary {α : Type} [DecidableEq α] [Inhabited α] (dict : List α)
    (count : Nat) (bytes : List Nat) : List α :=
  (unpackBits (dictBitWidth dict.length) count bytes).map
    (fun i => dict.getD i default)

theorem mem_dictOf_aux {α : Type} [DecidableEq α] (vals : List α) (v : α) :
    ∀ acc : List α, v ∈ vals ∨ v ∈ acc →
      v ∈ vals.foldl (fun d x => if x ∈ d then d else d ++ [x]) acc := by
  induction vals with
  | nil => intro acc h; simpa using h
  | cons x vals ih =>
    intro acc h
    simp only [List.foldl_cons]
    apply ih
    by_cases hx : x ∈ acc
    · rw [if_pos hx]
      rcases h with h | h
      · simp only [List.mem_cons] at h
        rcases h with rfl | h
        · exact Or.inr hx
        · exact Or.inl h
      · exact Or.inr h
    · rw [if_neg hx]
      rcases h with h | h
      · simp only [List.mem_cons] at h
        rcases h with rfl | h
        · exact Or.inr (by simp)
        · exact Or.inl h
      · exact Or.inr (by simp [h])

theorem mem_dictOf {α : Type} [DecidableEq α] {vals : List α} {v : α}
    (h : v ∈ vals) : v ∈ dictOf vals :=
  mem_dictOf_aux vals v [] (Or.inl h)

theorem dictSize_le_pow (n : Nat) : n ≤ 2 ^ dictBitWidth n := by
  unfold dictBitWidth
  rcases Nat.eq_zero_or_pos n with rfl | hp
  · positivity
  · calc n ≤ 2 ^ Nat.clog 2 n := Nat.le_pow_clog (by norm_num) n
    _ ≤ 2 ^ max 1 (Nat.clog 2 n) :=
      Nat.pow_le_pow_right (by norm_num) (le_max_right ..)

/-- Dictionary round trip: decoding the index stream against the dictionary
page reproduces the original values. -/
theorem decodeDictionary_encode {α : Type} [DecidableEq α] [Inhabited α]
    (vals : List α) :
    decodeDictionary (encodeDictionary vals).1 vals.length
      (encodeDictionary vals).2 = vals := by
  unfold decodeDictionary encodeDictionary
  dsimp only
  have hcount : vals.length = (vals.map (fun v => (dictOf vals).indexOf v)).length := by
    simp
  rw [hcount, unpack_pack _ _ (by
    intro y hy
    simp only [List.mem_map] at hy
    obtain ⟨v, hv, rfl⟩ := hy
    have hm := mem_dictOf hv
    have h1 := List.indexOf_lt_length.mpr hm
    have h2 := dictSize_le_pow (dictOf vals).length
    omega)]
  rw [List.map_map]
  have : ∀ v ∈ vals, ((fun i => (dictOf vals).getD i default) ∘
      (fun v => (dictOf vals).indexOf v)) v = v := by
    intro v hv
    have hm := mem_dictOf hv
    simp only [Function.comp]
    rw [List.getD_eq_getElem _ _ (List.indexOf_lt_length.mpr hm)]
    exact List.getElem_indexOf _
  exact (List.map_congr_left this).trans (List.map_id _)

/-- Zig-zag image of a signed integer (even for non-negative, odd for
negative), used for min-delta and first-value fields. -/
def zigzag (i : Int) : Nat := if 0 ≤ i then (2 * i).toNat else ((-(2 * i)) - 1).toNat

/-- Inverse of the zig-zag image. -/
def unzigzag (n : Nat) : Int :=
  if n % 2 = 0 then ((n / 2 : Nat) : Int) else -(((n / 2 : Nat) : Int) + 1)

theorem unzigzag_zigzag (i : Int) : unzigzag (zigzag i) = i := by
  unfold zigzag
  split
  · unfold unzigzag
    split <;> omega
  · unfold unzigzag
    split <;> omega

/-- Unsigned LEB128 encoding of a natural number. -/
def uleb (n : Nat) : List Nat :=
  if n < 128 then [n] else (n % 128 + 128) :: uleb (n / 128)
termination_by n
decreasing_by omega

/-- Unsigned LEB128 decoding; returns the value and the unconsumed suffix. -/
def dleb : List Nat → Option (Nat × List Nat)
  | [] => none
  | b :: bs =>
    if b < 128 then some (b, bs)
    else (dleb bs).map (fun p => (b - 128 + 128 * p.1, p.2))

theorem dleb_uleb_aux (fuel : Nat) : ∀ n ≤ fuel, ∀ rest : List Nat,
    dleb (uleb n ++ rest) = some (n, rest) := by
  induction fuel with
  | zero =>
    intro n hn rest
    have : n = 0 := by omega
    subst this
    rw [uleb]
    simp [dleb]
  | succ fuel ih =>
    intro n hn rest
    by_cases h : n < 128
    · rw [uleb, if_pos h]
      simp [dleb, h]
    · rw [uleb, if_neg h]
      rw [List.cons_append, dleb, if_neg (by omega : ¬ n % 128 + 128 < 128),
        ih (n / 128) (by omega) rest]
      simp only [Option.map_some', Option.some_inj, Prod.mk.injEq]
      constructor
      · omega
      · trivial

theorem dleb_uleb (n : Nat) (rest : List Nat) :
    dleb (uleb n ++ rest) = some (n, rest) :=
  dleb_uleb_aux n n (le_refl _) rest

/-- Consecutive deltas of a value stream relative to a running predecessor. -/
def deltasOf : Int → List Int → List Int
  | _, [] => []
  | prev, v :: vs => (v - prev) :: deltasOf v vs

/-- Cumulative sums: the inverse of `deltasOf`. -/
def psums : Int → List Int → List Int
  | _, [] => []
  | prev, d :: ds => (prev + d) :: psums (prev + d) ds

theorem psums_deltasOf (prev : Int) (vs : List Int) :
    psums prev (deltasOf prev vs) = vs := by
  induction vs generalizing prev with
  | nil => rfl
  | cons v vs ih => simp [deltasOf, psums, ih]

/-- Minimum bit width able to represent a natural number (0 for zero). -/
def bitWidthOf (n : Nat) : Nat := if n = 0 then 0 else Nat.log 2 n + 1

theorem lt_pow_bitWidthOf (x m : Nat) (h : x ≤ m) : x < 2 ^ bitWidthOf m := by
  unfold bitWidthOf
  split
  · omega
  · have := Nat.lt_pow_succ_log_self (by norm_num : 1 < 2) m
    simp only [Nat.succ_eq_add_one] at this
    omega

/-- Maximum of a list of naturals. -/
def maxOf (xs : List Nat) : Nat := xs.foldr max 0

theorem le_maxOf (xs : List Nat) (x : Nat) (h : x ∈ xs) : x ≤ maxOf xs := by
  induction xs with
  | nil => simp at h
  | cons y ys ih =>
    simp only [List.mem_cons] at h
    simp only [maxOf, List.foldr_cons]
    rcases h with rfl | h
    · exact le_max_left ..
    · exact le_trans (ih h) (le_max_right ..)

/-- Minimum delta of a block. -/
def minBlock : List Int → Int
  | [] => 0
  | x :: xs => xs.foldr min x

theorem foldr_min_le_init (xs : List Int) (init : Int) :
    xs.foldr min init ≤ init := by
  induction xs with
  | nil => simp
  | cons y ys ih =>
    simp only [List.foldr_cons]
    exact le_trans (min_le_right ..) ih

theorem foldr_min_le_mem (xs : List Int) (init : Int) (d : Int) (h : d ∈ xs) :
    xs.foldr min init ≤ d := by
  induction xs with
  | nil => simp at h
  | cons y ys ih =>
    simp only [List.mem_cons] at h
    simp only [List.foldr_cons]
    rcases h with rfl | h
    · exact min_le_left ..
    · exact le_trans (min_le_right ..) (ih h)

theorem minBlock_le (b : List Int) (d : Int) (h : d ∈ b) : minBlock b ≤ d := by
  cases b with
  | nil => simp at h
  | cons x xs =>
    simp only [List.mem_cons] at h
    unfold minBlock
    rcases h with rfl | h
    · exact foldr_min_le_init xs d
    · exact foldr_min_le_mem xs x d h

/-- One encoded miniblock: 32 adjusted deltas bit-packed at the minimum
width for the largest among them. -/
def encMini (mb : List Nat) : List Nat := packBits (bitWidthOf (maxOf mb)) mb

/-- One encoded block: zig-zag min delta, four miniblock widths, then the
four bit-packed miniblocks (§4.1, block size 128, 4 miniblocks of 32). -/
def encBlock (ds : List Int) : List Nat :=
  let dsPad := ds ++ List.replicate (128 - ds.length) 0
  let m := minBlock dsPad
  let adj := dsPad.map (fun d => (d - m).toNat)
  uleb (zigzag m) ++
    ([bitWidthOf (maxOf (adj.take 32)), bitWidthOf (maxOf ((adj.drop 32).take 32)),
      bitWidthOf (maxOf (((adj.drop 32).drop 32).take 32)),
      bitWidthOf (maxOf (((adj.drop 32).drop 32).drop 32))] ++
    (encMini (adj.take 32) ++ (encMini ((adj.drop 32).take 32) ++
      (encMini (((adj.drop 32).drop 32).take 32) ++
        encMini (((adj.drop 32).drop 32).drop 32)))))

/-- Encode a delta stream block by block (final block zero-padded). -/
def encBlocks (ds : List Int) : List Nat :=
  if h : ds = [] then []
  else encBlock (ds.take 128) ++ encBlocks (ds.drop 128)
termination_by ds.length
decreasing_by
  simp only [List.length_drop]
  have : 0 < ds.length := List.length_pos.mpr h
  omega

/-- DELTA_BINARY_PACKED encoding (§4.1): header carries block size 128,
4 miniblocks per block, the total value count and the first value; blocks
carry min deltas and bit-packed non-negative adjusted deltas. -/
def encodeDelta (vs : List Int) : List Nat :=
  uleb 128 ++ uleb 4 ++ uleb vs.length ++
    (match vs with
     | [] => []
     | v0 :: rest => uleb (zigzag v0) ++ encBlocks (deltasOf v0 rest))

/-- Decode one 32-value miniblock at width `w`. -/
def decMini (w : Nat) (bytes : List Nat) : List Nat × List Nat :=
  (unpackBits w 32 (bytes.take (4 * w)), bytes.drop (4 * w))

/-- Decode one block: min delta, four widths, four miniblocks. -/
def decBlock (bytes : List Nat) : Option (List Int × List Nat) := do
  let (zz, bytes) ← dleb bytes
  match bytes with
  | w0 :: w1 :: w2 :: w3 :: bytes =>
    let (mb0, bytes) := decMini w0 bytes
    let (mb1, bytes) := decMini w1 bytes
    let (mb2, bytes) := decMini w2 bytes
    let (mb3, bytes) := decMini w3 bytes
    some ((mb0 ++ mb1 ++ mb2 ++ mb3).map (fun (n : Nat) => unzigzag zz + (n : Int)), bytes)
  | _ => none

/-- Decode `nb` blocks. -/
def decBlocks : Nat → List Nat → Option (List Int × List Nat)
  | 0, bytes => some ([], bytes)
  | nb + 1, bytes => do
    let (ds, bytes) ← decBlock bytes
    let (rest, bytes2) ← decBlocks nb bytes
    some (ds ++ rest, bytes2)

/-- Number of 128-value blocks needed for `n` deltas. -/
def numBlocks (n : Nat) : Nat := (n + 127) / 128

/-- DELTA_BINARY_PACKED decoding; the stream is self-delimiting, so the
unconsumed suffix is returned alongside the values. -/
def decodeDeltaR (bytes : List Nat) : Option (List Int × List Nat) := do
  let (bs, bytes) ← dleb bytes
  let (mbs, bytes) ← dleb bytes
  let (count, bytes) ← dleb bytes
  if bs = 128 ∧ mbs = 4 then
    if count = 0 then some ([], bytes)
    else do
      let (zz, bytes) ← dleb bytes
      let (ds, bytes) ← decBlocks (numBlocks (count - 1)) bytes
      some (unzigzag zz :: psums (unzigzag zz) (ds.take (count - 1)), bytes)
  else none

/-- DELTA_BINARY_PACKED decoding of a whole stream. -/
def decodeDelta (bytes : List Nat) : Option (List Int) :=
  (decodeDeltaR bytes).map (fun p => p.1)

theorem decMini_pack (mb : List Nat) (rest : List Nat) (h : mb.length = 32) :
    decMini (bitWidthOf (maxOf mb)) (encMini mb ++ rest) = (mb, rest) := by
  unfold decMini encMini
  have hlen : (packBits (bitWidthOf (maxOf mb)) mb).length
      = 4 * bitWidthOf (maxOf mb) := by
    rw [packBits_length, h]
    omega
  rw [List.take_left' hlen, List.drop_left' hlen]
  have : unpackBits (bitWidthOf (maxOf mb)) 32 (packBits (bitWidthOf (maxOf mb)) mb)
      = mb := by
    rw [show (32 : Nat) = mb.length from h.symm]
    exact unpack_pack _ mb (fun x hx => lt_pow_bitWidthOf x (maxOf mb) (le_maxOf mb x hx))
  rw [this]

theorem map_add_toNat_sub (m : Int) (l : List Int) (h : ∀ d ∈ l, m ≤ d) :
    (l.map (fun d => (d - m).toNat)).map (fun n => m + ((n : Nat) : Int)) = l := by
  induction l with
  | nil => rfl
  | cons d l ih =>
    simp only [List.map_cons, List.cons.injEq]
    refine ⟨?_, ih (fun x hx => h x (List.mem_cons_of_mem _ hx))⟩
    have := h d (List.mem_cons_self ..)
    omega

theorem decBlock_encBlock (ds : List Int) (rest : List Nat) (hlen : ds.length ≤ 128) :
    decBlock (encBlock ds ++ rest) =
      some (ds ++ List.replicate (128 - ds.length) 0, rest) := by
  unfold encBlock decBlock
  set dsPad := ds ++ List.replicate (128 - ds.length) 0 with hdsPad
  set m := minBlock dsPad with hm
  set adj := dsPad.map (fun d => (d - m).toNat) with hadj
  have hPadLen : dsPad.length = 128 := by
    rw [hdsPad]
    simp only [List.length_append, List.length_replicate]
    omega
  have hadjlen : adj.length = 128 := by rw [hadj]; simp [hPadLen]
  have hl0 : (adj.take 32).length = 32 := by simp [hadjlen]
  have hl1 : ((adj.drop 32).take 32).length = 32 := by simp [hadjlen]
  have hl2 : (((adj.drop 32).drop 32).take 32).length = 32 := by simp [hadjlen]
  have hl3 : (((adj.drop 32).drop 32).drop 32).length = 32 := by simp [hadjlen]
  rw [List.append_assoc]
  rw [dleb_uleb]
  simp only [Option.bind_eq_bind, Option.some_bind, List.cons_append, List.nil_append]
  rw [show encMini (adj.take 32) ++ (encMini ((adj.drop 32).take 32) ++
      (encMini (((adj.drop 32).drop 32).take 32) ++
        encMini (((adj.drop 32).drop 32).drop 32))) ++ rest =
      encMini (adj.take 32) ++ (encMini ((adj.drop 32).take 32) ++
      (encMini (((adj.drop 32).drop 32).take 32) ++
        (encMini (((adj.drop 32).drop 32).drop 32) ++ rest))) from by
    simp only [List.append_assoc]]
  rw [decMini_pack _ _ hl0, decMini_pack _ _ hl1, decMini_pack _ _ hl2,
    decMini_pack _ _ hl3]
  simp only [Option.some_inj, Prod.mk.injEq]
  refine ⟨?_, by simp⟩
  have hre : adj.take 32 ++ (adj.drop 32).take 32 ++ ((adj.drop 32).drop 32).take 32
      ++ ((adj.drop 32).drop 32).drop 32 = adj := by
    rw [List.append_assoc, List.append_assoc, List.take_append_drop,
      List.take_append_drop, List.take_append_drop]
  rw [hre, unzigzag_zigzag, hadj]
  exact map_add_toNat_sub m dsPad (fun d hd => minBlock_le dsPad d hd)

theorem deltasOf_length (prev : Int) (vs : List Int) :
    (deltasOf prev vs).length = vs.length := by
  induction vs generalizing prev with
  | nil => rfl
  | cons v vs ih => simp [deltasOf, ih]

theorem decBlocks_encBlocks_aux (fuel : Nat) : ∀ ds : List Int, ds.length ≤ fuel →
    ∀ rest : List Nat, ∃ junk : List Int,
      decBlocks (numBlocks ds.length) (encBlocks ds ++ rest) = some (ds ++ junk, rest) := by
  induction fuel with
  | zero =>
    intro ds hl rest
    have : ds = [] := List.eq_nil_of_length_eq_zero (by omega)
    subst this
    refine ⟨[], ?_⟩
    rw [encBlocks]
    simp [numBlocks, decBlocks]
  | succ fuel ih =>
    intro ds hl rest
    by_cases hb : ds = []
    · subst hb
      refine ⟨[], ?_⟩
      rw [encBlocks]
      simp [numBlocks, decBlocks]
    · have hpos : 0 < ds.length := List.length_pos.mpr hb
      obtain ⟨junk2, hj⟩ := ih (ds.drop 128)
        (by simp only [List.length_drop]; omega) rest
      have hnum : numBlocks ds.length = numBlocks (ds.drop 128).length + 1 := by
        simp only [numBlocks, List.length_drop]
        omega
      rw [encBlocks, dif_neg hb, hnum]
      simp only [decBlocks, List.append_assoc]
      rw [decBlock_encBlock (ds.take 128) _ (by simp)]
      simp only [Option.bind_eq_bind, Option.some_bind]
      rw [hj]
      simp only [Option.some_bind, Option.some_inj]
      by_cases h128 : ds.length ≤ 128
      · refine ⟨List.replicate (128 - (ds.take 128).length) 0 ++ junk2, ?_⟩
        rw [List.drop_eq_nil_of_le h128, List.take_of_length_le h128]
        simp [List.append_assoc]
      · refine ⟨junk2, ?_⟩
        have : (ds.take 128).length = 128 := by simp; omega
        rw [this]
        simp only [Nat.sub_self, List.replicate_zero, List.append_nil, Prod.mk.injEq]
        rw [← List.append_assoc, List.take_append_drop]
        simp

theorem decodeDeltaR_encodeDelta (vs : List Int) (rest : List Nat) :
    decodeDeltaR (encodeDelta vs ++ rest) = some (vs, rest) := by
  unfold encodeDelta decodeDeltaR
  cases vs with
  | nil =>
    simp only [List.append_assoc, List.nil_append]
    rw [dleb_uleb]
    simp only [Option.bind_eq_bind, Option.some_bind]
    rw [dleb_uleb]
    simp only [Option.some_bind]
    rw [dleb_uleb]
    simp only [Option.some_bind, List.length_nil]
    simp
  | cons v0 vr =>
    obtain ⟨junk, hj⟩ := decBlocks_encBlocks_aux (deltasOf v0 vr).length
      (deltasOf v0 vr) (le_refl _) rest
    simp only [List.append_assoc]
    rw [dleb_uleb]
    simp only [Option.bind_eq_bind, Option.some_bind]
    rw [dleb_uleb]
    simp only [Option.some_bind]
    rw [dleb_uleb]
    simp only [Option.some_bind, List.length_cons]
    rw [if_pos (by simp), if_neg (by omega)]
    rw [dleb_uleb]
    simp only [Option.some_bind, Nat.add_sub_cancel]
    rw [show numBlocks vr.length = numBlocks (deltasOf v0 vr).length from by
      rw [deltasOf_length]]
    rw [hj]
    simp only [Option.some_bind, Option.some_inj, Prod.mk.injEq]
    refine ⟨?_, trivial⟩
    rw [List.take_left' (deltasOf_length v0 vr), unzigzag_zigzag, psums_deltasOf]

/-- DELTA_BINARY_PACKED round trip for a whole stream. -/
theorem decodeDelta_encodeDelta (vs : List Int) :
    decodeDelta (encodeDelta vs) = some vs := by
  unfold decodeDelta
  rw [← List.append_nil (encodeDelta vs), decodeDeltaR_encodeDelta]
  rfl

/-- DELTA_LENGTH_BYTE_ARRAY (§4.1): all lengths up front via
DELTA_BINARY_PACKED, then concatenated raw contents with no per-value
prefixes. -/
def encodeDLBA (xs : List (List Nat)) : List Nat :=
  encodeDelta (xs.map (fun (b : List Nat) => (b.length : Int))) ++ xs.flatten

/-- Split a concatenated content stream back into slices of the given
lengths. -/
def splitByLens : List Int → List Nat → List (List Nat)
  | [], _ => []
  | len :: lens, bytes => bytes.take len.toNat :: splitByLens lens (bytes.drop len.toNat)

/-- DELTA_LENGTH_BYTE_ARRAY decoding. -/
def decodeDLBA (bytes : List Nat) : Option (List (List Nat)) := do
  let (lens, bytes) ← decodeDeltaR bytes
  some (splitByLens lens bytes)

theorem splitByLens_flatten (xs : List (List Nat)) :
    splitByLens (xs.map (fun (b : List Nat) => (b.length : Int))) xs.flatten = xs := by
  induction xs with
  | nil => rfl
  | cons b xs ih =>
    simp only [List.map_cons, List.flatten_cons, splitByLens, Int.toNat_natCast,
      List.cons.injEq]
    exact ⟨List.take_left' rfl, by rw [List.drop_left' rfl]; exact ih⟩

/-- DELTA_LENGTH_BYTE_ARRAY round trip. -/
theorem decodeDLBA_encodeDLBA (xs : List (List Nat)) :
    decodeDLBA (encodeDLBA xs) = some xs := by
  unfold decodeDLBA encodeDLBA
  rw [decodeDeltaR_encodeDelta]
  simp only [Option.bind_eq_bind, Option.some_bind, Option.some_inj]
  exact splitByLens_flatten xs

/-- Length of the shared leading run of two byte strings. -/
def commonPfxLen : List Nat → List Nat → Nat
  | a :: as, b :: bs => if a = b then 1 + commonPfxLen as bs else 0
  | _, _ => 0

/-- Per-value shared-run lengths against the running predecessor (the first
value has no predecessor and an empty shared run). -/
def dbaPfx : List Nat → List (List Nat) → List Int
  | _, [] => []
  | prev, b :: bs => ((commonPfxLen prev b : Nat) : Int) :: dbaPfx b bs

/-- Per-value suffixes after the shared run with the running predecessor. -/
def dbaSuffix : List Nat → List (List Nat) → List (List Nat)
  | _, [] => []
  | prev, b :: bs => b.drop (commonPfxLen prev b) :: dbaSuffix b bs

/-- DELTA_BYTE_ARRAY (§4.1): shared-run lengths via DELTA_BINARY_PACKED,
then suffix lengths via DELTA_BINARY_PACKED, then concatenated suffixes. -/
def encodeDBA (xs : List (List Nat)) : List Nat :=
  encodeDelta (dbaPfx [] xs) ++
    (encodeDelta ((dbaSuffix [] xs).map (fun (s : List Nat) => (s.length : Int))) ++
      (dbaSuffix [] xs).flatten)

/-- Rebuild values from shared-run lengths and suffixes. -/
def dbaRebuild : List Nat → List Int → List (List Nat) → List (List Nat)
  | _, [], _ => []
  | _, _ :: _, [] => []
  | prev, p :: ps, s :: ss =>
    (prev.take p.toNat ++ s) :: dbaRebuild (prev.take p.toNat ++ s) ps ss

/-- DELTA_BYTE_ARRAY decoding. -/
def decodeDBA (bytes : List Nat) : Option (List (List Nat)) := do
  let (plens, bytes) ← decodeDeltaR bytes
  let (slens, bytes) ← decodeDeltaR bytes
  some (dbaRebuild [] plens (splitByLens slens bytes))

theorem commonPfxLen_take (prev b : List Nat) :
    prev.take (commonPfxLen prev b) = b.take (commonPfxLen prev b) := by
  induction prev generalizing b with
  | nil => cases b <;> rfl
  | cons a as ih =>
    cases b with
    | nil => rfl
    | cons x xs =>
      by_cases h : a = x
      · subst h
        rw [show commonPfxLen (a :: as) (a :: xs) = commonPfxLen as xs + 1 from by
          rw [commonPfxLen, if_pos rfl]; omega]
        simp only [List.take_succ_cons, List.cons.injEq]
        exact ⟨trivial, ih xs⟩
      · simp [commonPfxLen, h]

theorem dbaRebuild_inverse (xs : List (List Nat)) : ∀ prev : List Nat,
    dbaRebuild prev (dbaPfx prev xs) (dbaSuffix prev xs) = xs := by
  induction xs with
  | nil => intro prev; rfl
  | cons b xs ih =>
    intro prev
    simp only [dbaPfx, dbaSuffix, dbaRebuild, Int.toNat_natCast]
    have hcur : prev.take (commonPfxLen prev b) ++ b.drop (commonPfxLen prev b) = b := by
      rw [commonPfxLen_take]
      exact List.take_append_drop ..
    rw [hcur, ih b]

/-- DELTA_BYTE_ARRAY round trip. -/
theorem decodeDBA_encodeDBA (xs : List (List Nat)) :
    decodeDBA (encodeDBA xs) = some xs := by
  unfold decodeDBA encodeDBA
  rw [decodeDeltaR_encodeDelta]
  simp only [Option.bind_eq_bind, Option.some_bind]
  rw [decodeDeltaR_encodeDelta]
  simp only [Option.some_bind, Option.some_inj]
  rw [splitByLens_flatten]
  exact dbaRebuild_inverse xs []

instance : Inhabited LeafVal := ⟨.intV 0⟩

/-- C2: every supported encoding round-trips on every physical type it
applies to, for every value sequence: PLAIN on int32/int64 words within
their two's-complement range, PLAIN on raw 4- and 8-byte words (the bit
patterns of float and double), PLAIN on packed booleans and length-prefixed
byte arrays, dictionary encoding on any value list, DELTA_BINARY_PACKED on
any integer list, and DELTA_LENGTH_BYTE_ARRAY / DELTA_BYTE_ARRAY on any
byte-array list — in particular at lengths 0, 1, 32, 128 and 200. -/
theorem C2_encoding_roundTrips :
    (∀ xs : List Int, (∀ x ∈ xs, -((2 ^ 31 : Nat) : Int) ≤ x ∧
        x < ((2 ^ 31 : Nat) : Int)) →
      decodePlainInt 4 xs.length (encodePlainInt 4 xs) = xs) ∧
    (∀ xs : List Int, (∀ x ∈ xs, -((2 ^ 63 : Nat) : Int) ≤ x ∧
        x < ((2 ^ 63 : Nat) : Int)) →
      decodePlainInt 8 xs.length (encodePlainInt 8 xs) = xs) ∧
    (∀ xs : List Nat, (∀ x ∈ xs, x < 2 ^ 32) →
      decodePlainFixed 4 xs.length (encodePlainFixed 4 xs) = xs) ∧
    (∀ xs : List Nat, (∀ x ∈ xs, x < 2 ^ 64) →
      decodePlainFixed 8 xs.length (encodePlainFixed 8 xs) = xs) ∧
    (∀ xs : List Bool, decodePlainBool xs.length (encodePlainBool xs) = xs) ∧
    (∀ xs : List (List Nat), (∀ b ∈ xs, b.length < 2 ^ 32) →
      decodePlainBA xs.length (encodePlainBA xs) = xs) ∧
    (∀ vals : List LeafVal,
      decodeDictionary (encodeDictionary vals).1 vals.length
        (encodeDictionary vals).2 = vals) ∧
    (∀ vs : List Int, decodeDelta (encodeDelta vs) = some vs) ∧
    (∀ xs : List (List Nat), decodeDLBA (encodeDLBA xs) = some xs) ∧
    (∀ xs : List (List Nat), decodeDBA (encodeDBA xs) = some xs) := by
  refine ⟨?_, ?_, ?_, ?_, ?_, ?_, ?_, ?_, ?_, ?_⟩
  · intro xs h
    refine decodePlainInt_encode 4 xs (by norm_num) ?_
    intro x hx
    have := h x hx
    norm_num at this ⊢
    exact this
  · intro xs h
    refine decodePlainInt_encode 8 xs (by norm_num) ?_
    intro x hx
    have := h x hx
    norm_num at this ⊢
    exact this
  · intro xs h
    have := decodePlainFixed_encode 4 xs [] (by intro x hx; have := h x hx; norm_num at this ⊢; exact this)
    rwa [List.append_nil] at this
  · intro xs h
    have := decodePlainFixed_encode 8 xs [] (by intro x hx; have := h x hx; norm_num at this ⊢; exact this)
    rwa [List.append_nil] at this
  · exact decodePlainBool_encode
  · intro xs h
    have := decodePlainBA_encode xs [] h
    rwa [List.append_nil] at this
  · exact decodeDictionary_encode
  · exact decodeDelta_encodeDelta
  · exact decodeDLBA_encodeDLBA
  · exact decodeDBA_encodeDBA

/-- Witness for C2: concrete round trips through each conjunct that carries
a hypothesis, plus one delta instance. -/
theorem C2_encoding_roundTrips_witness :
    decodePlainInt 4 ([(5 : Int), -3]).length (encodePlainInt 4 [(5 : Int), -3])
        = [(5 : Int), -3] ∧
    decodePlainInt 8 ([(7 : Int), -9]).length (encodePlainInt 8 [(7 : Int), -9])
        = [(7 : Int), -9] ∧
    decodePlainFixed 4 ([(1 : Nat), 65536]).length (encodePlainFixed 4 [(1 : Nat), 65536])
        = [(1 : Nat), 65536] ∧
    decodePlainFixed 8 ([(12 : Nat)]).length (encodePlainFixed 8 [(12 : Nat)])
        = [(12 : Nat)] ∧
    decodePlainBA ([[(1 : Nat), 2], []]).length (encodePlainBA [[(1 : Nat), 2], []])
        = [[(1 : Nat), 2], []] ∧
    decodeDelta (encodeDelta [(3 : Int), 1, 2]) = some [(3 : Int), 1, 2] :=
  ⟨C2_encoding_roundTrips.1 [(5 : Int), -3] (by decide),
   C2_encoding_roundTrips.2.1 [(7 : Int), -9] (by decide),
   C2_encoding_roundTrips.2.2.1 [(1 : Nat), 65536] (by decide),
   C2_encoding_roundTrips.2.2.2.1 [(12 : Nat)] (by decide),
   C2_encoding_roundTrips.2.2.2.2.2.1 [[(1 : Nat), 2], []] (by decide),
   C2_encoding_roundTrips.2.2.2.2.2.2.2.1 [(3 : Int), 1, 2]⟩

/-- C3: the dictionary index stream is bit-packed at width
ceil(log2(dictionary size)) with a minimum of 1; a dictionary of exactly 1
distinct value uses width 1, one of 256 distinct values uses width 8, and
every dictionary's size fits in its width. -/
theorem C3_dictionary_bit_width :
    (∀ vals : List LeafVal, (encodeDictionary vals).2 =
      packBits (max 1 (Nat.clog 2 (dictOf vals).length))
        (vals.map (fun v => (dictOf vals).indexOf v))) ∧
    dictBitWidth 1 = 1 ∧ dictBitWidth 256 = 8 ∧
    (∀ vals : List LeafVal, (dictOf vals).length = 1 →
      dictBitWidth (dictOf vals).length = 1) ∧
    (∀ vals : List LeafVal, (dictOf vals).length = 256 →
      dictBitWidth (dictOf vals).length = 8) ∧
    (∀ n : Nat, n ≤ 2 ^ dictBitWidth n) := by
  have h256 : Nat.clog 2 256 = 8 := by
    rw [show (256 : Nat) = 2 ^ 8 from by norm_num, Nat.clog_pow 2 8 (by norm_num)]
  have hw1 : dictBitWidth 1 = 1 := by
    unfold dictBitWidth
    rw [Nat.clog_one_right]
    omega
  have hw256 : dictBitWidth 256 = 8 := by
    unfold dictBitWidth
    rw [h256]
    omega
  refine ⟨fun vals => rfl, hw1, hw256, ?_, ?_, dictSize_le_pow⟩
  · intro vals h
    rw [h, hw1]
  · intro vals h
    rw [h, hw256]

/-- Witness for C3: the script's dictionary fixture column
['A','B','A','C','B'] has 3 distinct values, and a single-value column uses
width 1. -/
theorem C3_dictionary_bit_width_witness :
    (dictOf [LeafVal.strV "A", .strV "A", .strV "A"]).length = 1 ∧
    dictBitWidth (dictOf [LeafVal.strV "A", .strV "A", .strV "A"]).length = 1 :=
  ⟨by decide, C3_dictionary_bit_width.2.2.2.1 [LeafVal.strV "A", .strV "A", .strV "A"]
    (by decide)⟩

/-! ### Error model, unsigned range checks, footer validation, statistics. -/

/-- The spec's error taxonomy (§7), restricted to the cases the claims
exercise. -/
inductive CoreError where
  | MalformedEncoding
  | SchemaMismatch
  | ValueOutOfRange
  | UnsupportedLogicalType
  | UnknownCodec
  | CorruptFooter
deriving DecidableEq, Repr

/-- The unsigned integer logical widths (§4.4). -/
inductive UWidth where
  | u8
  | u16
  | u32
  | u64
deriving DecidableEq, Repr

/-- Physical backing width in bits: UInt8/16/32 are backed by int32, UInt64
by int64 (§4.4). -/
def backingBits : UWidth → Nat
  | .u8 => 32
  | .u16 => 32
  | .u32 => 32
  | .u64 => 64

/-- Largest value representable in the signed backing width. -/
def signedMax (w : UWidth) : Nat := 2 ^ (backingBits w - 1) - 1

/-- Modelled from the spec: encoding an unsigned logical value (§4.4, §7);
values exceeding the signed range of the backing physical width fail with
ValueOutOfRange, synchronously in the result of the encode call itself. -/
def encodeUnsigned (w : UWidth) (v : Nat) : Except CoreError Int :=
  if v ≤ signedMax w then .ok ((v : Nat) : Int) else .error .ValueOutOfRange

/-- Modelled from the spec: a writer session accumulating encoded values;
appending runs the encode-time range check, closing merely serializes what
was accepted and cannot raise ValueOutOfRange (§7: errors surface at the
triggering call, not at close). -/
def uwriterAppend (w : UWidth) (pending : List Int) (v : Nat) :
    Except CoreError (List Int) :=
  (encodeUnsigned w v).map (fun i => pending ++ [i])

/-- Closing the modelled writer serializes the accepted values; it is a
total function, so no range error can be deferred to close time. -/
def uwriterClose (pending : List Int) : List Nat := encodePlainInt 8 pending

/-- C6: for every unsigned logical width, encode fails with ValueOutOfRange
exactly when the value exceeds the signed range of the backing physical
width (2^31 - 1 for the int32-backed widths, 2^63 - 1 for UInt64); values
within the range encode successfully, and the error surfaces in the encode
call itself — the appended state never holds a rejected value and close is
total. -/
theorem C6_unsigned_range_check :
    (∀ (w : UWidth) (v : Nat),
      encodeUnsigned w v = .error .ValueOutOfRange ↔ signedMax w < v) ∧
    (∀ (w : UWidth) (v : Nat), v ≤ signedMax w →
      encodeUnsigned w v = .ok ((v : Nat) : Int)) ∧
    (∀ (w : UWidth) (pending : List Int) (v : Nat), signedMax w < v →
      uwriterAppend w pending v = .error .ValueOutOfRange) ∧
    signedMax .u8 = 2 ^ 31 - 1 ∧ signedMax .u32 = 2 ^ 31 - 1 ∧
    signedMax .u64 = 2 ^ 63 - 1 := by
  refine ⟨?_, ?_, ?_, rfl, rfl, rfl⟩
  · intro w v
    unfold encodeUnsigned
    constructor
    · intro h
      by_contra hc
      rw [if_pos (by omega)] at h
      exact Except.noConfusion h
    · intro h
      rw [if_neg (by omega)]
  · intro w v h
    unfold encodeUnsigned
    rw [if_pos h]
  · intro w pending v h
    unfold uwriterAppend encodeUnsigned
    rw [if_neg (by omega)]
    rfl

/-- Witness for C6: 2^31 overflows UInt32's int32 backing while 2^31 - 1
encodes, and appending the overflow fails at the append call. -/
theorem C6_unsigned_range_check_witness :
    encodeUnsigned .u32 (2 ^ 31) = .error .ValueOutOfRange ∧
    encodeUnsigned .u32 (2 ^ 31 - 1) = .ok (((2 ^ 31 - 1 : Nat) : Nat) : Int) ∧
    uwriterAppend .u32 [] (2 ^ 31) = .error .ValueOutOfRange :=
  ⟨(C6_unsigned_range_check.1 .u32 (2 ^ 31)).mpr (by norm_num [signedMax, backingBits]),
   C6_unsigned_range_check.2.1 .u32 (2 ^ 31 - 1) (by norm_num [signedMax, backingBits]),
   C6_unsigned_range_check.2.2.1 .u32 [] (2 ^ 31)
     (by norm_num [signedMax, backingBits])⟩

/-- The 4-byte magic at both ends of a file (§6). -/
def MAGIC : List Nat := [80, 65, 82, 49]

/-- The last `n` bytes of a stream. -/
def lastN (n : Nat) (l : List Nat) : List Nat := (l.reverse.take n).reverse

/-- Modelled from the spec: open-for-read footer validation (§4.5, §6).
Checks the leading magic, the trailing magic, and that the declared footer
length addresses a region inside the file; on success returns the footer
region, otherwise fails with CorruptFooter — never a silent empty result. -/
def openFile (b : List Nat) : Except CoreError (List Nat) :=
  if b.length < 12 then .error .CorruptFooter
  else if b.take 4 ≠ MAGIC then .error .CorruptFooter
  else if lastN 4 b ≠ MAGIC then .error .CorruptFooter
  else
    let flen := bytesToNatLE ((lastN 8 b).take 4)
    if 4 + flen + 8 ≤ b.length then .ok ((b.drop (b.length - 8 - flen)).take flen)
    else .error .CorruptFooter

/-- A structurally well-formed file byte source (§6 trailer layout). -/
def wellFormedFile (b : List Nat) : Prop :=
  12 ≤ b.length ∧ b.take 4 = MAGIC ∧ lastN 4 b = MAGIC ∧
    4 + bytesToNatLE ((lastN 8 b).take 4) + 8 ≤ b.length

instance (b : List Nat) : Decidable (wellFormedFile b) := by
  unfold wellFormedFile
  infer_instance

/-- C7: truncating the last byte of any well-formed file makes open-for-read
fail with CorruptFooter — the trailing 4-byte magic no longer validates — and
the reader never returns a silent success for such an input. -/
theorem C7_truncated_footer_rejected (b : List Nat) (h : wellFormedFile b) :
    openFile b.dropLast = .error .CorruptFooter ∧
      ∀ fb : List Nat, openFile b.dropLast ≠ .ok fb := by
  obtain ⟨hlen, _, hmag, _⟩ := h
  have hr : b.reverse.take 4 = [49, 82, 65, 80] := by
    have hc := congrArg List.reverse hmag
    simpa [lastN, MAGIC] using hc
  have hsplit : b.reverse = [49, 82, 65, 80] ++ b.reverse.drop 4 := by
    conv_lhs => rw [← List.take_append_drop 4 b.reverse, hr]
  have hd : b.dropLast.reverse = [82, 65, 80] ++ b.reverse.drop 4 := by
    rw [← List.tail_reverse, hsplit]
    rfl
  have hmain : openFile b.dropLast = .error .CorruptFooter := by
    by_cases hl : b.dropLast.length < 12
    · unfold openFile
      rw [if_pos hl]
    · have hbl : 13 ≤ b.length := by
        have hdl := List.length_dropLast b
        omega
      have hdrop : 0 < (b.reverse.drop 4).length := by
        simp only [List.length_drop, List.length_reverse]
        omega
      cases hcons : b.reverse.drop 4 with
      | nil => rw [hcons] at hdrop; simp at hdrop
      | cons r0 rest =>
        have hlast : lastN 4 b.dropLast = [r0, 80, 65, 82] := by
          rw [lastN, hd, hcons]
          rfl
        have hne : lastN 4 b.dropLast ≠ MAGIC := by
          rw [hlast]
          simp [MAGIC]
        unfold openFile
        rw [if_neg hl]
        by_cases ht : b.dropLast.take 4 ≠ MAGIC
        · rw [if_pos ht]
        · rw [if_neg ht, if_pos hne]
  refine ⟨hmain, fun fb hfb => ?_⟩
  rw [hmain] at hfb
  exact Except.noConfusion hfb

/-- Witness for C7: the minimal 12-byte file (magic, zero-length footer,
footer-length word 0, magic) is well formed, and dropping its final byte is
rejected with CorruptFooter. -/
theorem C7_truncated_footer_rejected_witness :
    wellFormedFile (MAGIC ++ [0, 0, 0, 0] ++ MAGIC) ∧
      openFile (MAGIC ++ [0, 0, 0, 0] ++ MAGIC).dropLast =
        .error .CorruptFooter :=
  ⟨by decide, (C7_truncated_footer_rejected (MAGIC ++ [0, 0, 0, 0] ++ MAGIC)
    (by decide)).1⟩

/-- Running statistics of a column chunk: min and max over the non-null
values seen so far, and the null count (§4.3). -/
structure ChunkStats where
  minV : Option Int
  maxV : Option Int
  nullCount : Nat
deriving DecidableEq, Repr

def emptyStats : ChunkStats := ⟨none, none, 0⟩

/-- Modelled from the spec: appending one value to a chunk's running
statistics (§4.3) — a null only bumps the null count; a present value is
merged into the running min and max. -/
def statsAppend (st : ChunkStats) (v : Option Int) : ChunkStats :=
  match v with
  | none => ChunkStats.mk st.minV st.maxV (st.nullCount + 1)
  | some x =>
      ChunkStats.mk (some (st.minV.elim x (fun m => min m x)))
        (some (st.maxV.elim x (fun m => max m x))) st.nullCount

/-- Statistics recorded for a whole chunk of appended values. -/
def statsOf (vs : List (Option Int)) : ChunkStats := vs.foldl statsAppend emptyStats

/-- Merge an optional running minimum with an optional minimum. -/
def mergeMin (o p : Option Int) : Option Int :=
  match o, p with
  | none, p => p
  | o, none => o
  | some a, some b => some (min a b)

/-- Merge an optional running maximum with an optional maximum. -/
def mergeMax (o p : Option Int) : Option Int :=
  match o, p with
  | none, p => p
  | o, none => o
  | some a, some b => some (max a b)

theorem statsAppend_foldl (vs : List (Option Int)) : ∀ st : ChunkStats,
    vs.foldl statsAppend st =
      ChunkStats.mk (mergeMin st.minV (vs.filterMap id).min?)
        (mergeMax st.maxV (vs.filterMap id).max?)
        (st.nullCount + vs.countP (fun v => v.isNone)) := by
  induction vs with
  | nil =>
    intro st
    simp only [List.foldl_nil, List.filterMap_nil, List.min?_nil, List.max?_nil,
      List.countP_nil, Nat.add_zero]
    cases st with
    | mk mn mx nc => cases mn <;> cases mx <;> simp [mergeMin, mergeMax]
  | cons v vs ih =>
    intro st
    rw [List.foldl_cons, ih]
    cases v with
    | none =>
      simp only [statsAppend, List.filterMap_cons_none, List.countP_cons,
        Option.isNone_none]
      refine congrArg _ ?_
      simp only [eq_self_iff_true, if_pos trivial]
      omega
    | some x =>
      have hfm : (some x :: vs).filterMap id = x :: vs.filterMap id := by
        simp
      rw [hfm, List.min?_cons, List.max?_cons]
      simp only [statsAppend, List.countP_cons, Option.isNone_some]
      rw [if_neg (by simp)]
      have hmn : mergeMin (some (st.minV.elim x (fun m => min m x)))
          (vs.filterMap id).min?
            = mergeMin st.minV (some ((vs.filterMap id).min?.elim x (min x))) := by
        cases st.minV with
        | none =>
          cases (vs.filterMap id).min? with
          | none => rfl
          | some n => rfl
        | some m =>
          cases (vs.filterMap id).min? with
          | none => rfl
          | some n =>
            simp only [mergeMin, Option.elim]
            rw [min_assoc]
      have hmx : mergeMax (some (st.maxV.elim x (fun m => max m x)))
          (vs.filterMap id).max?
            = mergeMax st.maxV (some ((vs.filterMap id).max?.elim x (max x))) := by
        cases st.maxV with
        | none =>
          cases (vs.filterMap id).max? with
          | none => rfl
          | some n => rfl
        | some m =>
          cases (vs.filterMap id).max? with
          | none => rfl
          | some n =>
            simp only [mergeMax, Option.elim]
            rw [max_assoc]
      rw [hmn, hmx]
      refine congrArg _ ?_
      omega

/-- C8: for every column chunk, the recorded statistics are exactly the
minimum and maximum of the non-null values appended and the count of nulls;
in particular the chunk [5, 1, null, 3] records min 1, max 5 and null
count 1. -/
theorem C8_chunk_statistics :
    (∀ vs : List (Option Int),
      (statsOf vs).minV = (vs.filterMap id).min? ∧
      (statsOf vs).maxV = (vs.filterMap id).max? ∧
      (statsOf vs).nullCount = vs.countP (fun v => v.isNone)) ∧
    statsOf [some 5, some 1, none, some 3] = ChunkStats.mk (some 1) (some 5) 1 := by
  constructor
  · intro vs
    rw [statsOf, statsAppend_foldl]
    refine ⟨?_, ?_, ?_⟩
    · cases (vs.filterMap id).min? <;> rfl
    · cases (vs.filterMap id).max? <;> rfl
    · simp [emptyStats]
  · decide

/-! ### Transcription of the fixture-generation script (src/simple-datagen.py). -/

/-- A Python literal value as it appears in the script's table data: null,
int, string, bool, bytes, an exact decimal/float literal (mantissa and
decimal scale), a date, a datetime (with microseconds), a time, a UUID's 16
bytes, a list, a struct dict, or a map entry tuple. -/
inductive PyVal where
  | none_
  | intL (n : Int)
  | strL (s : String)
  | boolL (b : Bool)
  | bytesL (bs : List Nat)
  | decL (mant : Int) (scale : Nat)
  | dateL (y m d : Nat)
  | dtL (y mo d h mi s us : Nat)
  | timeL (h mi s us : Nat)
  | uuidL (bs : List Nat)
  | listL (xs : List PyVal)
  | dictL (fs : List (String × PyVal))
  | entL (k v : PyVal)

open PyVal

/-- A table as a list of named columns, each a list of cell values. -/
abbrev PyTable : Type := List (String × List PyVal)

/-- Field lookup in one pylist row; a missing key reads as null, as in
pyarrow's from_pylist. -/
def lookupF (f : String) (r : List (String × PyVal)) : PyVal :=
  match r.find? (fun p => p.1 == f) with
  | some p => p.2
  | none => PyVal.none_

/-- pyarrow Table.from_pylist: one column per schema field, one cell per
row, in row order. -/
def fromPylist (fields : List String) (rows : List (List (String × PyVal))) :
    PyTable :=
  fields.map (fun f => (f, rows.map (fun r => lookupF f r)))

/-- simple_table (src lines 21-24). -/
def simple_table : PyTable :=
  [("id", [intL 1, intL 2, intL 3]),
   ("value", [intL 100, intL 200, intL 300])]

/-- table_with_nulls (src lines 42-45). -/
def table_with_nulls : PyTable :=
  [("id", [intL 1, intL 2, intL 3]),
   ("name", [strL "alice", none_, strL "charlie"])]

/-- table_dict (src lines 72-75). -/
def table_dict : PyTable :=
  [("id", [intL 1, intL 2, intL 3, intL 4, intL 5]),
   ("category", [strL "A", strL "B", strL "A", strL "C", strL "B"])]

/-- logical_types_data (src lines 111-172). -/
def logical_types_data : PyTable :=
  [("id", [intL 1, intL 2, intL 3]),
   ("name", [strL "Alice", strL "Bob", strL "Charlie"]),
   ("birth_date", [dateL 1990 1 15, dateL 1985 6 30, dateL 2000 12 25]),
   ("created_at_millis",
     [dtL 2025 1 1 10 30 0 0, dtL 2025 1 2 14 45 30 0, dtL 2025 1 3 9 15 45 0]),
   ("created_at_micros",
     [dtL 2025 1 1 10 30 0 123456, dtL 2025 1 2 14 45 30 654321,
      dtL 2025 1 3 9 15 45 111222]),
   ("created_at_nanos",
     [intL 1735727400123456789, intL 1735829130654321987,
      intL 1735895745111222333]),
   ("wake_time_millis", [timeL 7 30 0 0, timeL 8 0 0 0, timeL 6 45 0 0]),
   ("wake_time_micros",
     [timeL 7 30 0 123456, timeL 8 0 0 654321, timeL 6 45 0 111222]),
   ("wake_time_nanos",
     [intL 27000123456789, intL 28800654321987, intL 24300111222333]),
   ("balance", [decL 123456 2, decL 987654 2, decL 555555 2]),
   ("tiny_int", [intL 10, intL 20, intL 30]),
   ("small_int", [intL 1000, intL 2000, intL 3000]),
   ("medium_int", [intL 100000, intL 200000, intL 300000]),
   ("big_int", [intL 10000000000, intL 20000000000, intL 30000000000]),
   ("tiny_uint", [intL 255, intL 128, intL 64]),
   ("small_uint", [intL 65535, intL 32768, intL 16384]),
   ("medium_uint", [intL 2147483647, intL 1000000, intL 500000]),
   ("big_uint",
     [intL 9223372036854775807, intL 5000000000000000000,
      intL 4611686018427387904]),
   ("account_id",
     [uuidL [18, 52, 86, 120, 18, 52, 86, 120, 18, 52, 86, 120, 18, 52, 86, 120],
      uuidL [135, 101, 67, 33, 67, 33, 135, 101, 67, 33, 135, 101, 67, 33, 135, 101],
      uuidL [170, 170, 170, 170, 187, 187, 204, 204, 221, 221, 238, 238, 238,
        238, 238, 238]])]

def logical_types_table : PyTable := logical_types_data

/-- nested_struct_data (src lines 203-210). -/
def nested_struct_data : PyTable :=
  [("id", [intL 1, intL 2, intL 3]),
   ("address",
     [dictL [("street", strL "123 Main St"), ("city", strL "New York"),
        ("zip", intL 10001)],
      dictL [("street", strL "456 Oak Ave"), ("city", strL "Los Angeles"),
        ("zip", intL 90001)],
      none_])]

def nested_struct_table : PyTable := nested_struct_data

/-- list_basic_data (src lines 231-245). -/
def list_basic_data : PyTable :=
  [("id", [intL 1, intL 2, intL 3, intL 4]),
   ("tags",
     [listL [strL "a", strL "b", strL "c"], listL [], none_,
      listL [strL "single"]]),
   ("scores",
     [listL [intL 10, intL 20, intL 30], listL [intL 100],
      listL [intL 1, intL 2], none_])]

def list_basic_table : PyTable := list_basic_data

/-- list_struct_data (src lines 268-280). -/
def list_struct_data : PyTable :=
  [("id", [intL 1, intL 2, intL 3]),
   ("items",
     [listL [dictL [("name", strL "apple"), ("quantity", intL 5)],
        dictL [("name", strL "banana"), ("quantity", intL 10)]],
      listL [dictL [("name", strL "orange"), ("quantity", intL 3)]],
      listL []])]

def list_struct_table : PyTable := list_struct_data

/-- nested_list_struct_data (src lines 311-348), row-oriented. -/
def nested_list_struct_data : List (List (String × PyVal)) :=
  [[("title", strL "Parquet Guide"),
    ("chapters", listL
      [dictL [("name", strL "Introduction"),
         ("sections", listL
           [dictL [("name", strL "What is Parquet"), ("page_count", intL 5)],
            dictL [("name", strL "History"), ("page_count", intL 3)]])],
       dictL [("name", strL "Schema"),
         ("sections", listL
           [dictL [("name", strL "Types"), ("page_count", intL 10)],
            dictL [("name", strL "Nesting"), ("page_count", intL 8)],
            dictL [("name", strL "Repetition"), ("page_count", intL 12)]])]])],
   [("title", strL "Empty Chapters"),
    ("chapters", listL
      [dictL [("name", strL "The Only Chapter"), ("sections", listL [])]])],
   [("title", strL "No Chapters"), ("chapters", listL [])]]

def nested_list_struct_table : PyTable :=
  fromPylist ["title", "chapters"] nested_list_struct_data

/-- deep_nested_struct_data (src lines 386-426), row-oriented. -/
def deep_nested_struct_data : List (List (String × PyVal)) :=
  [[("customer_id", intL 1), ("name", strL "Alice"),
    ("account", dictL [("id", strL "ACC-001"),
      ("organization", dictL [("name", strL "Acme Corp"),
        ("address", dictL [("street", strL "123 Main St"),
          ("city", strL "New York"), ("zip", intL 10001)])])])],
   [("customer_id", intL 2), ("name", strL "Bob"),
    ("account", dictL [("id", strL "ACC-002"),
      ("organization", dictL [("name", strL "TechStart"),
        ("address", none_)])])],
   [("customer_id", intL 3), ("name", strL "Charlie"),
    ("account", dictL [("id", strL "ACC-003"), ("organization", none_)])],
   [("customer_id", intL 4), ("name", strL "Diana"), ("account", none_)]]

def deep_nested_struct_table : PyTable :=
  fromPylist ["customer_id", "name", "account"] deep_nested_struct_data

/-- nested_list_data (src lines 449-483), row-oriented. -/
def nested_list_data : List (List (String × PyVal)) :=
  [[("id", intL 1),
    ("matrix", listL [listL [intL 1, intL 2], listL [intL 3, intL 4, intL 5],
      listL [intL 6]]),
    ("string_matrix", listL [listL [strL "a", strL "b"], listL [strL "c"]]),
    ("timestamp_matrix", listL
      [listL [dtL 2025 1 1 10 0 0 0, dtL 2025 1 1 11 0 0 0],
       listL [dtL 2025 1 2 12 0 0 0]])],
   [("id", intL 2),
    ("matrix", listL [listL [intL 10, intL 20]]),
    ("string_matrix", listL [listL [strL "x", strL "y", strL "z"]]),
    ("timestamp_matrix", listL [listL [dtL 2025 6 15 8 30 0 0]])],
   [("id", intL 3),
    ("matrix", listL [listL [], listL [intL 100], listL []]),
    ("string_matrix", listL [listL []]),
    ("timestamp_matrix", listL
      [listL [], listL [dtL 2025 12 31 23 59 59 0], listL []])],
   [("id", intL 4), ("matrix", listL []), ("string_matrix", listL []),
    ("timestamp_matrix", listL [])],
   [("id", intL 5), ("matrix", none_), ("string_matrix", none_),
    ("timestamp_matrix", none_)]]

def nested_list_table : PyTable :=
  fromPylist ["id", "matrix", "string_matrix", "timestamp_matrix"]
    nested_list_data

/-- address_book_data (src lines 519-535), row-oriented. -/
def address_book_data : List (List (String × PyVal)) :=
  [[("owner", strL "Julien Le Dem"),
    ("ownerPhoneNumbers", listL [strL "555 123 4567", strL "555 666 1337"]),
    ("contacts", listL
      [dictL [("name", strL "Dmitriy Ryaboy"),
         ("phoneNumber", strL "555 987 6543")],
       dictL [("name", strL "Chris Aniszczyk"), ("phoneNumber", none_)]])],
   [("owner", strL "A. Nonymous"), ("ownerPhoneNumbers", listL []),
    ("contacts", listL [])]]

def address_book_table : PyTable :=
  fromPylist ["owner", "ownerPhoneNumbers", "contacts"] address_book_data

/-- triple_nested_data (src lines 556-591), row-oriented. -/
def triple_nested_data : List (List (String × PyVal)) :=
  [[("id", intL 1),
    ("cube", listL
      [listL [listL [intL 1, intL 2], listL [intL 3, intL 4]],
       listL [listL [intL 5, intL 6], listL [intL 7, intL 8]]])],
   [("id", intL 2),
    ("cube", listL
      [listL [listL [intL 10]],
       listL [listL [intL 20, intL 21], listL [intL 22]]])],
   [("id", intL 3),
    ("cube", listL [listL [listL []], listL [listL [intL 100]]])],
   [("id", intL 4), ("cube", listL [])],
   [("id", intL 5), ("cube", none_)]]

def triple_nested_table : PyTable :=
  fromPylist ["id", "cube"] triple_nested_data

/-- delta_int_data (src lines 618-622): id = range(1, 201), value_i32 =
[i * 10 for i in range(1, 201)], value_i64 = [i * i for i in range(1, 201)]. -/
def delta_int_data : PyTable :=
  [("id", (List.range' 1 200).map (fun i => intL i)),
   ("value_i32", (List.range' 1 200).map (fun i => intL (i * 10))),
   ("value_i64", (List.range' 1 200).map (fun i => intL (i * i)))]

def delta_int_table : PyTable := delta_int_data

/-- delta_optional_data (src lines 646-649): id = range(1, 101),
optional_value = [i * 5 if i % 3 != 0 else None for i in range(1, 101)]. -/
def delta_optional_data : PyTable :=
  [("id", (List.range' 1 100).map (fun i => intL i)),
   ("optional_value",
     (List.range' 1 100).map (fun i =>
       if i % 3 ≠ 0 then intL (i * 5) else none_))]

def delta_optional_table : PyTable := delta_optional_data

/-- delta_string_data (src lines 673-677). -/
def delta_string_data : PyTable :=
  [("id", [intL 1, intL 2, intL 3, intL 4, intL 5]),
   ("name", [strL "Hello", strL "World", strL "Foobar", strL "Test",
     strL "Delta"]),
   ("description", [strL "Short", strL "A bit longer text",
     strL "Medium length", strL "Tiny", strL "Another string value"])]

def delta_string_table : PyTable := delta_string_data

/-- delta_byte_array_data (src lines 702-726). -/
def delta_byte_array_data : PyTable :=
  [("id", [intL 1, intL 2, intL 3, intL 4, intL 5, intL 6, intL 7, intL 8]),
   ("prefix_strings",
     [strL "apple", strL "application", strL "apply", strL "banana",
      strL "bandana", strL "band", strL "bandwidth", strL "ban"]),
   ("varying_strings",
     [strL "hello", strL "world", strL "wonderful", strL "wonder",
      strL "wander", strL "wandering", strL "test", strL "testing"])]

def delta_byte_array_table : PyTable := delta_byte_array_data

/-- simple_map_data (src lines 754-780), row-oriented; map cells are entry
lists. -/
def simple_map_data : List (List (String × PyVal)) :=
  [[("id", intL 1), ("name", strL "Alice"),
    ("attributes", listL [entL (strL "age") (intL 30),
      entL (strL "score") (intL 95), entL (strL "level") (intL 5)])],
   [("id", intL 2), ("name", strL "Bob"),
    ("attributes", listL [entL (strL "age") (intL 25),
      entL (strL "score") (intL 88)])],
   [("id", intL 3), ("name", strL "Charlie"), ("attributes", listL [])],
   [("id", intL 4), ("name", strL "Diana"), ("attributes", none_)],
   [("id", intL 5), ("name", strL "Eve"),
    ("attributes", listL [entL (strL "single_key") (intL 42)])]]

def simple_map_table : PyTable :=
  fromPylist ["id", "name", "attributes"] simple_map_data

/-- map_types_data (src lines 803-822), row-oriented. -/
def map_types_data : List (List (String × PyVal)) :=
  [[("id", intL 1),
    ("string_map", listL [entL (strL "greeting") (strL "hello"),
      entL (strL "farewell") (strL "goodbye")]),
    ("int_map", listL [entL (intL 1) (intL 100), entL (intL 2) (intL 200),
      entL (intL 3) (intL 300)]),
    ("bool_map", listL [entL (strL "active") (boolL true),
      entL (strL "verified") (boolL false)])],
   [("id", intL 2),
    ("string_map", listL [entL (strL "color") (strL "blue")]),
    ("int_map", listL [entL (intL 10) (intL 1000)]),
    ("bool_map", listL [entL (strL "enabled") (boolL true)])],
   [("id", intL 3), ("string_map", listL []), ("int_map", listL []),
    ("bool_map", listL [])]]

def map_types_table : PyTable :=
  fromPylist ["id", "string_map", "int_map", "bool_map"] map_types_data

/-- map_of_maps_data (src lines 844-877), row-oriented. -/
def map_of_maps_data : List (List (String × PyVal)) :=
  [[("id", intL 1), ("name", strL "Department A"),
    ("nested_map", listL
      [entL (strL "team1") (listL [entL (strL "alice") (intL 100),
         entL (strL "bob") (intL 95)]),
       entL (strL "team2") (listL [entL (strL "charlie") (intL 88),
         entL (strL "diana") (intL 92), entL (strL "eve") (intL 90)])])],
   [("id", intL 2), ("name", strL "Department B"),
    ("nested_map", listL
      [entL (strL "solo_team") (listL [entL (strL "frank") (intL 75)])])],
   [("id", intL 3), ("name", strL "Department C"),
    ("nested_map", listL [entL (strL "empty_team") (listL [])])],
   [("id", intL 4), ("name", strL "Department D"), ("nested_map", listL [])],
   [("id", intL 5), ("name", strL "Department E"), ("nested_map", none_)]]

def map_of_maps_table : PyTable :=
  fromPylist ["id", "name", "nested_map"] map_of_maps_data

/-- list_of_maps_data (src lines 898-927), row-oriented. -/
def list_of_maps_data : List (List (String × PyVal)) :=
  [[("id", intL 1),
    ("map_list", listL
      [listL [entL (strL "a") (intL 1), entL (strL "b") (intL 2)],
       listL [entL (strL "c") (intL 3)],
       listL [entL (strL "d") (intL 4), entL (strL "e") (intL 5),
         entL (strL "f") (intL 6)]])],
   [("id", intL 2),
    ("map_list", listL [listL [entL (strL "single") (intL 100)]])],
   [("id", intL 3), ("map_list", listL [listL []])],
   [("id", intL 4), ("map_list", listL [])],
   [("id", intL 5), ("map_list", none_)]]

def list_of_maps_table : PyTable :=
  fromPylist ["id", "map_list"] list_of_maps_data

/-- map_struct_value_data (src lines 953-971), row-oriented. -/
def map_struct_value_data : List (List (String × PyVal)) :=
  [[("id", intL 1),
    ("people", listL
      [entL (strL "employee1") (dictL [("name", strL "Alice"),
         ("age", intL 30)]),
       entL (strL "employee2") (dictL [("name", strL "Bob"),
         ("age", intL 25)])])],
   [("id", intL 2),
    ("people", listL [entL (strL "manager") (dictL [("name", strL "Charlie"),
      ("age", intL 45)])])],
   [("id", intL 3), ("people", listL [])]]

def map_struct_value_table : PyTable :=
  fromPylist ["id", "people"] map_struct_value_data

/-- primitive_types_data (src lines 1001-1009). -/
def primitive_types_data : PyTable :=
  [("int_col", [intL 1, intL 2, intL 3]),
   ("long_col", [intL 100, intL 200, intL 300]),
   ("float_col", [decL 15 1, decL 25 1, decL 35 1]),
   ("double_col", [decL 105 1, decL 205 1, decL 305 1]),
   ("bool_col", [boolL true, boolL false, boolL true]),
   ("string_col", [strL "hello", strL "world", strL "test"]),
   ("binary_col", [bytesL [0, 1, 2], bytesL [3, 4, 5], bytesL [6, 7, 8]])]

def primitive_types_table : PyTable := primitive_types_data

/-- primitive_lists_data (src lines 1032-1057), row-oriented. -/
def primitive_lists_data : List (List (String × PyVal)) :=
  [[("id", intL 1),
    ("int_list", listL [intL 1, intL 2, intL 3]),
    ("long_list", listL [intL 100, intL 200, intL 300]),
    ("double_list", listL [decL 11 1, decL 22 1, decL 33 1])],
   [("id", intL 2),
    ("int_list", listL [intL 10, intL 20]),
    ("long_list", listL [intL 1000]),
    ("double_list", listL [decL 105 1, decL 205 1])],
   [("id", intL 3),
    ("int_list", listL []),
    ("long_list", listL [intL 1, intL 2, intL 3, intL 4, intL 5]),
    ("double_list", listL [])],
   [("id", intL 4), ("int_list", none_), ("long_list", none_),
    ("double_list", none_)]]

def primitive_lists_table : PyTable :=
  fromPylist ["id", "int_list", "long_list", "double_list"]
    primitive_lists_data

/-- Every column of the table has exactly n cells. -/
def columnsEqualLen (t : PyTable) (n : Nat) : Prop :=
  ∀ c ∈ t, (c.2).length = n

instance (t : PyTable) (n : Nat) : Decidable (columnsEqualLen t n) := by
  unfold columnsEqualLen
  exact List.decidableBAll _ t

/-- C9: in every fixture table the script constructs, all columns have the
same number of rows — in particular every column of the logical-types table
has exactly 3 entries, every delta-integer column exactly 200, and every
delta-optional column exactly 100 — so each written file's row groups
satisfy the equal-row-count requirement. -/
theorem C9_equal_column_lengths :
    columnsEqualLen simple_table 3 ∧
    columnsEqualLen table_with_nulls 3 ∧
    columnsEqualLen table_dict 5 ∧
    columnsEqualLen logical_types_table 3 ∧
    columnsEqualLen nested_struct_table 3 ∧
    columnsEqualLen list_basic_table 4 ∧
    columnsEqualLen list_struct_table 3 ∧
    columnsEqualLen nested_list_struct_table 3 ∧
    columnsEqualLen deep_nested_struct_table 4 ∧
    columnsEqualLen nested_list_table 5 ∧
    columnsEqualLen address_book_table 2 ∧
    columnsEqualLen triple_nested_table 5 ∧
    columnsEqualLen delta_int_table 200 ∧
    columnsEqualLen delta_optional_table 100 ∧
    columnsEqualLen delta_string_table 5 ∧
    columnsEqualLen delta_byte_array_table 8 ∧
    columnsEqualLen simple_map_table 5 ∧
    columnsEqualLen map_types_table 3 ∧
    columnsEqualLen map_of_maps_table 5 ∧
    columnsEqualLen list_of_maps_table 5 ∧
    columnsEqualLen map_struct_value_table 3 ∧
    columnsEqualLen primitive_types_table 3 ∧
    columnsEqualLen primitive_lists_table 4 := by
  decide

/-- The ambient inputs a run of the script could in principle observe:
a random seed, a clock reading, environment variables and argv. The
script reads none of them. -/
structure Env where
  seed : Nat
  clockNanos : Nat
  envVars : List (String × String)
  argv : List String

/-- Whether write_table dictionary-encodes: False, or a named column list. -/
inductive DictOpt where
  | noDict
  | cols (cs : List String)

/-- One pq.write_table call: output path, table, use_dictionary,
compression, data_page_version, column_encoding. -/
structure WriteCall where
  path : String
  table : PyTable
  useDictionary : DictOpt
  compression : Option String
  dataPageVersion : String
  columnEncoding : List (String × String)

/-- The tables the script constructs, in construction order, as a function
of the ambient environment (which the script never reads). -/
def buildTables (_e : Env) : List PyTable :=
  [simple_table, table_with_nulls, table_dict, logical_types_table,
   nested_struct_table, list_basic_table, list_struct_table,
   nested_list_struct_table, deep_nested_struct_table, nested_list_table,
   address_book_table, triple_nested_table, delta_int_table,
   delta_optional_table, delta_string_table, delta_byte_array_table,
   simple_map_table, map_types_table, map_of_maps_table, list_of_maps_table,
   map_struct_value_table, primitive_types_table, primitive_lists_table]

/-- The script's 24 write_table calls, in order, as a function of the
ambient environment (which the script never reads). simple_table is written
twice: once uncompressed and once with snappy. -/
def scriptWrites (_e : Env) : List WriteCall :=
  [⟨"core/src/test/resources/plain_uncompressed.parquet", simple_table,
     .noDict, none, "1.0", []⟩,
   ⟨"core/src/test/resources/plain_uncompressed_with_nulls.parquet",
     table_with_nulls, .noDict, none, "1.0", []⟩,
   ⟨"core/src/test/resources/plain_snappy.parquet", simple_table, .noDict,
     some "snappy", "1.0", []⟩,
   ⟨"core/src/test/resources/dictionary_uncompressed.parquet", table_dict,
     .cols ["category"], none, "1.0", []⟩,
   ⟨"core/src/test/resources/logical_types_test.parquet",
     logical_types_table, .noDict, none, "1.0", []⟩,
   ⟨"core/src/test/resources/nested_struct_test.parquet",
     nested_struct_table, .noDict, none, "1.0", []⟩,
   ⟨"core/src/test/resources/list_basic_test.parquet", list_basic_table,
     .noDict, none, "1.0", []⟩,
   ⟨"core/src/test/resources/list_struct_test.parquet", list_struct_table,
     .noDict, none, "1.0", []⟩,
   ⟨"core/src/test/resources/nested_list_struct_test.parquet",
     nested_list_struct_table, .noDict, none, "1.0", []⟩,
   ⟨"core/src/test/resources/deep_nested_struct_test.parquet",
     deep_nested_struct_table, .noDict, none, "1.0", []⟩,
   ⟨"core/src/test/resources/nested_list_test.parquet", nested_list_table,
     .noDict, none, "1.0", []⟩,
   ⟨"core/src/test/resources/address_book_test.parquet", address_book_table,
     .noDict, none, "1.0", []⟩,
   ⟨"core/src/test/resources/triple_nested_list_test.parquet",
     triple_nested_table, .noDict, none, "1.0", []⟩,
   ⟨"core/src/test/resources/delta_binary_packed_test.parquet",
     delta_int_table, .noDict, none, "1.0",
     [("id", "DELTA_BINARY_PACKED"), ("value_i32", "DELTA_BINARY_PACKED"),
      ("value_i64", "DELTA_BINARY_PACKED")]⟩,
   ⟨"core/src/test/resources/delta_binary_packed_optional_test.parquet",
     delta_optional_table, .noDict, none, "1.0",
     [("id", "DELTA_BINARY_PACKED"),
      ("optional_value", "DELTA_BINARY_PACKED")]⟩,
   ⟨"core/src/test/resources/delta_length_byte_array_test.parquet",
     delta_string_table, .noDict, none, "1.0",
     [("name", "DELTA_LENGTH_BYTE_ARRAY"),
      ("description", "DELTA_LENGTH_BYTE_ARRAY")]⟩,
   ⟨"core/src/test/resources/delta_byte_array_test.parquet",
     delta_byte_array_table, .noDict, none, "1.0",
     [("prefix_strings", "DELTA_BYTE_ARRAY"),
      ("varying_strings", "DELTA_BYTE_ARRAY")]⟩,
   ⟨"core/src/test/resources/simple_map_test.parquet", simple_map_table,
     .noDict, none, "1.0", []⟩,
   ⟨"core/src/test/resources/map_types_test.parquet", map_types_table,
     .noDict, none, "1.0", []⟩,
   ⟨"core/src/test/resources/map_of_maps_test.parquet", map_of_maps_table,
     .noDict, none, "1.0", []⟩,
   ⟨"core/src/test/resources/list_of_maps_test.parquet", list_of_maps_table,
     .noDict, none, "1.0", []⟩,
   ⟨"core/src/test/resources/map_struct_value_test.parquet",
     map_struct_value_table, .noDict, none, "1.0", []⟩,
   ⟨"core/src/test/resources/primitive_types_test.parquet",
     primitive_types_table, .noDict, none, "1.0", []⟩,
   ⟨"core/src/test/resources/primitive_lists_test.parquet",
     primitive_lists_table, .noDict, none, "1.0", []⟩]

/-- C10: the script is deterministic — its table contents and its write
calls (paths, schemas, values, encodings, compression settings) are the
same function value for every ambient environment, since only fixed
literals and closed-form comprehensions are used. -/
theorem C10_deterministic_generation :
    (∀ e1 e2 : Env, buildTables e1 = buildTables e2) ∧
    (∀ e1 e2 : Env, scriptWrites e1 = scriptWrites e2) :=
  ⟨fun _ _ => rfl, fun _ _ => rfl⟩
